import Mathlib

/-! # Open Heritage 3D scraper: the page-to-record extraction pipeline

A shallow embedding of `src/scrape.js`.  JavaScript strings are Lean strings, the
cheerio document is a tree of text and element nodes, `null` and `undefined` are
`none`, and every `each` loop that pushes onto an array is a left fold that appends
at the end.  The definitions come first, the theorems about them after.
-/

namespace Scrape

/-! ## JavaScript string primitives -/

/-- ECMAScript WhiteSpace and LineTerminator code points: the characters removed by
`String.prototype.trim` and matched by the regular-expression class `\s`. -/
def isJsWhitespace (c : Char) : Bool :=
  let n := c.toNat
  n == 0x09 || n == 0x0A || n == 0x0B || n == 0x0C || n == 0x0D || n == 0x20 ||
  n == 0xA0 || n == 0x1680 || (0x2000 ≤ n && n ≤ 0x200A) || n == 0x2028 ||
  n == 0x2029 || n == 0x202F || n == 0x205F || n == 0x3000 || n == 0xFEFF

/-- The regular-expression class `\w` (no unicode flag): `[A-Za-z0-9_]`. -/
def isWordChar (c : Char) : Bool :=
  let n := c.toNat
  (0x41 ≤ n && n ≤ 0x5A) || (0x61 ≤ n && n ≤ 0x7A) || (0x30 ≤ n && n ≤ 0x39) || n == 0x5F

/-- ECMAScript LineTerminator code points, the characters the regular-expression
atom `.` does not match. -/
def isLineTerminator (c : Char) : Bool :=
  let n := c.toNat
  n == 0x0A || n == 0x0D || n == 0x2028 || n == 0x2029

/-- Lower-casing of one character by `String.prototype.toLowerCase`.  The ASCII
capitals move to the ASCII small letters; U+0130 becomes `i` followed by U+0307 and
U+212A (the Kelvin sign) becomes `k`, the only two characters outside ASCII whose
lower-case form contains an ASCII character.  Every other character outside ASCII
lower-cases to characters outside ASCII and is kept as it is here; `toLowerCase` is
used by `normalizeLabel` only, which deletes all of them afterwards. -/
def lowerChar (c : Char) : List Char :=
  let n := c.toNat
  if 0x41 ≤ n ∧ n ≤ 0x5A then [Char.ofNat (n + 0x20)]
  else if n = 0x130 then [Char.ofNat 0x69, Char.ofNat 0x307]
  else if n = 0x212A then [Char.ofNat 0x6B]
  else [c]

/-- Characters of `toLowerCase`. -/
def lowerChars : List Char → List Char
  | [] => []
  | c :: cs => lowerChar c ++ lowerChars cs

/-- Method `String.prototype.toLowerCase`. -/
def toLowerCase (s : String) : String := ⟨lowerChars s.data⟩

/-- Characters of `trim`: leading and trailing whitespace dropped. -/
def trimChars (l : List Char) : List Char :=
  ((l.dropWhile isJsWhitespace).reverse.dropWhile isJsWhitespace).reverse

/-- Method `String.prototype.trim`. -/
def jsTrim (s : String) : String := ⟨trimChars s.data⟩

/-- Method `String.prototype.startsWith`. -/
def startsWith (s pre : String) : Bool := pre.data.isPrefixOf s.data

/-- Characters of `includes`: does the pattern occur at some position. -/
def includesChars (pat : List Char) : List Char → Bool
  | [] => pat.isPrefixOf []
  | c :: cs => pat.isPrefixOf (c :: cs) || includesChars pat cs

/-- Method `String.prototype.includes`. -/
def includes (s pat : String) : Bool := includesChars pat.data s.data

/-- Characters of `split` on a one-character separator: the pieces between the
separators, empty pieces included; the empty string gives one empty piece. -/
def splitChars (sep : Char) : List Char → List (List Char)
  | [] => [[]]
  | c :: cs =>
    if c = sep then [] :: splitChars sep cs
    else
      match splitChars sep cs with
      | [] => [[c]]
      | p :: ps => (c :: p) :: ps

/-- Method `String.prototype.split` with a one-character separator. -/
def jsSplit (sep : Char) (s : String) : List String :=
  (splitChars sep s.data).map String.mk

/-! ## Label normalizer (`normalizeLabel`, lines 107-110) -/

/-- The call `replace(/\s+/g, '')`: every maximal run of whitespace is replaced by
nothing, which removes exactly the whitespace characters. -/
def removeWhitespace (s : String) : String := ⟨s.data.filter (fun c => !isJsWhitespace c)⟩

/-- The call `replace(/[^\w]/g, '')`: every character outside `\w` is removed. -/
def removeNonWord (s : String) : String := ⟨s.data.filter isWordChar⟩

/-- Function `normalizeLabel`:
`text.toLowerCase().trim().replace(/\s+/g, '').replace(/[^\w]/g, '')`. -/
def normalizeLabel (text : String) : String :=
  removeNonWord (removeWhitespace (jsTrim (toLowerCase text)))

/-! ## The parsed document (cheerio) -/

/-- A node of a parsed HTML document: a text node, or an element with its tag name,
its attributes in source order and its children.  Comments carry no text and match no
selector, and are left out. -/
inductive Node where
  | text (data : String) : Node
  | element (tag : String) (attrs : List (String × String)) (children : List Node) : Node

/-- Children of a node (none for a text node). -/
def Node.children : Node → List Node
  | .text _ => []
  | .element _ _ cs => cs

/-- Method `.attr(name)` on one element: the value of the first attribute of that
name, `none` (undefined) when there is none. -/
def Node.attr (name : String) : Node → Option String
  | .text _ => none
  | .element _ as _ => (as.find? (fun a => a.1 == name)).map (fun a => a.2)

/-- Method `.attr(name)` on a selection: the attribute of its first element. -/
def firstAttr (name : String) : List Node → Option String
  | [] => none
  | n :: _ => n.attr name

mutual
/-- Characters of the text content of a node: its text nodes, in document order. -/
def Node.textChars : Node → List Char
  | .text d => d.data
  | .element _ _ cs => textCharsList cs
/-- Characters of the text content of a sequence of nodes. -/
def textCharsList : List Node → List Char
  | [] => []
  | n :: ns => n.textChars ++ textCharsList ns
end

/-- Method `.text()` on one element. -/
def Node.textContent (n : Node) : String := ⟨n.textChars⟩

/-- Method `.text()` on a loaded fragment: the text of all its nodes. -/
def textContent (nodes : List Node) : String := ⟨textCharsList nodes⟩

mutual
/-- Elements of a subtree whose tag satisfies `p`, the root included, in document
order (pre-order). -/
def Node.select (p : String → Bool) : Node → List Node
  | .text _ => []
  | .element t as cs =>
    if p t then Node.element t as cs :: selectList p cs else selectList p cs
/-- Elements of a sequence of subtrees whose tag satisfies `p`, in document order:
a tag selector applied to a loaded fragment. -/
def selectList (p : String → Bool) : List Node → List Node
  | [] => []
  | n :: ns => n.select p ++ selectList p ns
end

/-- Method `.find(selector)` on one element for a selector that is a list of tag
names: the matching descendants, in document order. -/
def Node.find (p : String → Bool) (n : Node) : List Node := selectList p n.children

/-- Selector `a`. -/
def isAnchor (tag : String) : Bool := tag == "a"

/-- Selector `th, td` (and `td, th`). -/
def isCell (tag : String) : Bool := tag == "th" || tag == "td"

/-- Selector `td`. -/
def isDataCell (tag : String) : Bool := tag == "td"

/-- Selector `tr`. -/
def isRow (tag : String) : Bool := tag == "tr"

/-- Selector `table`. -/
def isTable (tag : String) : Bool := tag == "table"

/-- The expression `cells.eq(i).html()` handed to `cheerio.load`: the content of the
i-th cell as a fragment; serialising and parsing again gives the same nodes.  An
index outside the selection gives the empty fragment. -/
def cellHtml (cells : List Node) (i : Nat) : List Node :=
  match cells[i]? with
  | some c => c.children
  | none => []

/-- The expression `cells.eq(i).text()`. -/
def cellText (cells : List Node) (i : Nat) : String :=
  match cells[i]? with
  | some c => c.textContent
  | none => ""

/-! ## Cell and entity extractor (`extractCellData`, `extractEntities`, lines 95-141) -/

/-- The ternary used for every link:
`link ? (link.startsWith('http') ? link : 'https://openheritage3d.org/' + link) : null`.
An undefined or empty href is falsy. -/
def resolveLink (href : Option String) : Option String :=
  match href with
  | none => none
  | some link =>
    if link = "" then none
    else if startsWith link "http" then some link
    else some ("https://openheritage3d.org/" ++ link)

/-- Result of `extractCellData`. -/
structure CellData where
  text : String
  link : Option String
deriving DecidableEq, Repr

/-- Function `extractCellData`: the trimmed text of the fragment and the href of its
first anchor, made absolute. -/
def extractCellData (cell : List Node) : CellData :=
  let link := firstAttr "href" (selectList isAnchor cell)
  let text := jsTrim (textContent cell)
  { text := text, link := resolveLink link }

/-- An entity: a named party with an optional link. -/
structure Entity where
  name : String
  link : Option String
deriving DecidableEq, Repr

/-- Body of the `each` callback of `extractEntities` (lines 117-127): an anchor whose
trimmed text is non-empty pushes one entity, any other anchor pushes nothing. -/
def pushAnchor (entities : List Entity) (el : Node) : List Entity :=
  let href := el.attr "href"
  let text := jsTrim el.textContent
  if text ≠ "" then entities ++ [{ name := text, link := resolveLink href }]
  else entities

/-- Function `extractEntities`: one entity for each anchor with text; when that gives
nothing, the comma-separated pieces of the text, without links. -/
def extractEntities (cell : List Node) : List Entity :=
  let entities := (selectList isAnchor cell).foldl pushAnchor []
  if entities.length = 0 then
    let text := jsTrim (textContent cell)
    if text ≠ "" then
      let names := ((jsSplit ',' text).map jsTrim).filter (fun n => n ≠ "")
      names.foldl (fun acc name => acc ++ [{ name := name, link := none }]) entities
    else entities
  else entities

/-! ## Listing parser (`fetchData`, lines 257-329) -/

/-- One attempt of `/doi\.org\/(.+)$/` at the start of the input: the literal
`doi.org/`, then one or more characters none of which is a line terminator, up to
the end of the input.  The result is the capture group. -/
def doiMatchHere (l : List Char) : Option (List Char) :=
  if "doi.org/".data.isPrefixOf l then
    let rest := l.drop 8
    if rest ≠ [] ∧ rest.all (fun c => !isLineTerminator c) then some rest else none
  else none

/-- The call `link.match(/doi\.org\/(.+)$/)` on characters: the attempt at the
leftmost position that succeeds. -/
def doiMatchChars : List Char → Option (List Char)
  | [] => none
  | c :: cs =>
    match doiMatchHere (c :: cs) with
    | some r => some r
    | none => doiMatchChars cs

/-- Capture group 1 of `link.match(/doi\.org\/(.+)$/)`, `none` when there is no match. -/
def doiMatch (link : String) : Option String := (doiMatchChars link.data).map String.mk

/-- Lines 296-303: the DOI of a row from the data of its DOI cell. -/
def resolveDoi (doiData : CellData) : String :=
  match doiData.link with
  | none => doiData.text
  | some link =>
    if includes link "doi.org/" then
      match doiMatch link with
      | some m => m
      | none => doiData.text
    else doiData.text

/-- A project stub, one element of the array `fetchData` returns. -/
structure ProjectStub where
  project_name : String
  country : String
  doi : String
  status : String
  collectors : String
  keywords : String
  contributor : String
  project_link : Option String
  doi_link : Option String
  collectors_link : Option String
deriving DecidableEq, Repr

/-- The cells of a listing row, `$(row).find('th, td')`. -/
def rowCells (row : Node) : List Node := row.find isCell

/-- The DOI resolved for a row (lines 283 and 296-303). -/
def rowDoi (row : Node) : String := resolveDoi (extractCellData (cellHtml (rowCells row) 2))

/-- The object pushed for a row (lines 281-294 and 306-317). -/
def rowStub (row : Node) : ProjectStub :=
  let cells := rowCells row
  let projectData := extractCellData (cellHtml cells 0)
  let countryData := extractCellData (cellHtml cells 1)
  let doiData := extractCellData (cellHtml cells 2)
  let statusData := extractCellData (cellHtml cells 3)
  let collectorsData := extractCellData (cellHtml cells 4)
  let keywordsData : CellData :=
    if cells.length ≥ 7 then extractCellData (cellHtml cells 5) else { text := "", link := none }
  let contributorData : CellData :=
    if cells.length ≥ 7 then extractCellData (cellHtml cells 6) else { text := "", link := none }
  { project_name := projectData.text
    country := countryData.text
    doi := resolveDoi doiData
    status := statusData.text
    collectors := collectorsData.text
    keywords := keywordsData.text
    contributor := contributorData.text
    project_link := projectData.link
    doi_link := doiData.link
    collectors_link := collectorsData.link }

/-- Body of the row loop of `fetchData` (lines 276-320). -/
def processRow (projects : List ProjectStub) (row : Node) : List ProjectStub :=
  let cells := rowCells row
  if cells.length ≥ 5 then
    let doi := rowDoi row
    if doi ≠ "" ∧ doi ≠ "N/A" then projects ++ [rowStub row] else projects
  else projects

/-- Function `fetchData` on a fetched listing page.  The argument is what the two
selector queries give: `none` when `$('#demo')` matches nothing, otherwise the rows
of `table.find('tbody tr')` in document order. -/
def fetchData (table : Option (List Node)) : Except String (List ProjectStub) :=
  match table with
  | none => .error "Table with id=\"demo\" not found"
  | some rows => .ok (rows.foldl processRow [])

/-! ## Serialisation (`JSON.stringify`) -/

/-- Hexadecimal digit, lower case. -/
def hexDigit (n : Nat) : Char :=
  if n < 10 then Char.ofNat (0x30 + n) else Char.ofNat (0x57 + n)

/-- Escape of one character inside a JSON string: the quote, the backslash, the five
short escapes, and `\u00xx` for the other control characters. -/
def jsonEscapeChar (c : Char) : List Char :=
  let n := c.toNat
  if n = 0x22 then [Char.ofNat 0x5C, Char.ofNat 0x22]
  else if n = 0x5C then [Char.ofNat 0x5C, Char.ofNat 0x5C]
  else if n = 0x08 then [Char.ofNat 0x5C, Char.ofNat 0x62]
  else if n = 0x09 then [Char.ofNat 0x5C, Char.ofNat 0x74]
  else if n = 0x0A then [Char.ofNat 0x5C, Char.ofNat 0x6E]
  else if n = 0x0C then [Char.ofNat 0x5C, Char.ofNat 0x66]
  else if n = 0x0D then [Char.ofNat 0x5C, Char.ofNat 0x72]
  else if n < 0x20 then
    [Char.ofNat 0x5C, Char.ofNat 0x75, Char.ofNat 0x30, Char.ofNat 0x30,
      hexDigit (n / 16), hexDigit (n % 16)]
  else [c]

/-- Escaped characters of a JSON string. -/
def jsonEscapeChars : List Char → List Char
  | [] => []
  | c :: cs => jsonEscapeChar c ++ jsonEscapeChars cs

/-- Serialisation of a string: the escaped characters between quotes. -/
def jsonString (s : String) : String := "\"" ++ String.mk (jsonEscapeChars s.data) ++ "\""

/-- Serialisation of a value that is a string or null. -/
def jsonNullable : Option String → String
  | none => "null"
  | some s => jsonString s

/-- The items of an array joined by commas. -/
def jsonItems : List String → String
  | [] => ""
  | [x] => x
  | x :: y :: rest => x ++ "," ++ jsonItems (y :: rest)

/-- Serialisation of an array from the serialisations of its items. -/
def jsonArray (items : List String) : String := "[" ++ jsonItems items ++ "]"

/-- Serialisation of one entity, keys in insertion order. -/
def jsonEntity (e : Entity) : String :=
  "\x7b\"name\":" ++ jsonString e.name ++ ",\"link\":" ++ jsonNullable e.link ++ "\x7d"

/-- The call `JSON.stringify(entities)`. -/
def stringifyEntities (entities : List Entity) : String := jsonArray (entities.map jsonEntity)

/-- A data-type descriptor, one element of the array `dataTypes`. -/
structure DataType where
  type : String
  size : String
  device_name : String
  device_type : String
deriving DecidableEq, Repr

/-- Serialisation of one data-type descriptor. -/
def jsonDataType (d : DataType) : String :=
  "\x7b\"type\":" ++ jsonString d.type ++ ",\"size\":" ++ jsonString d.size ++
    ",\"device_name\":" ++ jsonString d.device_name ++
    ",\"device_type\":" ++ jsonString d.device_type ++ "\x7d"

/-- The call `JSON.stringify(dataTypes)`. -/
def stringifyDataTypes (dataTypes : List DataType) : String :=
  jsonArray (dataTypes.map jsonDataType)

/-! ## Detail page parser (`fetchProjectDetails`, lines 332-508) -/

/-- A JavaScript number: NaN, an infinity, or a finite value.  The sign of zero is not
kept. -/
inductive JsNumber where
  | nan : JsNumber
  | infinite (negative : Bool) : JsNumber
  | finite (value : Rat) : JsNumber
deriving DecidableEq, Repr

/-- The object `details` of `fetchProjectDetails` (lines 348-372).  The two
description fields hold the inner markup of the value cell, kept as the parsed
fragment. -/
structure ProjectDetails where
  doi : String
  site_description : Option (List Node)
  project_description : Option (List Node)
  external_project_link : Option String
  additional_information_link : Option String
  collection_date : Option String
  publication_date : Option String
  license : Option String
  license_url : Option String
  reuse_score : Option String
  citation : Option String
  point_cloud_iframe : Option String
  bbox_json : Option String
  center_lat : Option JsNumber
  center_lng : Option JsNumber
  data_types_json : Option String
  downloads_json : Option String
  contributors_json : Option String
  collectors_json : Option String
  funders_json : Option String
  partners_json : Option String
  site_authority : Option String
  datacite_json : Option String

/-- The initial value of `details` (lines 348-372): the DOI of the project, every
other field null. -/
def initialDetails (doi : String) : ProjectDetails :=
  { doi := doi
    site_description := none
    project_description := none
    external_project_link := none
    additional_information_link := none
    collection_date := none
    publication_date := none
    license := none
    license_url := none
    reuse_score := none
    citation := none
    point_cloud_iframe := none
    bbox_json := none
    center_lat := none
    center_lng := none
    data_types_json := none
    downloads_json := none
    contributors_json := none
    collectors_json := none
    funders_json := none
    partners_json := none
    site_authority := none
    datacite_json := none }

/-- Lines 449-453: the license link of a value cell, given a scheme when it does not
start with `http`; an undefined or empty href leaves the field as it was. -/
def licenseUrl (old : Option String) (licenseLink : Option String) : Option String :=
  match licenseLink with
  | none => old
  | some l =>
    if l = "" then old
    else if startsWith l "http" then some l
    else some ("https://" ++ l)

/-- Lines 475-477: the site authority of a value cell, the serialised entities when
there are any and the trimmed text otherwise. -/
def siteAuthority (value : List Node) : String :=
  let authority := extractEntities value
  if authority.length > 0 then stringifyEntities authority else jsTrim (textContent value)

/-- The `switch` on the normalized label (lines 426-482); `value` is the content of
the value cell `cells.eq(1)`.  Unmatched labels change nothing. -/
def dispatchLabel (details : ProjectDetails) (label : String) (value : List Node) :
    ProjectDetails :=
  match label with
  | "sitedescription" => { details with site_description := some value }
  | "projectdescription" => { details with project_description := some value }
  | "externalprojectlink" =>
    { details with external_project_link := firstAttr "href" (selectList isAnchor value) }
  | "additionalinformation" =>
    { details with additional_information_link := firstAttr "href" (selectList isAnchor value) }
  | "collectiondate" => { details with collection_date := some (jsTrim (textContent value)) }
  | "publicationdate" => { details with publication_date := some (jsTrim (textContent value)) }
  | "licensetype" =>
    { details with
      license := some (jsTrim (textContent value))
      license_url := licenseUrl details.license_url (firstAttr "href" (selectList isAnchor value)) }
  | "reusescore" => { details with reuse_score := some (jsTrim (textContent value)) }
  | "contributors" =>
    { details with contributors_json := some (stringifyEntities (extractEntities value)) }
  | "collectors" =>
    { details with collectors_json := some (stringifyEntities (extractEntities value)) }
  | "funders" =>
    { details with funders_json := some (stringifyEntities (extractEntities value)) }
  | "partners" =>
    { details with partners_json := some (stringifyEntities (extractEntities value)) }
  | "siteauthority" => { details with site_authority := some (siteAuthority value) }
  | "citation" => { details with citation := some (jsTrim (textContent value)) }
  | _ => details

/-- Body of the row loop of a label/value table (lines 420-484): a row with at least
two cells is dispatched on the normalized text of its first cell. -/
def processLabelRow (details : ProjectDetails) (row : Node) : ProjectDetails :=
  let cells := row.find isCell
  if cells.length ≥ 2 then
    dispatchLabel details (normalizeLabel (cellText cells 0)) (cellHtml cells 1)
  else details

/-- Lines 400-403: a table is a data-type table when the first of its rows has at
least four cells and the normalized text of the first one contains `datatype`. -/
def isDataTypeTable (rows : List Node) : Bool :=
  let headerCells : List Node :=
    match rows with
    | [] => []
    | headerRow :: _ => headerRow.find isCell
  headerCells.length ≥ 4 && includes (normalizeLabel (cellText headerCells 0)) "datatype"

/-- Body of the row loop of a data-type table (lines 407-417). -/
def pushDataType (dataTypes : List DataType) (row : Node) : List DataType :=
  let cells := row.find isDataCell
  if cells.length ≥ 4 then
    dataTypes ++ [{ type := jsTrim (cellText cells 0)
                    size := jsTrim (cellText cells 1)
                    device_name := jsTrim (cellText cells 2)
                    device_type := jsTrim (cellText cells 3) }]
  else dataTypes

/-- What the table loop updates: the record and the array `dataTypes`. -/
structure TableState where
  details : ProjectDetails
  dataTypes : List DataType

/-- Body of the table loop (lines 395-486). -/
def processTable (st : TableState) (table : Node) : TableState :=
  let rows := table.find isRow
  if isDataTypeTable rows then
    { st with dataTypes := (rows.drop 1).foldl pushDataType st.dataTypes }
  else
    { st with details := rows.foldl processLabelRow st.details }

/-- Lines 392-490 of `fetchProjectDetails`: every table of the page is processed in
document order, then `data_types_json` is set when a descriptor was collected. -/
def processTables (page : List Node) (details : ProjectDetails) : ProjectDetails :=
  let st := (selectList isTable page).foldl processTable { details := details, dataTypes := [] }
  if st.dataTypes.length > 0 then
    { st.details with data_types_json := some (stringifyDataTypes st.dataTypes) }
  else st.details

/-! ## Vocabulary of the specification -/

/-- A lowercase letter a-z or a digit 0-9. -/
def isLowerAlnum (c : Char) : Bool :=
  let n := c.toNat
  (0x61 ≤ n && n ≤ 0x7A) || (0x30 ≤ n && n ≤ 0x39)

/-- An ASCII letter. -/
def isAsciiLetter (c : Char) : Bool :=
  let n := c.toNat
  (0x41 ≤ n && n ≤ 0x5A) || (0x61 ≤ n && n ≤ 0x7A)

/-- The code of an ASCII letter in lower case. -/
def asciiLowerCode (n : Nat) : Nat := if 0x41 ≤ n ∧ n ≤ 0x5A then n + 0x20 else n

/-- The same character, or the same ASCII letter in the other case. -/
def sameUpToCase (c d : Char) : Bool :=
  c == d ||
    (isAsciiLetter c && isAsciiLetter d && asciiLowerCode c.toNat == asciiLowerCode d.toNat)

/-- A character that may be inserted into a label: whitespace, a colon or a hyphen. -/
def isLabelFiller (c : Char) : Bool :=
  isJsWhitespace c || c.toNat == 0x3A || c.toNat == 0x2D

/-- Whether `t` is `s` with the case of some of its ASCII letters changed and
fillers inserted anywhere in it. -/
def isLabelVariant : List Char → List Char → Bool
  | s, [] => s.isEmpty
  | s, d :: t =>
    (isLabelFiller d && isLabelVariant s t) ||
      (match s with
       | [] => false
       | c :: r => sameUpToCase c d && isLabelVariant r t)

/-- A listing row that yields a stub: at least 5 cells and a resolved DOI that is
neither empty nor the sentinel. -/
def rowKept (row : Node) : Bool :=
  decide (5 ≤ (rowCells row).length ∧ rowDoi row ≠ "" ∧ rowDoi row ≠ "N/A")

/-- A resolver match in a link: the link is `pre`, then `doi.org/`, then `rest`,
where `rest` has at least one character and no line terminator. -/
def IsResolverSplit (link pre rest : List Char) : Prop :=
  link = pre ++ "doi.org/".data ++ rest ∧ rest ≠ [] ∧ ∀ c ∈ rest, isLineTerminator c = false

/-- Everything after the first occurrence of `doi.org/`, empty when there is none. -/
def afterResolver : List Char → List Char
  | [] => []
  | c :: cs => if "doi.org/".data.isPrefixOf (c :: cs) then (c :: cs).drop 8 else afterResolver cs

/-- The DOI as the specification words it: when the link contains `doi.org/`,
everything in the link after it, otherwise the visible text. -/
def claimedDoi (d : CellData) : String :=
  match d.link with
  | none => d.text
  | some link => if includes link "doi.org/" then String.mk (afterResolver link.data) else d.text

/-- An anchor whose trimmed text is non-empty. -/
def hasText (a : Node) : Bool := decide (jsTrim a.textContent ≠ "")

/-- The entity of an anchor: its trimmed text and its href made absolute. -/
def anchorEntity (a : Node) : Entity :=
  { name := jsTrim a.textContent, link := resolveLink (a.attr "href") }

/-- The entity of a bare name. -/
def nameEntity (name : String) : Entity := { name := name, link := none }

/-! ## Sample markup -/

/-- A `td` element. -/
def td (content : List Node) : Node := .element "td" [] content

/-- A `tr` element. -/
def tr (cells : List Node) : Node := .element "tr" [] cells

/-- A `table` element. -/
def table (rows : List Node) : Node := .element "table" [] rows

/-- An anchor with an href and a text. -/
def anchor (href text : String) : Node := .element "a" [("href", href)] [.text text]

/-- The listing row of the specification:
Site A, USA, a link to https://doi.org/10.1/abc, Complete, J. Smith. -/
def siteARow : Node :=
  tr [td [.text "Site A"], td [.text "USA"],
    td [anchor "https://doi.org/10.1/abc" "https://doi.org/10.1/abc"],
    td [.text "Complete"], td [.text "J. Smith"]]

/-- A listing row whose DOI link ends with the resolver and whose DOI text is a DOI. -/
def bareResolverRow : Node :=
  tr [td [.text "Site B"], td [.text "Peru"], td [anchor "https://doi.org/" "10.1/abc"],
    td [.text "Complete"], td [.text "J. Smith"]]

/-- A listing row whose DOI text is the sentinel and whose DOI link is a resolver link. -/
def sentinelTextRow : Node :=
  tr [td [.text "Site C"], td [.text "Chile"], td [anchor "https://doi.org/10.1/abc" "N/A"],
    td [.text "Complete"], td [.text "J. Smith"]]

/-- A listing row whose DOI cell is the sentinel, without a link. -/
def sentinelRow : Node :=
  tr [td [.text "Site D"], td [.text "Kenya"], td [.text "N/A"],
    td [.text "Complete"], td [.text "J. Smith"]]

/-- The fragment of the specification: two anchors separated by a comma. -/
def aliceBobAnchors : List Node := [anchor "/x" "Alice", .text ", ", anchor "/y" "Bob"]

/-- A fragment whose first anchor has no text (an image link). -/
def imageThenBob : List Node :=
  [.element "a" [("href", "/x")] [.element "img" [("src", "/logo.png")] []], anchor "/y" "Bob"]

/-- A detail page whose four entity rows have an empty value cell. -/
def emptyEntityPage : List Node :=
  [table [tr [td [.text "Contributors:"], td []], tr [td [.text "Collectors:"], td []],
    tr [td [.text "Funders:"], td [.text " "]], tr [td [.text "Partners:"], td []]]]

/-- The stub of the listing row of the specification. -/
def siteAStub : ProjectStub :=
  { project_name := "Site A"
    country := "USA"
    doi := "10.1/abc"
    status := "Complete"
    collectors := "J. Smith"
    keywords := ""
    contributor := ""
    project_link := none
    doi_link := some "https://doi.org/10.1/abc"
    collectors_link := none }

/-! ## Vocabulary of the detail parser claims -/

/-- The descriptor of a body row of a data-type table (lines 410-415): the trimmed
text of its first four `td` cells. -/
def rowDescriptor (row : Node) : DataType :=
  { type := jsTrim (cellText (row.find isDataCell) 0)
    size := jsTrim (cellText (row.find isDataCell) 1)
    device_name := jsTrim (cellText (row.find isDataCell) 2)
    device_type := jsTrim (cellText (row.find isDataCell) 3) }

/-- A row with at least four `td` cells. -/
def hasFourDataCells (row : Node) : Bool := decide (4 ≤ (row.find isDataCell).length)

/-- The descriptors of a table: for a data-type table, those of the rows after the
first that have at least four `td` cells, in row order; none for any other table. -/
def tableDescriptors (table : Node) : List DataType :=
  if isDataTypeTable (table.find isRow) then
    (((table.find isRow).drop 1).filter hasFourDataCells).map rowDescriptor
  else []

/-- The descriptors of a sequence of tables, in order. -/
def descriptorsOf : List Node → List DataType
  | [] => []
  | t :: ts => tableDescriptors t ++ descriptorsOf ts

/-- The descriptors of a page: those of its tables, in document order. -/
def pageDescriptors (page : List Node) : List DataType := descriptorsOf (selectList isTable page)

/-- A character of a URL scheme after the first: a letter, a digit, `+`, `-` or `.`. -/
def isSchemeChar (c : Char) : Bool :=
  isAsciiLetter c || (0x30 ≤ c.toNat && c.toNat ≤ 0x39) || c.toNat == 0x2B ||
    c.toNat == 0x2D || c.toNat == 0x2E

/-- Whether a URL carries a scheme: a letter, then scheme characters, then a colon. -/
def hasScheme (h : String) : Bool :=
  match h.data with
  | [] => false
  | c :: cs => isAsciiLetter c && (cs.dropWhile isSchemeChar).head? == some (Char.ofNat 0x3A)

/-- The license URL as the specification words it: the href unchanged when it
carries a scheme, `https://` followed by the href when it lacks one. -/
def claimedLicenseUrl (h : String) : String := if hasScheme h then h else "https://" ++ h

/-- A `th` element. -/
def th (content : List Node) : Node := .element "th" [] content

/-- The data-type table of the specification: the header
Data Type, Size, Device Name, Device Type and the body row LiDAR, 2GB, Scanner X, TLS. -/
def lidarTable : Node :=
  table [tr [th [.text "Data Type"], th [.text "Size"], th [.text "Device Name"],
      th [.text "Device Type"]],
    tr [td [.text "LiDAR"], td [.text "2GB"], td [.text "Scanner X"], td [.text "TLS"]]]

/-- A data-type table whose only body row has three cells. -/
def shortRowTable : Node :=
  table [tr [th [.text "Data Type"], th [.text "Size"], th [.text "Device Name"],
      th [.text "Device Type"]],
    tr [td [.text "LiDAR"], td [.text "2GB"], td [.text "Scanner X"]]]

/-- A license row whose link has no scheme. -/
def licenseRow : Node :=
  tr [td [.text "License Type:"], td [anchor "creativecommons.org/licenses/by/4.0/" "CC BY 4.0"]]

/-- A license row whose link has the scheme `ftp`. -/
def ftpLicenseRow : Node :=
  tr [td [.text "License Type:"], td [anchor "ftp://example.org/license.txt" "Custom"]]

/-- A license row whose link starts with `http` and has no scheme. -/
def httpbinLicenseRow : Node :=
  tr [td [.text "License Type:"], td [anchor "httpbin.org/license" "Custom"]]

/-- A license row without a link. -/
def plainLicenseRow : Node := tr [td [.text "License Type:"], td [.text " CC0 "]]

/-! ## Download miner (`extractDownloads`, lines 207-254) -/

/-- A download descriptor, one element of the array `downloads`. -/
structure Download where
  field : String
  value : String
deriving DecidableEq, Repr

/-- Selector `input`. -/
def isInput (tag : String) : Bool := tag == "input"

/-- Selector `script`. -/
def isScript (tag : String) : Bool := tag == "script"

/-- Selector `input[type="hidden"]`: the `input` elements whose `type` attribute is
`hidden`, in document order. -/
def hiddenInputs (page : List Node) : List Node :=
  (selectList isInput page).filter (fun el => el.attr "type" == some "hidden")

/-- The regular-expression class `\d`: `[0-9]`. -/
def isDigit (c : Char) : Bool := 0x30 ≤ c.toNat && c.toNat ≤ 0x39

/-- The test `name.match(/^f\d+$/)`: the letter `f`, then one or more digits, then the
end of the string. -/
def matchesFieldName (name : String) : Bool :=
  match name.data with
  | [] => false
  | c :: ds => c.toNat == 0x66 && !ds.isEmpty && ds.all isDigit

/-- Characters of `replace(/^'|'$/g, '')`: a single quote at the start is removed,
and a single quote at the end of what remains. -/
def stripQuoteChars (l : List Char) : List Char :=
  let rest : List Char :=
    match l with
    | [] => []
    | c :: cs => if c.toNat = 0x27 then cs else c :: cs
  if rest.getLast? = some (Char.ofNat 0x27) then rest.dropLast else rest

/-- The call `replace(/^'|'$/g, '')`. -/
def stripQuotes (s : String) : String := ⟨stripQuoteChars s.data⟩

/-- Body of the `each` callback over the hidden inputs (lines 213-224). -/
def pushHiddenInput (downloads : List Download) (el : Node) : List Download :=
  match el.attr "name", el.attr "value" with
  | some name, some value =>
    if name ≠ "" ∧ matchesFieldName name = true ∧ value ≠ "" ∧ jsTrim value ≠ "" then
      downloads ++ [{ field := name, value := stripQuotes value }]
    else downloads
  | _, _ => downloads

/-- The call `text.match(re)` for a pattern without the global flag: the attempt at the
leftmost position where one succeeds, the end of the text included. -/
def firstMatch {α : Type} (attempt : List Char → Option α) : List Char → Option α
  | [] => attempt []
  | c :: cs =>
    match attempt (c :: cs) with
    | some r => some r
    | none => firstMatch attempt cs

/-- One attempt of `/console\.log\(([^)]+)\)/` at the start of the input: the literal
`console.log(`, then one or more characters other than `)`, as many as there are,
then `)`.  The result is the capture group. -/
def consoleMatchHere (l : List Char) : Option (List Char) :=
  if "console.log(".data.isPrefixOf l then
    let rest := l.drop 12
    let arg := rest.takeWhile (fun c => c.toNat != 0x29)
    if arg ≠ [] ∧ rest.dropWhile (fun c => c.toNat != 0x29) ≠ [] then some arg else none
  else none

/-- Capture group 1 of `content.match(/console\.log\(([^)]+)\)/)`. -/
def consoleMatch (content : String) : Option String :=
  (firstMatch consoleMatchHere content.data).map String.mk

/-- Method `Array.prototype.join`. -/
def jsJoin (sep : String) : List String → String
  | [] => ""
  | [x] => x
  | x :: y :: rest => x ++ sep ++ jsJoin sep (y :: rest)

/-- Lines 237-240: the value of a console descriptor, the pieces of the argument
between commas, each trimmed and without its surrounding single quotes, joined with
pipes. -/
def consoleValue (logContent : String) : String :=
  jsJoin "|" ((jsSplit ',' logContent).map (fun p => stripQuotes (jsTrim p)))

/-- Body of the `each` callback over the scripts (lines 228-248); the content of a
script element is its text. -/
def pushConsoleLog (downloads : List Download) (script : Node) : List Download :=
  let content := script.textContent
  if content ≠ "" ∧ includes content "console.log" = true then
    match consoleMatch content with
    | some logContent =>
      if includes logContent "," = true then
        downloads ++ [{ field := "console_log", value := consoleValue logContent }]
      else downloads
    | none => downloads
  else downloads

/-- Function `extractDownloads`: the descriptors of the hidden inputs, then those of
the scripts. -/
def extractDownloads (page : List Node) : List Download :=
  let downloads := (hiddenInputs page).foldl pushHiddenInput []
  (selectList isScript page).foldl pushConsoleLog downloads

/-- Serialisation of one download descriptor. -/
def jsonDownload (d : Download) : String :=
  "\x7b\"field\":" ++ jsonString d.field ++ ",\"value\":" ++ jsonString d.value ++ "\x7d"

/-- The call `JSON.stringify(downloads)`. -/
def stringifyDownloads (downloads : List Download) : String :=
  jsonArray (downloads.map jsonDownload)

/-! ## Numbers -/

/-- The part of the engine's binary64 arithmetic that is not part of the repository:
`round` gives the Number value of a mathematical value (round to nearest, ties to
even, an infinity on overflow), `digits` the decimal text of a finite Number as
`JSON.stringify` writes it. -/
structure NumberOps where
  round : Rat → JsNumber
  digits : Rat → String

/-- The value of a run of decimal digits. -/
def digitsValue (ds : List Char) : Nat := ds.foldl (fun n c => 10 * n + (c.toNat - 0x30)) 0

/-- A decimal literal as `parseFloat` reads it: a sign, the value of the digits
before the dot, the value of the digits after it and their number. -/
structure DecimalLiteral where
  negative : Bool
  whole : Nat
  fraction : Nat
  places : Nat
deriving DecidableEq, Repr

/-- The mathematical value of a decimal literal. -/
def DecimalLiteral.value (d : DecimalLiteral) : Rat :=
  (if d.negative then -1 else 1) *
    ((d.whole : Rat) + (d.fraction : Rat) / ((10 ^ d.places : Nat) : Rat))

/-- The longest unsigned decimal literal at the start of a text of digits, dots and
hyphens, and what follows it: digits with an optional dot and more digits, or a dot
and digits. -/
def unsignedLiteral (l : List Char) : Option (DecimalLiteral × List Char) :=
  let whole := l.takeWhile isDigit
  let rest := l.dropWhile isDigit
  match rest with
  | [] =>
    if whole = [] then none
    else some ({ negative := false, whole := digitsValue whole, fraction := 0, places := 0 }, [])
  | c :: after =>
    if c.toNat = 0x2E then
      let frac := after.takeWhile isDigit
      if whole = [] ∧ frac = [] then none
      else some ({ negative := false, whole := digitsValue whole,
                   fraction := digitsValue frac, places := frac.length },
        after.dropWhile isDigit)
    else if whole = [] then none
    else some ({ negative := false, whole := digitsValue whole, fraction := 0, places := 0 },
      c :: after)

/-- The longest decimal literal at the start of a text of digits, dots and hyphens,
and what follows it: an optional hyphen and an unsigned literal. -/
def signedLiteral (l : List Char) : Option (DecimalLiteral × List Char) :=
  match l with
  | [] => none
  | c :: cs =>
    if c.toNat = 0x2D then
      (unsignedLiteral cs).map (fun p => ({ p.1 with negative := true }, p.2))
    else unsignedLiteral (c :: cs)

/-- Function `parseFloat` on the texts `extractCoordinates` passes to it, which
consist of digits, dots and hyphens: the Number value of the longest prefix that is a
decimal literal, NaN when there is none. -/
def parseFloat (ops : NumberOps) (s : String) : JsNumber :=
  match signedLiteral s.data with
  | none => .nan
  | some p => ops.round p.1.value

/-- Operator `+` on two numbers. -/
def jsAdd (ops : NumberOps) (x y : JsNumber) : JsNumber :=
  match x with
  | .nan => .nan
  | .infinite s =>
    match y with
    | .nan => .nan
    | .infinite t => if s = t then .infinite s else .nan
    | .finite _ => .infinite s
  | .finite a =>
    match y with
    | .nan => .nan
    | .infinite t => .infinite t
    | .finite b => ops.round (a + b)

/-- The expression `x / 2`. -/
def jsHalf (ops : NumberOps) : JsNumber → JsNumber
  | .finite a => ops.round (a / 2)
  | .infinite s => .infinite s
  | .nan => .nan

/-- Serialisation of a number: `null` for NaN and the infinities. -/
def jsonNumber (ops : NumberOps) : JsNumber → String
  | .finite q => ops.digits q
  | _ => "null"


/-! ## Coordinate miner (`extractCoordinates`, lines 162-205) -/

/-- A literal of a pattern: the rest of the input when it starts with the literal. -/
def expect (pat : String) (l : List Char) : Option (List Char) :=
  if pat.data.isPrefixOf l then some (l.drop pat.data.length) else none

/-- The pattern `\s*`: as much whitespace as there is. -/
def skipWhitespace (l : List Char) : List Char := l.dropWhile isJsWhitespace

/-- The class `[0-9.-]`. -/
def isCoordChar (c : Char) : Bool := isDigit c || c.toNat == 0x2E || c.toNat == 0x2D

/-- The group `([0-9.-]+)`: one or more characters of the class, as many as there
are, and the rest of the input. -/
def takeCoord (l : List Char) : Option (List Char × List Char) :=
  if l.takeWhile isCoordChar = [] then none
  else some (l.takeWhile isCoordChar, l.dropWhile isCoordChar)

/-- One attempt of `/name\s*=\s*\(\s*([0-9.-]+)\s*\+\s*([0-9.-]+)\)\s*\/\s*2/` at the
start of the input, for `name` one of `lat_mid` and `lng_mid`.  The result is the two
capture groups.  Every class of the pattern is followed by a character outside it, so
the longest run is the only one that can match. -/
def midMatchHere (name : String) (l : List Char) : Option (List Char × List Char) :=
  (expect name l).bind fun r =>
  (expect "=" (skipWhitespace r)).bind fun r =>
  (expect "(" (skipWhitespace r)).bind fun r =>
  (takeCoord (skipWhitespace r)).bind fun a =>
  (expect "+" (skipWhitespace a.2)).bind fun r =>
  (takeCoord (skipWhitespace r)).bind fun b =>
  (expect ")" b.2).bind fun r =>
  (expect "/" (skipWhitespace r)).bind fun r =>
  (expect "2" (skipWhitespace r)).bind fun _ =>
  some (a.1, b.1)

/-- Lines 172-180 for one of the two names: the half of the sum of the two parsed
groups when the pattern matches, null otherwise. -/
def midpoint (ops : NumberOps) (name : String) (html : String) : Option JsNumber :=
  match firstMatch (midMatchHere name) html.data with
  | some m => some (jsHalf ops (jsAdd ops (parseFloat ops ⟨m.1⟩) (parseFloat ops ⟨m.2⟩)))
  | none => none

/-- Where the group `((?:\{[^}]+\},?\s*)+)` stands while it reads the items of the
array: before the first item, just after an opening brace, inside an item, just after
a closing brace, after the comma or whitespace that follows one. -/
inductive ItemState where
  | start : ItemState
  | opened : ItemState
  | inside : ItemState
  | closed : ItemState
  | between : ItemState
deriving DecidableEq, Repr

/-- What one character does to the reading of the items. -/
inductive ItemMove where
  | next (st : ItemState) : ItemMove
  | accept : ItemMove
  | reject : ItemMove
deriving DecidableEq, Repr

/-- One character of `(?:\{[^}]+\},?\s*)+\]`: an item opens with a brace, has one or
more characters other than the closing brace, closes with it, and may be followed by
one comma and by whitespace; after an item comes the next item or the closing
bracket, which ends the match. -/
def itemStep (st : ItemState) (c : Char) : ItemMove :=
  match st with
  | .start => if c.toNat = 0x7B then .next .opened else .reject
  | .opened => if c.toNat = 0x7D then .reject else .next .inside
  | .inside => if c.toNat = 0x7D then .next .closed else .next .inside
  | .closed =>
    if c.toNat = 0x2C then .next .between
    else if isJsWhitespace c then .next .between
    else if c.toNat = 0x7B then .next .opened
    else if c.toNat = 0x5D then .accept
    else .reject
  | .between =>
    if isJsWhitespace c then .next .between
    else if c.toNat = 0x7B then .next .opened
    else if c.toNat = 0x5D then .accept
    else .reject

/-- The group `((?:\{[^}]+\},?\s*)+)` followed by `\]`: the text of the items, up to
the closing bracket. -/
def scanItems : ItemState → List Char → Option (List Char)
  | _, [] => none
  | st, c :: cs =>
    match itemStep st c with
    | .next st' => (scanItems st' cs).map (fun captured => c :: captured)
    | .accept => some []
    | .reject => none

/-- One attempt of `/cords\s*=\s*\[\s*((?:\{[^}]+\},?\s*)+)\]/` at the start of the
input.  The result is the capture group. -/
def cordsMatchHere (l : List Char) : Option (List Char) :=
  (expect "cords" l).bind fun r =>
  (expect "=" (skipWhitespace r)).bind fun r =>
  (expect "[" (skipWhitespace r)).bind fun r =>
  scanItems .start (skipWhitespace r)

/-- One attempt of `/\{\s*lat:\s*([0-9.-]+),\s*lng:\s*([0-9.-]+)\s*\}/` at the start of
the input.  The result is the two capture groups and what follows the match. -/
def pairMatchHere (l : List Char) : Option (List Char × List Char × List Char) :=
  (expect "\x7b" l).bind fun r =>
  (expect "lat:" (skipWhitespace r)).bind fun r =>
  (takeCoord (skipWhitespace r)).bind fun a =>
  (expect "," a.2).bind fun r =>
  (expect "lng:" (skipWhitespace r)).bind fun r =>
  (takeCoord (skipWhitespace r)).bind fun b =>
  (expect "\x7d" (skipWhitespace b.2)).bind fun r =>
  some (a.1, b.1, r)

/-- The call `coordsStr.matchAll(re)` for the pattern of a pair: the matches from left
to right, each attempt starting where the previous match ended.  The first argument
is the number of characters still covered by the previous match. -/
def allPairs : Nat → List Char → List (List Char × List Char)
  | _, [] => []
  | skip + 1, _ :: cs => allPairs skip cs
  | 0, c :: cs =>
    match pairMatchHere (c :: cs) with
    | some m => (m.1, m.2.1) :: allPairs (cs.length - m.2.2.length) cs
    | none => allPairs 0 cs

/-- A point of the bounding polygon. -/
structure LatLng where
  lat : JsNumber
  lng : JsNumber
deriving DecidableEq, Repr

/-- The result of `extractCoordinates`. -/
structure Coordinates where
  bbox : Option (List LatLng)
  center_lat : Option JsNumber
  center_lng : Option JsNumber
deriving DecidableEq, Repr

/-- Lines 183-199: the bounding polygon, the parsed pairs of the `cords` array when
the pattern matches and there is at least one pair, null otherwise. -/
def boundingBox (ops : NumberOps) (html : String) : Option (List LatLng) :=
  match firstMatch cordsMatchHere html.data with
  | some coordsStr =>
    let coords := (allPairs 0 coordsStr).map
      (fun m => ({ lat := parseFloat ops ⟨m.1⟩, lng := parseFloat ops ⟨m.2⟩ } : LatLng))
    if coords.length > 0 then some coords else none
  | none => none

/-- Function `extractCoordinates`.  Nothing in its `try` block throws on a string. -/
def extractCoordinates (ops : NumberOps) (html : String) : Coordinates :=
  { bbox := boundingBox ops html
    center_lat := midpoint ops "lat_mid" html
    center_lng := midpoint ops "lng_mid" html }

/-- Serialisation of one point. -/
def jsonLatLng (ops : NumberOps) (p : LatLng) : String :=
  "\x7b\"lat\":" ++ jsonNumber ops p.lat ++ ",\"lng\":" ++ jsonNumber ops p.lng ++ "\x7d"

/-- The call `JSON.stringify(coordinates.bbox)`. -/
def stringifyBbox (ops : NumberOps) (bbox : List LatLng) : String :=
  jsonArray (bbox.map (jsonLatLng ops))


/-! ## Detail page parser, the whole function -/

/-- Selector `iframe`; `#portreeViewer iframe, iframe` selects the same elements. -/
def isIframe (tag : String) : Bool := tag == "iframe"

/-- The response to the request of a detail page: the text `response.data` and the
document `cheerio.load(response.data)` makes of it. -/
structure DetailResponse where
  data : String
  document : List Node

/-- Lines 374-378: the source of the first `iframe` of the page, when there is one. -/
def withViewer (document : List Node) (details : ProjectDetails) : ProjectDetails :=
  match selectList isIframe document with
  | [] => details
  | iframe :: _ => { details with point_cloud_iframe := iframe.attr "src" }

/-- Lines 380-384: the bounding polygon, serialised when there is one, and the
centroid. -/
def withCoordinates (ops : NumberOps) (coordinates : Coordinates) (details : ProjectDetails) :
    ProjectDetails :=
  { details with
    bbox_json := coordinates.bbox.map (stringifyBbox ops)
    center_lat := coordinates.center_lat
    center_lng := coordinates.center_lng }

/-- Lines 386-390: the downloads, serialised when there is at least one. -/
def withDownloads (downloads : List Download) (details : ProjectDetails) : ProjectDetails :=
  if downloads.length > 0 then
    { details with downloads_json := some (stringifyDownloads downloads) }
  else details

/-- Lines 492-500: the DataCite metadata, when `fetchDataCiteMetadata` gave some. -/
def withDatacite (datacite : Option String) (details : ProjectDetails) : ProjectDetails :=
  match datacite with
  | some json => { details with datacite_json := some json }
  | none => details

/-- Lines 347-502 of `fetchProjectDetails`: the record made of a fetched page, by the
steps of the function in their order.  `datacite` is what `fetchDataCiteMetadata`
gave, serialised, and `none` when it gave null. -/
def parseDetails (ops : NumberOps) (doi : String) (response : DetailResponse)
    (datacite : Option String) : ProjectDetails :=
  withDatacite datacite
    (processTables response.document
      (withDownloads (extractDownloads response.document)
        (withCoordinates ops (extractCoordinates ops response.data)
          (withViewer response.document (initialDetails doi)))))

/-- What the network gives during one run: the response to the request of a detail
page, `none` when the request or the parsing throws, and the serialised DataCite
metadata of a DOI, `none` when there is none. -/
structure Network where
  page : String → Option DetailResponse
  datacite : String → Option String

/-- Function `fetchProjectDetails`: null without a project link and on any failure,
the record of the page otherwise. -/
def fetchProjectDetails (ops : NumberOps) (net : Network) (project : ProjectStub) :
    Option ProjectDetails :=
  match project.project_link with
  | none => none
  | some link =>
    if link = "" then none
    else
      match net.page link with
      | none => none
      | some response => some (parseDetails ops project.doi response (net.datacite project.doi))


/-! ## Arithmetic without rounding -/

/-- The digits of a fraction `r / d` below one, at most `fuel` of them. -/
def fractionDigits : Nat → Nat → Nat → List Char
  | 0, _, _ => []
  | fuel + 1, r, d =>
    if r = 0 then [] else Char.ofNat (0x30 + 10 * r / d) :: fractionDigits fuel (10 * r % d) d

/-- The decimal text of a rational number with a finite expansion. -/
def decimalText (q : Rat) : String :=
  (if q < 0 then "-" else "") ++ toString (q.num.natAbs / q.den) ++
    (if q.num.natAbs % q.den = 0 then ""
     else "." ++ String.mk (fractionDigits 40 (q.num.natAbs % q.den) q.den))

/-- Arithmetic in which every value is kept as it is and written without an exponent,
an idealisation of the arithmetic of the engine.  It serves only at the sample pages
of the download and persistence claims, which have no coordinate in them; the
coordinate claims are stated and evaluated in binary64 arithmetic, `binary64Ops`. -/
def exactOps : NumberOps := { round := JsNumber.finite, digits := decimalText }

/-! ## Vocabulary of the coordinate claims -/

/-- A text of whitespace only. -/
def IsBlank (w : List Char) : Prop := ∀ c ∈ w, isJsWhitespace c = true

/-- A non-empty text of digits, dots and hyphens: what a group `([0-9.-]+)` can
capture. -/
def IsCoordText (a : List Char) : Prop := a ≠ [] ∧ ∀ c ∈ a, isCoordChar c = true

/-- The text of a midpoint assignment `name = (a + b) / 2` followed by `rest`, with
the whitespace `w1` to `w7` where the pattern allows some. -/
def midText (name : String) (w1 w2 w3 a w4 w5 b w6 w7 rest : List Char) : List Char :=
  name.data ++ (w1 ++ ("=".data ++ (w2 ++ ("(".data ++ (w3 ++ (a ++ (w4 ++ ("+".data ++
    (w5 ++ (b ++ (")".data ++ (w6 ++ ("/".data ++ (w7 ++ ("2".data ++ rest)))))))))))))))

/-- The text `html` has, after `pre`, a midpoint assignment of `name` with the
literals `a` and `b`. -/
def IsMidAt (name : String) (html pre a b : List Char) : Prop :=
  ∃ w1 w2 w3 w4 w5 w6 w7 rest : List Char,
    IsBlank w1 ∧ IsBlank w2 ∧ IsBlank w3 ∧ IsBlank w4 ∧ IsBlank w5 ∧ IsBlank w6 ∧ IsBlank w7 ∧
    IsCoordText a ∧ IsCoordText b ∧
    html = pre ++ midText name w1 w2 w3 a w4 w5 b w6 w7 rest

/-- A page with both midpoint assignments of the specification. -/
def bothMidpoints : String := "var lat_mid = (10.0 + 20.0) / 2; var lng_mid = (30.0 + 40.0) / 2;"

/-- A page with the latitude assignment only. -/
def latitudeOnly : String := "var lat_mid = (10.0 + 20.0) / 2;"

/-- One object of the `cords` array as the two patterns read it: the two literals, the
whitespace after the opening brace, after `lat:`, after the comma, after `lng:` and
before the closing brace, whether a comma follows the object, and the whitespace
after it. -/
structure PairItem where
  lat : List Char
  lng : List Char
  w1 : List Char
  w2 : List Char
  w3 : List Char
  w4 : List Char
  w5 : List Char
  comma : Bool
  w6 : List Char

/-- What stands between the braces of an object. -/
def PairItem.inner (it : PairItem) : List Char :=
  it.w1 ++ ("lat:".data ++ (it.w2 ++ (it.lat ++ (",".data ++ (it.w3 ++ ("lng:".data ++
    (it.w4 ++ (it.lng ++ it.w5))))))))

/-- What follows the closing brace of an object: the comma, if any, and whitespace. -/
def PairItem.separator (it : PairItem) : List Char :=
  (if it.comma then ",".data else []) ++ it.w6

/-- The text of an object, followed by `rest`. -/
def PairItem.text (it : PairItem) (rest : List Char) : List Char :=
  "\x7b".data ++ (it.inner ++ ("\x7d".data ++ (it.separator ++ rest)))

/-- An object whose whitespace is whitespace and whose literals are texts of digits,
dots and hyphens. -/
def PairItem.WellFormed (it : PairItem) : Prop :=
  IsBlank it.w1 ∧ IsBlank it.w2 ∧ IsBlank it.w3 ∧ IsBlank it.w4 ∧ IsBlank it.w5 ∧
    IsBlank it.w6 ∧ IsCoordText it.lat ∧ IsCoordText it.lng

/-- The text of a sequence of objects, followed by `rest`. -/
def itemsText : List PairItem → List Char → List Char
  | [], rest => rest
  | it :: its, rest => it.text (itemsText its rest)

/-- The text of the assignment `cords = [ ... ]` with the given objects, followed by
`rest`. -/
def cordsText (w1 w2 w3 : List Char) (items : List PairItem) (rest : List Char) : List Char :=
  "cords".data ++ (w1 ++ ("=".data ++ (w2 ++ ("[".data ++ (w3 ++
    itemsText items ("]".data ++ rest))))))

/-- The point of an object. -/
def PairItem.point (ops : NumberOps) (it : PairItem) : LatLng :=
  { lat := parseFloat ops (String.mk it.lat), lng := parseFloat ops (String.mk it.lng) }

/-- The state of the reading of the items after a text, `none` when the text is
rejected or ends the match. -/
def runItems : ItemState → List Char → Option ItemState
  | st, [] => some st
  | st, c :: cs =>
    match itemStep st c with
    | .next st' => runItems st' cs
    | .accept => none
    | .reject => none

/-- A page with a `cords` array of two points. -/
def twoPointPage : String :=
  "var cords = [ \x7blat: 10.5, lng: -3.25\x7d, \x7blat: 11, lng: -4.5\x7d ];"

/-- A page whose `cords` array has an object that is no point. -/
def noPointPage : String := "var cords = [\x7bx: 1\x7d];"

/-! ## Vocabulary of the download claims -/

/-- The descriptor of a hidden input: its name and its value without the surrounding
single quotes, when the name is a field name and the value has a character that is no
whitespace. -/
def hiddenDescriptor (el : Node) : Option Download :=
  match el.attr "name", el.attr "value" with
  | some name, some value =>
    if matchesFieldName name = true ∧ jsTrim value ≠ "" then
      some { field := name, value := stripQuotes value }
    else none
  | _, _ => none

/-- The descriptor of a script: that of the argument its pattern captures, when this
argument contains a comma. -/
def consoleDescriptor (script : Node) : Option Download :=
  match consoleMatch script.textContent with
  | some arg =>
    if includes arg "," = true then some { field := "console_log", value := consoleValue arg }
    else none
  | none => none

/-- A name made of the letter `f` and one or more digits. -/
def IsFieldName (name : String) : Prop :=
  ∃ ds : List Char, ds ≠ [] ∧ (∀ c ∈ ds, isDigit c = true) ∧ name.data = Char.ofNat 0x66 :: ds

/-- The text `content` has, after `pre`, a call `console.log(arg)` whose argument
`arg` is not empty and runs up to the first closing parenthesis. -/
def IsLogCall (content pre arg : List Char) : Prop :=
  ∃ rest : List Char,
    content = pre ++ ("console.log(".data ++ (arg ++ (")".data ++ rest))) ∧
    arg ≠ [] ∧ ∀ c ∈ arg, c.toNat ≠ 0x29

/-- A hidden `input` element with a name and a value. -/
def hiddenInput (name value : String) : Node :=
  .element "input" [("type", "hidden"), ("name", name), ("value", value)] []

/-- A `script` element with its text. -/
def inlineScript (content : String) : Node := .element "script" [] [.text content]

/-- A page with two hidden inputs and a script that logs a list. -/
def downloadPage : List Node :=
  [hiddenInput "f1" "'scan.zip'", inlineScript "console.log('a.laz', 'b.laz');",
    hiddenInput "f2" "photos.zip"]

/-- A script whose first call has no comma and whose second call has one. -/
def twoCallScript : Node := inlineScript "console.log('x'); console.log('a','b')"

/-- A hidden input whose value is a blank. -/
def blankValueInput : Node := hiddenInput "f1" " "

/-! ## Detail pass of the orchestrator (`processProjectsWithDetails`, lines 657-708) -/

/-- Where the function stands between two events: at the head of an iteration of the
`for` loop (line 661), suspended in `await Promise.race(semaphore)` (line 666) with
the array as it was passed, suspended in `await Promise.all(semaphore)` (line 708)
with the array as it was passed, or past its `return`. -/
inductive LoopControl where
  | check : LoopControl
  | raceWait (snapshot : List Nat) : LoopControl
  | allWait (snapshot : List Nat) : LoopControl
  | returned : LoopControl
deriving DecidableEq, Repr

/-- The state of the detail pass: the index `i` of the loop, the tasks in the array
`semaphore` (by index, in the order of the array), the tasks that have completed with
whether their fetch gave details, in the order of completion, and where the function
stands. -/
structure PoolState where
  next : Nat
  semaphore : List Nat
  completed : List (Nat × Bool)
  control : LoopControl
deriving DecidableEq, Repr

/-- What can happen next: the function runs on from where it stands, or a task of the
array completes, with or without details.  A task never rejects (lines 671-693 catch
every error), and its `finally` callback (lines 699-704) runs before anything that
waits on the task. -/
inductive PoolEvent where
  | resume : PoolEvent
  | settle (task : Nat) (ok : Bool) : PoolEvent
deriving DecidableEq, Repr

/-- The state before the first iteration (line 659). -/
def initialPool : PoolState := { next := 0, semaphore := [], completed := [], control := .check }

/-- Whether a task has completed. -/
def PoolState.isCompleted (s : PoolState) (task : Nat) : Bool :=
  (s.completed.map Prod.fst).contains task

/-- Lines 670-704: the task of the current project is started and pushed, and the loop
goes to its next iteration. -/
def PoolState.start (s : PoolState) : PoolState :=
  { s with next := s.next + 1, semaphore := s.semaphore ++ [s.next], control := .check }

/-- One event of the detail pass with `n` projects and the ceiling `maxConcurrency`;
`none` when the event cannot happen in the state.  At the head of an iteration the
array is tested once (line 665); a suspended `Promise.race` lets the function run on
as soon as a task it was given has completed, and the task of the iteration is then
started without a second test; `Promise.all` waits for every task it was given. -/
def applyEvent (maxConcurrency n : Nat) (s : PoolState) : PoolEvent → Option PoolState
  | .resume =>
    match s.control with
    | .check =>
      if s.next < n then
        if s.semaphore.length ≥ maxConcurrency then
          some { s with control := .raceWait s.semaphore }
        else some s.start
      else some { s with control := .allWait s.semaphore }
    | .raceWait snapshot => if snapshot.any s.isCompleted then some s.start else none
    | .allWait snapshot =>
      if snapshot.all s.isCompleted then some { s with control := .returned } else none
    | .returned => none
  | .settle task ok =>
    if task ∈ s.semaphore then
      some { s with semaphore := s.semaphore.erase task, completed := s.completed ++ [(task, ok)] }
    else none

/-- A sequence of events from a state. -/
def runEvents (maxConcurrency n : Nat) : PoolState → List PoolEvent → Option PoolState
  | s, [] => some s
  | s, e :: es =>
    match applyEvent maxConcurrency n s e with
    | some s' => runEvents maxConcurrency n s' es
    | none => none

/-- What is left to do in a state: three for each project not started, one for each
task in the array, and the steps of the function itself. -/
def poolMeasure (n : Nat) (s : PoolState) : Nat :=
  3 * (n - s.next) + s.semaphore.length +
    (match s.control with
     | .check => 2
     | .raceWait _ => 1
     | .allWait _ => 1
     | .returned => 0)

/-- A run of ten projects with the ceiling 3: the first three tasks are started, and
each later one after the function has waited and a task has completed; some tasks
fail. -/
def tenProjectRun : List PoolEvent :=
  [.resume, .resume, .resume, .resume, .settle 1 true, .resume,
   .resume, .settle 0 false, .resume, .resume, .settle 2 true, .settle 3 true, .resume,
   .resume, .resume, .settle 6 false, .resume, .resume, .settle 4 true, .resume,
   .resume, .settle 5 true, .resume, .resume, .settle 9 true, .settle 7 true, .settle 8 false,
   .resume]

/-- The state at the end of `tenProjectRun`: past the `return`, every task started and
completed once, the array empty. -/
def tenProjectEnd : PoolState :=
  { next := 10
    semaphore := []
    completed := [(1, true), (0, false), (2, true), (3, true), (6, false), (4, true),
      (5, true), (9, true), (7, true), (8, false)]
    control := .returned }

/-- The lengths of the array after each event of a run, `none` where the run stops. -/
def arrayLengths (maxConcurrency n : Nat) (events : List PoolEvent) : List (Option Nat) :=
  (List.range (events.length + 1)).map fun k =>
    (runEvents maxConcurrency n initialPool (events.take k)).map fun s => s.semaphore.length

/-- What holds of every state the detail pass can reach with the ceiling `K` and `n`
projects: the tasks started are those of the first `next` projects, each of them
either in the array or completed; the array holds at most `K` tasks; a suspended
`Promise.race` was given a full, non-empty array of distinct tasks with a project
still to start; a suspended `Promise.all` was given the array after the last start;
and past the `return` the array is empty. -/
def PoolInv (K n : Nat) (s : PoolState) : Prop :=
  s.next ≤ n ∧
  (s.semaphore ++ s.completed.map Prod.fst).Perm (List.range s.next) ∧
  s.semaphore.length ≤ K ∧
  match s.control with
  | .check => True
  | .raceWait snapshot =>
    s.next < n ∧ snapshot.length ≤ K ∧ snapshot.Nodup ∧ snapshot ≠ [] ∧
      (∀ j ∈ s.semaphore, j ∈ snapshot) ∧
      (∀ j ∈ snapshot, j ∈ s.semaphore ∨ j ∈ s.completed.map Prod.fst)
  | .allWait snapshot =>
    s.next = n ∧ (∀ j ∈ s.semaphore, j ∈ snapshot) ∧
      (∀ j ∈ snapshot, j ∈ s.semaphore ∨ j ∈ s.completed.map Prod.fst)
  | .returned => s.next = n ∧ s.semaphore = []

/-! ## The database (`initializeDatabase`, `upsertProject`, `upsertProjectDetails`) -/

/-- A row of a table: its `id` and the columns the upsert statement binds, as the
record they were bound from.  The columns `created_at` and `updated_at` are left out. -/
structure Row (α : Type) where
  id : Nat
  columns : α

/-- The object a statement resolves with (lines 548 and 621): `this.changes` and
`this.lastID`. -/
structure RunResult where
  changes : Nat
  lastID : Nat
deriving DecidableEq, Repr

/-- An open connection: the two tables of the file (lines 23-72), and the identifier of
the row last inserted through the connection, `0` while the connection has inserted
nothing (the value SQLite keeps for `this.lastID`). -/
structure Database where
  heritage_projects : List (Row ProjectStub)
  project_details : List (Row ProjectDetails)
  lastInsertRowid : Nat

/-- Whether a table has a row with the DOI `doi`, the column declared `UNIQUE`. -/
def hasDoi {α : Type} (key : α → String) (rows : List (Row α)) (doi : String) : Bool :=
  rows.any fun row => key row.columns == doi

/-- Clause `ON CONFLICT(doi) DO UPDATE SET ...` (lines 517-527 and 564-587): the row
with the DOI of the record gets every column of the statement from the record, and
keeps its `id`. -/
def updateRows {α : Type} (key : α → String) (rows : List (Row α)) (record : α) :
    List (Row α) :=
  rows.map fun row => if key row.columns = key record then { row with columns := record } else row

/-- The `id` given to an inserted row (`INTEGER PRIMARY KEY AUTOINCREMENT`): positive and
greater than every `id` of the table.  SQLite may skip values; the least such `id`
stands for the one it picks, and nothing below depends on which one it is. -/
def freshId {α : Type} (rows : List (Row α)) : Nat := (rows.map Row.id).foldl max 0 + 1

/-- The statement `INSERT INTO ... ON CONFLICT(doi) DO UPDATE SET ...` on a table: the
rows after it, and the `id` of the row it inserted, `none` when it updated a row. -/
def upsertRows {α : Type} (key : α → String) (rows : List (Row α)) (record : α) :
    List (Row α) × Option Nat :=
  if hasDoi key rows (key record) then (updateRows key rows record, none)
  else (rows ++ [{ id := freshId rows, columns := record }], some (freshId rows))

/-- Function `upsertProject` (lines 510-551) on a connection on which the statement
succeeds: one row is changed, and `lastID` is the `id` of the row last inserted through
the connection, this one when the statement inserted. -/
def upsertProject (db : Database) (project : ProjectStub) : Database × RunResult :=
  let upserted := upsertRows ProjectStub.doi db.heritage_projects project
  let last := upserted.2.getD db.lastInsertRowid
  ({ db with heritage_projects := upserted.1, lastInsertRowid := last },
    { changes := 1, lastID := last })

/-- Function `upsertProjectDetails` (lines 553-624) on a connection on which the
statement succeeds. -/
def upsertProjectDetails (db : Database) (details : ProjectDetails) : Database × RunResult :=
  let upserted := upsertRows ProjectDetails.doi db.project_details details
  let last := upserted.2.getD db.lastInsertRowid
  ({ db with project_details := upserted.1, lastInsertRowid := last },
    { changes := 1, lastID := last })

/-- Function `initializeDatabase` (lines 11-93) on a file that has the two tables: a new
connection, through which nothing has been inserted. -/
def initializeDatabase (file : Database) : Database := { file with lastInsertRowid := 0 }

/-- A file with the two tables and no row. -/
def emptyDatabase : Database :=
  { heritage_projects := [], project_details := [], lastInsertRowid := 0 }

/-! ## The orchestrator (`processProjectsWithDetails`, `main`) -/

/-- What the two upsert functions do on a database of type `σ`: they resolve with the
database after the statement and its result, or reject and leave the database as it
was. -/
structure Store (σ : Type) where
  upsertProject : σ → ProjectStub → Except String (σ × RunResult)
  upsertProjectDetails : σ → ProjectDetails → Except String (σ × RunResult)

/-- The two upsert functions on a connection on which every statement succeeds. -/
def sqliteStore : Store Database :=
  { upsertProject := fun db project => .ok (upsertProject db project)
    upsertProjectDetails := fun db details => .ok (upsertProjectDetails db details) }

/-- The four counters of `processProjectsWithDetails` (lines 633-636). -/
structure Counts where
  newProjects : Nat
  updatedProjects : Nat
  newDetails : Nat
  updatedDetails : Nat
deriving DecidableEq, Repr

/-- Lines 633-636. -/
def zeroCounts : Counts :=
  { newProjects := 0, updatedProjects := 0, newDetails := 0, updatedDetails := 0 }

/-- Lines 643-651: the counter of a stub upsert. -/
def countProject (counts : Counts) (result : RunResult) : Counts :=
  if result.changes > 0 then
    if result.lastID > 0 then { counts with newProjects := counts.newProjects + 1 }
    else { counts with updatedProjects := counts.updatedProjects + 1 }
  else counts

/-- Lines 675-683: the counter of a details upsert. -/
def countDetails (counts : Counts) (result : RunResult) : Counts :=
  if result.changes > 0 then
    if result.lastID > 0 then { counts with newDetails := counts.newDetails + 1 }
    else { counts with updatedDetails := counts.updatedDetails + 1 }
  else counts

/-- Body of the first loop (lines 640-655): the stub is upserted and counted; a
rejection is caught and logged. -/
def processProject {σ : Type} (store : Store σ) (st : σ × Counts) (project : ProjectStub) :
    σ × Counts :=
  match store.upsertProject st.1 project with
  | .ok (db, result) => (db, countProject st.2 result)
  | .error _ => st

/-- A detail task from its fetch on (lines 671-693): the record is upserted and counted
when the fetch gave one; a rejection is caught and logged. -/
def processDetails {σ : Type} (ops : NumberOps) (net : Network) (store : Store σ)
    (st : σ × Counts) (project : ProjectStub) : σ × Counts :=
  match fetchProjectDetails ops net project with
  | some details =>
    match store.upsertProjectDetails st.1 details with
    | .ok (db, result) => (db, countDetails st.2 result)
    | .error _ => st
  | none => st

/-- Function `processProjectsWithDetails` (lines 632-716): the stubs are upserted in
their order, then the detail tasks run.  The tasks run concurrently and the database
executes their statements one at a time; `order` is the order in which the tasks reach
the database, which the network decides. -/
def processProjectsWithDetails {σ : Type} (ops : NumberOps) (net : Network) (store : Store σ)
    (db : σ) (projects order : List ProjectStub) : σ × Counts :=
  order.foldl (processDetails ops net store) (projects.foldl (processProject store) (db, zeroCounts))

/-- Function `main` (lines 719-791) on a database file: the file after the run, and the
counts of the summary, `none` when the listing cannot be parsed or has no stub. -/
def main (ops : NumberOps) (net : Network) (listing : Option (List Node))
    (order : List ProjectStub) (file : Database) : Database × Option Counts :=
  match fetchData listing with
  | .error _ => (initializeDatabase file, none)
  | .ok projects =>
    if projects.length = 0 then (initializeDatabase file, none)
    else
      let done := processProjectsWithDetails ops net sqliteStore (initializeDatabase file)
        projects order
      (done.1, some done.2)

/-! ## Vocabulary of the persistence claims -/

/-- The rows of a table after the upsert statement has run for each record of a list,
in the order of the list. -/
def upsertAll {α : Type} (key : α → String) (rows : List (Row α)) (records : List α) :
    List (Row α) :=
  records.foldl (fun t record => (upsertRows key t record).1) rows

/-- The last record of a list with the DOI `doi`. -/
def lastWith {α : Type} (key : α → String) (doi : String) : List α → Option α
  | [] => none
  | record :: records =>
    match lastWith key doi records with
    | some later => some later
    | none => if key record = doi then some record else none

/-- A row after the updates of a list of records: its columns are those of the last
record with its DOI, when there is one. -/
def settleRow {α : Type} (key : α → String) (records : List α) (row : Row α) : Row α :=
  match lastWith key (key row.columns) records with
  | some record => { row with columns := record }
  | none => row

/-- The number of rows of a table with the DOI `doi`. -/
def rowsWithDoi {α : Type} (key : α → String) (rows : List (Row α)) (doi : String) : Nat :=
  (rows.map fun row => key row.columns).count doi

/-- Every DOI is in one row of the table at most (`doi TEXT UNIQUE NOT NULL`). -/
def UniqueDoi {α : Type} (key : α → String) (rows : List (Row α)) : Prop :=
  (rows.map fun row => key row.columns).Nodup

/-- A listing row with a project link to a page of the site. -/
def linkedRow (name page doi : String) : Node :=
  tr [td [anchor ("https://openheritage3d.org/" ++ page) name], td [.text "USA"],
    td [anchor ("https://doi.org/" ++ doi) doi], td [.text "Complete"], td [.text "J. Smith"]]

/-- The stub of `linkedRow`. -/
def linkedStub (name page doi : String) : ProjectStub :=
  { project_name := name
    country := "USA"
    doi := doi
    status := "Complete"
    collectors := "J. Smith"
    keywords := ""
    contributor := ""
    project_link := some ("https://openheritage3d.org/" ++ page)
    doi_link := some ("https://doi.org/" ++ doi)
    collectors_link := none }

/-- A detail page that only has a viewer. -/
def viewerPage (src : String) : DetailResponse :=
  { data := "<iframe src=\"" ++ src ++ "\"></iframe>"
    document := [.element "iframe" [("src", src)] []] }

/-- A network with two detail pages, `a` and `b`, and no DataCite metadata. -/
def twoPageNetwork : Network :=
  { page := fun link =>
      if link = "https://openheritage3d.org/a" then some (viewerPage "viewer-a")
      else if link = "https://openheritage3d.org/b" then some (viewerPage "viewer-b")
      else none
    datacite := fun _ => none }

/-- A listing of two rows with the same DOI and different project links. -/
def sharedDoiListing : Option (List Node) :=
  some [linkedRow "Site A" "a" "10.1/abc", linkedRow "Site A (2019)" "b" "10.1/abc"]

/-- A listing of two rows with different DOIs, the first without a project link. -/
def plainListing : Option (List Node) := some [siteARow, linkedRow "Site B" "b" "10.1/xyz"]

/-- The stubs of `plainListing`. -/
def plainStubs : List ProjectStub := [siteAStub, linkedStub "Site B" "b" "10.1/xyz"]

/-- The stubs of `sharedDoiListing`. -/
def sharedDoiStubs : List ProjectStub :=
  [linkedStub "Site A" "a" "10.1/abc", linkedStub "Site A (2019)" "b" "10.1/abc"]

/-- A first run on the listing with a shared DOI, on an empty file, in which the page
`a` arrives first. -/
def sharedDoiFirstRun : Database × Option Counts :=
  main exactOps twoPageNetwork sharedDoiListing sharedDoiStubs emptyDatabase

/-- A second run on the same listing and pages, on the file the first run left, in
which the page `b` arrives first. -/
def sharedDoiSecondRun : Database × Option Counts :=
  main exactOps twoPageNetwork sharedDoiListing sharedDoiStubs.reverse sharedDoiFirstRun.1

/-! ## Vocabulary of the site-authority claim -/

/-- A comma or a whitespace character: what separates names and carries none. -/
def isCommaOrBlank (c : Char) : Bool := c == ',' || isJsWhitespace c

/-- A site-authority row with the value cell `value`. -/
def authorityRow (value : List Node) : Node := tr [td [.text "Site Authority:"], td value]

/-! ## Sample runs of the orchestrator -/

/-- The two upsert functions on a connection on which every statement for the DOI
`doi` is rejected, and every other statement succeeds. -/
def rejectingStore (doi : String) : Store Database :=
  { upsertProject := fun db project =>
      if project.doi = doi then .error "SQLITE_BUSY: database is locked"
      else .ok (upsertProject db project)
    upsertProjectDetails := fun db details =>
      if details.doi = doi then .error "SQLITE_BUSY: database is locked"
      else .ok (upsertProjectDetails db details) }

/-- Four stubs: one without a project link, one whose detail page cannot be fetched,
one whose statements are rejected by `rejectingStore "10.1/xyz"`, and one for which
everything succeeds. -/
def mixedStubs : List ProjectStub :=
  [siteAStub, linkedStub "Site C" "c" "10.1/c", linkedStub "Site B" "b" "10.1/xyz",
    linkedStub "Site D" "a" "10.1/d"]

/-- A file left by an earlier run, on a listing that had the row of Site B only. -/
def siteBFile : Database :=
  (main exactOps twoPageNetwork (some [linkedRow "Site B" "b" "10.1/xyz"])
    [linkedStub "Site B" "b" "10.1/xyz"] emptyDatabase).1

/-! ## Vocabulary of the bounding polygon -/

/-- One object of the array as the pattern of the array reads it: what stands between
its braces, whether a comma follows it, and the whitespace after that. -/
structure ArrayItem where
  body : List Char
  comma : Bool
  blank : List Char

/-- The text of an object of the array with what follows it. -/
def ArrayItem.text (it : ArrayItem) : List Char :=
  "\x7b".data ++ (it.body ++ ("\x7d".data ++ ((if it.comma then ",".data else []) ++ it.blank)))

/-- An object with one or more characters between its braces, none of them a closing
brace, followed by whitespace only. -/
def ArrayItem.WellFormed (it : ArrayItem) : Prop :=
  it.body ≠ [] ∧ (∀ c ∈ it.body, c.toNat ≠ 0x7D) ∧ IsBlank it.blank

/-- The text of a sequence of objects. -/
def arrayText : List ArrayItem → List Char
  | [] => []
  | it :: its => it.text ++ arrayText its

/-- The text `html` has, after `pre`, an assignment `cords = [ ... ]` of an array of one
or more objects, whose text from the first opening brace to the closing bracket is
`group`: a match of the pattern of the array at that position, with its capture
group. -/
def IsCordsAt (html pre group : List Char) : Prop :=
  ∃ (w1 w2 w3 : List Char) (items : List ArrayItem) (rest : List Char),
    IsBlank w1 ∧ IsBlank w2 ∧ IsBlank w3 ∧ items ≠ [] ∧ (∀ it ∈ items, it.WellFormed) ∧
    group = arrayText items ∧
    html = pre ++ ("cords".data ++ (w1 ++ ("=".data ++ (w2 ++ ("[".data ++ (w3 ++
      (group ++ ("]".data ++ rest))))))))

/-- The text `l` starts with a pair literal: an opening brace, `lat:`, the text `a` of
digits, dots and hyphens, a comma, `lng:`, such a text `b` and a closing brace, with
whitespace where the pattern of a pair allows some; `rest` follows it. -/
def IsPairAt (l a b rest : List Char) : Prop :=
  ∃ w1 w2 w3 w4 w5 : List Char,
    IsBlank w1 ∧ IsBlank w2 ∧ IsBlank w3 ∧ IsBlank w4 ∧ IsBlank w5 ∧
    IsCoordText a ∧ IsCoordText b ∧
    l = "\x7b".data ++ (w1 ++ ("lat:".data ++ (w2 ++ (a ++ (",".data ++ (w3 ++
      ("lng:".data ++ (w4 ++ (b ++ (w5 ++ ("\x7d".data ++ rest)))))))))))

/-- The pair literals found in a text, from left to right: where a pair literal
starts, its two texts are taken and the search goes on after it; where none starts,
the search goes on at the next character. -/
inductive PairsOf : List Char → List (List Char × List Char) → Prop where
  | done : PairsOf [] []
  | pair (l a b rest : List Char) (ps : List (List Char × List Char)) :
      IsPairAt l a b rest → PairsOf rest ps → PairsOf l ((a, b) :: ps)
  | skip (c : Char) (l : List Char) (ps : List (List Char × List Char)) :
      (∀ a b rest, ¬ IsPairAt (c :: l) a b rest) → PairsOf l ps → PairsOf (c :: l) ps

/-- The point of a pair literal: its two texts as `parseFloat` reads them. -/
def pairPoint (ops : NumberOps) (m : List Char × List Char) : LatLng :=
  { lat := parseFloat ops (String.mk m.1), lng := parseFloat ops (String.mk m.2) }

/-- A page in which the word `records` comes before the `cords` array. -/
def recordsPage : String :=
  "var records = 2; cords = [\x7blat: 10.5, lng: -3.25\x7d]; // records"

/-- A page whose `cords` array has an object that is no point between two points. -/
def mixedArrayPage : String :=
  "cords=[\x7blat:1,lng:2\x7d,\x7bx: 1\x7d,\x7b lat: 3, lng: 4 \x7d]"

/-- What can follow an object: the closing bracket, which ends the group, or the
opening brace of the next object. -/
def AfterItems (l g : List Char) : Prop :=
  (∃ rest, l = "]".data ++ rest ∧ g = []) ∨
    ∃ l' g', l = "\x7b".data ++ l' ∧ g = "\x7b".data ++ g' ∧ scanItems .opened l' = some g'

/-! ## Binary64 arithmetic -/

/-- The quotient of two naturals rounded to the nearest natural, to the even one when
it is half way between two. -/
def roundQuotient (n d : Nat) : Nat :=
  if 2 * (n % d) < d then n / d
  else if d < 2 * (n % d) then n / d + 1
  else if (n / d) % 2 = 0 then n / d else n / d + 1

/-- Whether the quotient `n / d` is below `2 ^ (e + 53)`: with the exponent `e` its
significand has no more than 53 bits. -/
def belowPower (n d : Nat) (e : Int) : Bool :=
  decide (n * 2 ^ (-(e + 53)).toNat < d * 2 ^ (e + 53).toNat)

/-- The least exponent from `e` on, among the next `fuel` ones, with which the
significand of `n / d` has no more than 53 bits. -/
def findExponent (n d : Nat) : Nat → Int → Option Int
  | 0, _ => none
  | fuel + 1, e => if belowPower n d e then some e else findExponent n d fuel (e + 1)

/-- The binary64 value of a mathematical value: round to nearest, ties to even.  The
exponent is the least one from `-1074`, that of the subnormal numbers, to `971`, that
of the largest numbers, with which the significand has no more than 53 bits; the
significand is the value divided by the power of two, rounded; a value that rounds to
`2 ^ 1024` or more gives an infinity. -/
def roundBinary64 (x : Rat) : JsNumber :=
  if x.num = 0 then .finite 0
  else
    match findExponent x.num.natAbs x.den 2046 (-1074) with
    | none => .infinite (decide (x.num < 0))
    | some e =>
      if e = 971 ∧ 2 ^ 53 ≤ roundQuotient (x.num.natAbs * 2 ^ (-e).toNat) (x.den * 2 ^ e.toNat) then
        .infinite (decide (x.num < 0))
      else
        .finite ((if x.num < 0 then -1 else 1) *
          ((roundQuotient (x.num.natAbs * 2 ^ (-e).toNat) (x.den * 2 ^ e.toNat) : Rat) * 2 ^ e))

/-- The arithmetic of the engine: binary64 rounding, with the decimal text of a finite
Number as `JSON.stringify` writes it left as a parameter. -/
def binary64Ops (digits : Rat → String) : NumberOps :=
  { round := roundBinary64, digits := digits }

/-- A page whose latitude assignment has the literals `0.1` and `0.2`. -/
def tenthsPage : String := "var lat_mid = (0.1 + 0.2) / 2;"

/-- A page with the word `records` and no `cords` array. -/
def noArrayPage : String := "var records = 2;"

/-! # Theorems -/

/-! ## Characters -/

theorem toNat_ofNat_of_lt (n : Nat) (h : n < 0xD800) : (Char.ofNat n).toNat = n := by
  have hv : n.isValidChar := Or.inl h
  simp only [Char.ofNat, hv, dite_true]
  rfl

theorem whitespace_not_word (c : Char) (h : isJsWhitespace c = true) : isWordChar c = false := by
  simp only [isJsWhitespace, isWordChar, Bool.or_eq_true, Bool.and_eq_true, beq_iff_eq,
    decide_eq_true_eq, Bool.or_eq_false_iff, Bool.and_eq_false_iff, decide_eq_false_iff_not,
    beq_eq_false_iff_ne] at h ⊢
  omega

theorem filler_not_word (c : Char) (h : isLabelFiller c = true) : isWordChar c = false := by
  simp only [isLabelFiller, isJsWhitespace, isWordChar, Bool.or_eq_true, Bool.and_eq_true,
    beq_iff_eq, decide_eq_true_eq, Bool.or_eq_false_iff, Bool.and_eq_false_iff,
    decide_eq_false_iff_not, beq_eq_false_iff_ne] at h ⊢
  omega

/-- Lower-casing never produces an ASCII capital. -/
theorem lowerChar_not_upper (c d : Char) (h : d ∈ lowerChar c) :
    ¬ (0x41 ≤ d.toNat ∧ d.toNat ≤ 0x5A) := by
  unfold lowerChar at h
  simp only at h
  split at h
  · rename_i hu
    simp only [List.mem_singleton] at h
    subst h
    rw [toNat_ofNat_of_lt _ (by omega)]
    omega
  · split at h
    · simp only [List.mem_cons, List.mem_singleton, List.not_mem_nil, or_false] at h
      rcases h with h | h <;> subst h <;> decide
    · split at h
      · simp only [List.mem_singleton] at h
        subst h
        decide
      · simp only [List.mem_singleton] at h
        subst h
        assumption

/-- A word character that is no capital is its own lower case. -/
theorem lowerChar_self (c : Char) (hw : isWordChar c = true)
    (hu : ¬ (0x41 ≤ c.toNat ∧ c.toNat ≤ 0x5A)) : lowerChar c = [c] := by
  simp only [isWordChar, Bool.or_eq_true, Bool.and_eq_true, beq_iff_eq,
    decide_eq_true_eq] at hw
  unfold lowerChar
  simp only
  rw [if_neg hu, if_neg (by omega), if_neg (by omega)]

theorem mem_lowerChars (l : List Char) (d : Char) (h : d ∈ lowerChars l) :
    ∃ c ∈ l, d ∈ lowerChar c := by
  induction l with
  | nil => simp [lowerChars] at h
  | cons a l ih =>
    simp only [lowerChars, List.mem_append] at h
    rcases h with h | h
    · exact ⟨a, List.mem_cons_self _ _, h⟩
    · obtain ⟨c, hc, hd⟩ := ih h
      exact ⟨c, List.mem_cons_of_mem _ hc, hd⟩

theorem lowerChars_fixed (l : List Char)
    (h : ∀ c ∈ l, isWordChar c = true ∧ ¬ (0x41 ≤ c.toNat ∧ c.toNat ≤ 0x5A)) :
    lowerChars l = l := by
  induction l with
  | nil => rfl
  | cons a l ih =>
    have ha := h a (List.mem_cons_self _ _)
    simp only [lowerChars, lowerChar_self a ha.1 ha.2, List.singleton_append]
    rw [ih (fun c hc => h c (List.mem_cons_of_mem _ hc))]

/-! ## Label normalizer -/

theorem filter_word_dropWhile (l : List Char) :
    (l.dropWhile isJsWhitespace).filter isWordChar = l.filter isWordChar := by
  induction l with
  | nil => rfl
  | cons a l ih =>
    by_cases ha : isJsWhitespace a = true
    · simp [List.dropWhile_cons, ha, ih, whitespace_not_word a ha]
    · simp [List.dropWhile_cons, ha]

theorem filter_word_trimChars (l : List Char) :
    (trimChars l).filter isWordChar = l.filter isWordChar := by
  unfold trimChars
  rw [List.filter_reverse, filter_word_dropWhile, List.filter_reverse, List.reverse_reverse,
    filter_word_dropWhile]

theorem filter_word_filter_ws (l : List Char) :
    (l.filter (fun c => !isJsWhitespace c)).filter isWordChar = l.filter isWordChar := by
  rw [List.filter_filter]
  apply List.filter_congr
  intro c _
  by_cases hc : isJsWhitespace c = true
  · simp [hc, whitespace_not_word c hc]
  · simp [hc]

/-- The four steps of `normalizeLabel` amount to lower-casing and keeping the word
characters. -/
theorem normalizeLabel_data (s : String) :
    (normalizeLabel s).data = (lowerChars s.data).filter isWordChar := by
  simp only [normalizeLabel, removeNonWord, removeWhitespace, jsTrim, toLowerCase]
  rw [filter_word_filter_ws, filter_word_trimChars]

theorem normalizeLabel_chars (s : String) (c : Char) (h : c ∈ (normalizeLabel s).data) :
    isWordChar c = true ∧ ¬ (0x41 ≤ c.toNat ∧ c.toNat ≤ 0x5A) := by
  rw [normalizeLabel_data, List.mem_filter] at h
  obtain ⟨d, _, hd⟩ := mem_lowerChars _ _ h.1
  exact ⟨h.2, lowerChar_not_upper d c hd⟩

theorem filler_lowerChar (d : Char) (h : isLabelFiller d = true) :
    (lowerChar d).filter isWordChar = [] := by
  have hw := filler_not_word d h
  have hd : lowerChar d = [d] := by
    simp only [isLabelFiller, isJsWhitespace, Bool.or_eq_true, Bool.and_eq_true, beq_iff_eq,
      decide_eq_true_eq] at h
    unfold lowerChar
    simp only
    rw [if_neg (by omega), if_neg (by omega), if_neg (by omega)]
  rw [hd]
  simp [hw]

theorem letter_lowerChar (c : Char) (h : isAsciiLetter c = true) :
    lowerChar c = [Char.ofNat (asciiLowerCode c.toNat)] := by
  simp only [isAsciiLetter, Bool.or_eq_true, Bool.and_eq_true, decide_eq_true_eq] at h
  unfold lowerChar asciiLowerCode
  simp only
  by_cases hu : 0x41 ≤ c.toNat ∧ c.toNat ≤ 0x5A
  · rw [if_pos hu, if_pos hu]
  · rw [if_neg hu, if_neg hu, if_neg (by omega), if_neg (by omega), Char.ofNat_toNat]

theorem sameUpToCase_lowerChar (c d : Char) (h : sameUpToCase c d = true) :
    lowerChar c = lowerChar d := by
  simp only [sameUpToCase, Bool.or_eq_true, Bool.and_eq_true, beq_iff_eq] at h
  rcases h with h | ⟨⟨hc, hd⟩, he⟩
  · rw [h]
  · rw [letter_lowerChar c hc, letter_lowerChar d hd, he]

theorem variant_filter (t : List Char) :
    ∀ s : List Char, isLabelVariant s t = true →
      (lowerChars t).filter isWordChar = (lowerChars s).filter isWordChar := by
  induction t with
  | nil =>
    intro s h
    simp only [isLabelVariant, List.isEmpty_iff] at h
    rw [h]
  | cons d t ih =>
    intro s h
    simp only [isLabelVariant, Bool.or_eq_true, Bool.and_eq_true] at h
    rcases h with ⟨hf, hv⟩ | h
    · simp only [lowerChars, List.filter_append, filler_lowerChar d hf, List.nil_append]
      exact ih s hv
    · cases s with
      | nil => simp at h
      | cons c r =>
        simp only [Bool.and_eq_true] at h
        simp only [lowerChars, List.filter_append, sameUpToCase_lowerChar c d h.1, ih r h.2]

/-- C4, as amended.  Every character of a normalized label is a lowercase letter, a
digit or the underscore, none of them whitespace, and the normalized label is the
lower-cased input with every character outside `[A-Za-z0-9_]` removed. -/
theorem normalizeLabel_word_characters (s : String) :
    (∀ c ∈ (normalizeLabel s).data,
      (isLowerAlnum c = true ∨ c.toNat = 0x5F) ∧ isJsWhitespace c = false) ∧
    normalizeLabel s = String.mk ((toLowerCase s).data.filter isWordChar) := by
  refine ⟨?_, String.ext (normalizeLabel_data s)⟩
  intro c hc
  obtain ⟨hw, hu⟩ := normalizeLabel_chars s c hc
  simp only [isWordChar, isLowerAlnum, isJsWhitespace, Bool.or_eq_true, Bool.and_eq_true,
    beq_iff_eq, decide_eq_true_eq, Bool.or_eq_false_iff, Bool.and_eq_false_iff,
    decide_eq_false_iff_not, beq_eq_false_iff_ne] at hw ⊢
  omega

/-- C4 as stated fails: the underscore is a character of `\w`, so the label `a_b` is
kept whole and its normalized form has a character that is neither a lowercase
letter nor a digit. -/
theorem normalizeLabel_keeps_underscore :
    normalizeLabel "a_b" = "a_b" ∧
    ¬ (∀ c ∈ (normalizeLabel "a_b").data, isLowerAlnum c = true) := by
  decide

/-- C5.  Changing the case of ASCII letters of a label and inserting whitespace,
colons or hyphens anywhere in it does not change its normalized form. -/
theorem normalizeLabel_insensitive (s t : String) (h : isLabelVariant s.data t.data = true) :
    normalizeLabel t = normalizeLabel s := by
  apply String.ext
  rw [normalizeLabel_data, normalizeLabel_data]
  exact variant_filter t.data s.data h

/-- C5 at the labels of the specification: all five spellings are variants of
`sitedescription` and normalize to it, the label on which the detail parser sets the
site description. -/
theorem normalizeLabel_insensitive_witness :
    normalizeLabel "Site Description:" = "sitedescription" ∧
    normalizeLabel "SITE-DESCRIPTION" = "sitedescription" ∧
    normalizeLabel " sitedescription " = "sitedescription" ∧
    normalizeLabel "site-description" = "sitedescription" ∧
    normalizeLabel "SiteDescription" = "sitedescription" ∧
    (dispatchLabel (initialDetails "10.1/abc") (normalizeLabel "Site Description:")
      [Node.text "A site."]).site_description.isSome = true :=
  have base : normalizeLabel "sitedescription" = "sitedescription" := by decide
  ⟨(normalizeLabel_insensitive "sitedescription" "Site Description:" (by decide)).trans base,
   (normalizeLabel_insensitive "sitedescription" "SITE-DESCRIPTION" (by decide)).trans base,
   (normalizeLabel_insensitive "sitedescription" " sitedescription " (by decide)).trans base,
   (normalizeLabel_insensitive "sitedescription" "site-description" (by decide)).trans base,
   (normalizeLabel_insensitive "sitedescription" "SiteDescription" (by decide)).trans base,
   by decide⟩

/-- C6.  Normalizing a normalized label changes nothing. -/
theorem normalizeLabel_idempotent (s : String) :
    normalizeLabel (normalizeLabel s) = normalizeLabel s := by
  apply String.ext
  rw [normalizeLabel_data (normalizeLabel s),
    lowerChars_fixed _ (fun c hc => normalizeLabel_chars s c hc)]
  exact List.filter_eq_self.mpr (fun c hc => (normalizeLabel_chars s c hc).1)

/-! ## Strings -/

theorem trimChars_of_whitespace (l : List Char) (h : ∀ c ∈ l, isJsWhitespace c = true) :
    trimChars l = [] := by
  unfold trimChars
  rw [List.dropWhile_eq_nil_iff.mpr h]
  rfl

theorem foldl_push_map {α β : Type} (f : α → β) (l : List α) :
    ∀ init : List β, l.foldl (fun acc x => acc ++ [f x]) init = init ++ l.map f := by
  induction l with
  | nil => intro init; simp
  | cons a l ih => intro init; simp [ih]

/-! ## The resolver pattern -/

theorem doiMatchHere_eq_some (l r : List Char) :
    doiMatchHere l = some r ↔ IsResolverSplit l [] r := by
  unfold doiMatchHere IsResolverSplit
  simp only [List.nil_append]
  constructor
  · intro h
    split at h
    · rename_i hp
      split at h
      · rename_i hr
        obtain ⟨t, ht⟩ := List.isPrefixOf_iff_prefix.mp hp
        have hd : l.drop 8 = t := by
          rw [← ht]
          exact @List.drop_left' Char "doi.org/".data t 8 rfl
        simp only [Option.some.injEq] at h
        rw [hd] at h hr
        subst h
        refine ⟨ht.symm, hr.1, ?_⟩
        intro c hc
        have := List.all_eq_true.mp hr.2 c hc
        simpa using this
      · cases h
    · cases h
  · rintro ⟨hl, hne, hlt⟩
    have hp : "doi.org/".data.isPrefixOf l = true :=
      List.isPrefixOf_iff_prefix.mpr ⟨r, hl.symm⟩
    have hd : l.drop 8 = r := by
      rw [hl]
      exact @List.drop_left' Char "doi.org/".data r 8 rfl
    rw [if_pos hp]
    simp only [hd]
    rw [if_pos]
    refine ⟨hne, List.all_eq_true.mpr ?_⟩
    intro c hc
    simp [hlt c hc]

theorem split_cons (c : Char) (cs pre rest : List Char) :
    IsResolverSplit cs pre rest → IsResolverSplit (c :: cs) (c :: pre) rest := by
  rintro ⟨hl, hne, hlt⟩
  exact ⟨by rw [hl]; rfl, hne, hlt⟩

theorem split_of_cons (c : Char) (cs pre rest : List Char)
    (h : IsResolverSplit (c :: cs) pre rest) :
    pre = [] ∨ ∃ p, pre = c :: p ∧ IsResolverSplit cs p rest := by
  cases pre with
  | nil => exact Or.inl rfl
  | cons a p =>
    right
    obtain ⟨hl, hne, hlt⟩ := h
    simp only [List.cons_append, List.cons.injEq] at hl
    exact ⟨p, by rw [hl.1], hl.2, hne, hlt⟩

/-- A match of the pattern is a resolver split of the link, the leftmost one. -/
theorem doiMatchChars_sound (l : List Char) :
    ∀ r, doiMatchChars l = some r →
      ∃ pre, IsResolverSplit l pre r ∧
        ∀ p q, IsResolverSplit l p q → pre.length ≤ p.length := by
  induction l with
  | nil => intro r h; simp [doiMatchChars] at h
  | cons c cs ih =>
    intro r h
    unfold doiMatchChars at h
    split at h
    · rename_i r0 h0
      simp only [Option.some.injEq] at h
      subst h
      exact ⟨[], (doiMatchHere_eq_some _ _).mp h0, fun p q _ => Nat.zero_le _⟩
    · rename_i h0
      obtain ⟨pre, hs, hmin⟩ := ih r h
      refine ⟨c :: pre, split_cons c cs pre r hs, ?_⟩
      intro p q hpq
      rcases split_of_cons c cs p q hpq with hp | ⟨p0, hp, hs0⟩
      · subst hp
        rw [(doiMatchHere_eq_some _ _).mpr hpq] at h0
        cases h0
      · subst hp
        simp only [List.length_cons]
        exact Nat.succ_le_succ (hmin p0 q hs0)

/-- A link with a resolver split matches the pattern. -/
theorem doiMatchChars_complete (l : List Char) :
    ∀ pre rest, IsResolverSplit l pre rest → ∃ r, doiMatchChars l = some r := by
  induction l with
  | nil =>
    intro pre rest h
    obtain ⟨hl, _, _⟩ := h
    have h8 : "doi.org/".data.length = 8 := rfl
    have := congrArg List.length hl
    rw [List.length_append, List.length_append, h8] at this
    simp only [List.length_nil] at this
    omega
  | cons c cs ih =>
    intro pre rest h
    unfold doiMatchChars
    split
    · rename_i r0 _
      exact ⟨r0, rfl⟩
    · rename_i h0
      rcases split_of_cons c cs pre rest h with hp | ⟨p0, _, hs0⟩
      · subst hp
        rw [(doiMatchHere_eq_some _ _).mpr h] at h0
        cases h0
      · exact ih p0 rest hs0

theorem split_unique (l pre rest p q : List Char) (h1 : IsResolverSplit l pre rest)
    (h2 : IsResolverSplit l p q) (hlen : pre.length = p.length) : rest = q := by
  have e : pre ++ ("doi.org/".data ++ rest) = p ++ ("doi.org/".data ++ q) := by
    rw [← List.append_assoc, ← List.append_assoc, ← h1.1, ← h2.1]
  have := (List.append_inj e hlen).2
  exact List.append_cancel_left this

/-- The leftmost resolver split of a link is what the pattern captures. -/
theorem doiMatchChars_of_leftmost (l pre rest : List Char) (h : IsResolverSplit l pre rest)
    (hmin : ∀ p q, IsResolverSplit l p q → pre.length ≤ p.length) :
    doiMatchChars l = some rest := by
  obtain ⟨r, hr⟩ := doiMatchChars_complete l pre rest h
  obtain ⟨p0, hs0, hmin0⟩ := doiMatchChars_sound l r hr
  have hlen : pre.length = p0.length := Nat.le_antisymm (hmin p0 r hs0) (hmin0 pre rest h)
  rw [hr, split_unique l pre rest p0 r h hs0 hlen]

theorem doiMatchChars_none (l : List Char) (h : ∀ pre rest, ¬ IsResolverSplit l pre rest) :
    doiMatchChars l = none := by
  cases hm : doiMatchChars l with
  | none => rfl
  | some r =>
    obtain ⟨pre, hs, _⟩ := doiMatchChars_sound l r hm
    exact absurd hs (h pre r)

/-- A match starts no later than any resolver split, measured from the end. -/
theorem split_length_of_match (l r p q : List Char) (hm : doiMatchChars l = some r)
    (h : IsResolverSplit l p q) : l.length - 8 - r.length ≤ p.length := by
  obtain ⟨pre, hs, hmin⟩ := doiMatchChars_sound l r hm
  have hl := congrArg List.length hs.1
  have h8 : "doi.org/".data.length = 8 := rfl
  rw [List.length_append, List.length_append, h8] at hl
  have := hmin p q h
  omega

theorem includesChars_of_split (l : List Char) :
    ∀ pre rest, l = pre ++ "doi.org/".data ++ rest → includesChars "doi.org/".data l = true := by
  induction l with
  | nil =>
    intro pre rest h
    have h8 : "doi.org/".data.length = 8 := rfl
    have := congrArg List.length h
    rw [List.length_append, List.length_append, h8] at this
    simp only [List.length_nil] at this
    omega
  | cons c cs ih =>
    intro pre rest h
    unfold includesChars
    cases pre with
    | nil =>
      have hp : "doi.org/".data.isPrefixOf (c :: cs) = true :=
        List.isPrefixOf_iff_prefix.mpr ⟨rest, by rw [h]; rfl⟩
      rw [hp]
      rfl
    | cons a p =>
      simp only [List.cons_append, List.cons.injEq] at h
      rw [ih p rest h.2]
      simp

/-- The DOI of a cell whose link has a resolver split is what follows the leftmost
one; the DOI of any other cell is its text. -/
theorem resolveDoi_cases (d : CellData) :
    (∀ l pre rest, d.link = some l → IsResolverSplit l.data pre rest →
      (∀ p q, IsResolverSplit l.data p q → pre.length ≤ p.length) →
      resolveDoi d = String.mk rest) ∧
    ((∀ l, d.link = some l → ∀ pre rest, ¬ IsResolverSplit l.data pre rest) →
      resolveDoi d = d.text) := by
  constructor
  · intro l pre rest hl hs hmin
    unfold resolveDoi
    rw [hl]
    simp only [includes, doiMatch]
    rw [includesChars_of_split l.data pre rest hs.1, doiMatchChars_of_leftmost l.data pre rest hs hmin]
    rfl
  · intro h
    unfold resolveDoi
    cases hl : d.link with
    | none => rfl
    | some l =>
      simp only [doiMatch]
      rw [doiMatchChars_none l.data (h l hl)]
      simp

/-! ## Listing parser -/

theorem processRow_eq (projects : List ProjectStub) (row : Node) :
    processRow projects row = if rowKept row = true then projects ++ [rowStub row] else projects := by
  unfold processRow rowKept
  by_cases h5 : (rowCells row).length ≥ 5
  · by_cases hd : rowDoi row ≠ "" ∧ rowDoi row ≠ "N/A"
    · simp [h5, hd]
    · have h5k : 5 ≤ (rowCells row).length := h5
      simp only [h5, hd, h5k, if_true, if_false, decide_eq_true_eq, true_and]
  · have h5k : ¬ 5 ≤ (rowCells row).length := h5
    simp only [h5, h5k, if_false, decide_eq_true_eq, false_and]

/-- The row loop is a filter followed by a map. -/
theorem foldl_processRow (rows : List Node) :
    ∀ acc, rows.foldl processRow acc = acc ++ (rows.filter rowKept).map rowStub := by
  induction rows with
  | nil => intro acc; simp
  | cons row rows ih =>
    intro acc
    rw [List.foldl_cons, ih, processRow_eq]
    by_cases hk : rowKept row = true
    · simp [hk, List.filter_cons]
    · simp [hk, List.filter_cons]

theorem fetchData_eq (rows : List Node) :
    fetchData (some rows) = .ok ((rows.filter rowKept).map rowStub) := by
  simp only [fetchData, foldl_processRow, List.nil_append]

/-- C1.  The stubs of a listing are, in row order, the stubs of the rows that have
at least 5 cells and a resolved DOI that is neither empty nor the sentinel; a row
with fewer than 5 cells yields none; every stub has such a DOI, and there are no more
stubs than rows.  The row of the specification yields its stub. -/
theorem fetchData_stubs :
    (∀ rows : List Node, ∃ stubs : List ProjectStub,
      fetchData (some rows) = .ok stubs ∧
      stubs = (rows.filter rowKept).map rowStub ∧
      (∀ s ∈ stubs, s.doi ≠ "" ∧ s.doi ≠ "N/A") ∧
      stubs.length ≤ rows.length) ∧
    (∀ row : Node, (rowCells row).length < 5 → rowKept row = false) ∧
    fetchData (some [siteARow]) = .ok [siteAStub] := by
  refine ⟨fun rows => ⟨_, fetchData_eq rows, rfl, ?_, ?_⟩, ?_, ?_⟩
  · intro s hs
    obtain ⟨row, hrow, rfl⟩ := List.mem_map.mp hs
    have hk := (List.mem_filter.mp hrow).2
    simp only [rowKept, decide_eq_true_eq] at hk
    exact hk.2
  · rw [List.length_map]
    exact List.length_filter_le _ _
  · intro row h
    simp only [rowKept, decide_eq_false_iff_not]
    intro hk
    omega
  · rw [fetchData_eq]
    exact congrArg Except.ok (by decide)

/-- C2, as amended.  When the link of the DOI cell has `doi.org/` followed by at
least one character and no line terminator up to its end, the DOI of the stub is
what follows the leftmost such `doi.org/`; when the cell has no link, or its link
has no such occurrence, the DOI is the trimmed text of the cell. -/
theorem rowDoi_resolution (row : Node) :
    (∀ l pre rest, (extractCellData (cellHtml (rowCells row) 2)).link = some l →
      IsResolverSplit l.data pre rest →
      (∀ p q, IsResolverSplit l.data p q → pre.length ≤ p.length) →
      (rowStub row).doi = String.mk rest) ∧
    ((∀ l, (extractCellData (cellHtml (rowCells row) 2)).link = some l →
        ∀ pre rest, ¬ IsResolverSplit l.data pre rest) →
      (rowStub row).doi = jsTrim (textContent (cellHtml (rowCells row) 2))) :=
  resolveDoi_cases (extractCellData (cellHtml (rowCells row) 2))

/-- C2 at the row of the specification, whose DOI comes from the link, and at a row
without a link, whose DOI is the text. -/
theorem rowDoi_resolution_witness :
    (rowStub siteARow).doi = "10.1/abc" ∧ (rowStub sentinelRow).doi = "N/A" :=
  ⟨(rowDoi_resolution siteARow).1 "https://doi.org/10.1/abc" "https://".data "10.1/abc".data
      (by decide) ⟨by decide, by decide, by decide⟩
      (fun p q h => split_length_of_match _ "10.1/abc".data p q (by decide) h),
   ((rowDoi_resolution sentinelRow).2 (fun l hl => by
      have e : (extractCellData (cellHtml (rowCells sentinelRow) 2)).link = none := by decide
      rw [e] at hl
      cases hl)).trans (by decide)⟩

/-- C2 as stated fails: the link `https://doi.org/` contains `doi.org/` and nothing
follows it, yet the DOI of the row is the text of the cell, not the empty string. -/
theorem bare_resolver_link_uses_text :
    (extractCellData (cellHtml (rowCells bareResolverRow) 2)).link = some "https://doi.org/" ∧
    includes "https://doi.org/" "doi.org/" = true ∧
    claimedDoi (extractCellData (cellHtml (rowCells bareResolverRow) 2)) = "" ∧
    (rowStub bareResolverRow).doi = "10.1/abc" ∧
    fetchData (some [bareResolverRow]) = .ok [rowStub bareResolverRow] := by
  refine ⟨by decide, by decide, by decide, by decide, ?_⟩
  rw [fetchData_eq]
  exact congrArg Except.ok (by decide)

/-- C3, as amended.  A row whose resolved DOI is empty or the sentinel contributes
nothing to the stubs, whatever its other cells; this is the case of every row whose
DOI cell has an empty or sentinel text and a link, if any, without a resolver
match. -/
theorem sentinel_row_excluded (before after : List Node) (row : Node) :
    ((rowDoi row = "" ∨ rowDoi row = "N/A") →
      fetchData (some (before ++ row :: after)) = fetchData (some (before ++ after))) ∧
    (((extractCellData (cellHtml (rowCells row) 2)).text = "" ∨
        (extractCellData (cellHtml (rowCells row) 2)).text = "N/A") →
      (∀ l, (extractCellData (cellHtml (rowCells row) 2)).link = some l →
        ∀ pre rest, ¬ IsResolverSplit l.data pre rest) →
      fetchData (some (before ++ row :: after)) = fetchData (some (before ++ after))) := by
  have key : (rowDoi row = "" ∨ rowDoi row = "N/A") →
      fetchData (some (before ++ row :: after)) = fetchData (some (before ++ after)) := by
    intro h
    have hk : rowKept row = false := by
      simp only [rowKept, decide_eq_false_iff_not]
      rintro ⟨_, h1, h2⟩
      rcases h with h | h
      · exact h1 h
      · exact h2 h
    rw [fetchData_eq, fetchData_eq, List.filter_append, List.filter_append, List.filter_cons, hk]
    rfl
  refine ⟨key, fun ht hl => key ?_⟩
  have e : rowDoi row = (extractCellData (cellHtml (rowCells row) 2)).text :=
    (resolveDoi_cases _).2 hl
  rw [e]
  exact ht

/-- C3 at a row whose DOI cell is the sentinel without a link: the listing with the
row between two copies of the row of the specification has the stubs of those two. -/
theorem sentinel_row_excluded_witness :
    rowDoi sentinelRow = "N/A" ∧
    fetchData (some ([siteARow] ++ sentinelRow :: [siteARow])) = .ok [siteAStub, siteAStub] :=
  ⟨by decide,
   ((sentinel_row_excluded [siteARow] [siteARow] sentinelRow).1 (Or.inr (by decide))).trans
     (by rw [fetchData_eq]; exact congrArg Except.ok (by decide))⟩

/-- C3 as stated fails: the DOI cell of this row shows the sentinel `N/A`, its link
is a resolver link, and the row yields a stub with the DOI of the link. -/
theorem sentinel_text_row_kept :
    (extractCellData (cellHtml (rowCells sentinelTextRow) 2)).text = "N/A" ∧
    fetchData (some [sentinelTextRow]) = .ok [rowStub sentinelTextRow] ∧
    (rowStub sentinelTextRow).doi = "10.1/abc" := by
  refine ⟨by decide, ?_, by decide⟩
  rw [fetchData_eq]
  exact congrArg Except.ok (by decide)

/-! ## Cell and entity extractor -/

theorem pushAnchor_eq (entities : List Entity) (el : Node) :
    pushAnchor entities el =
      if hasText el = true then entities ++ [anchorEntity el] else entities := by
  unfold pushAnchor hasText anchorEntity
  by_cases h : jsTrim el.textContent = ""
  · simp [h]
  · simp [h]

/-- The anchor loop is a filter followed by a map. -/
theorem foldl_pushAnchor (anchors : List Node) :
    ∀ acc, anchors.foldl pushAnchor acc = acc ++ (anchors.filter hasText).map anchorEntity := by
  induction anchors with
  | nil => intro acc; simp
  | cons a anchors ih =>
    intro acc
    rw [List.foldl_cons, ih, pushAnchor_eq]
    by_cases hk : hasText a = true
    · simp [hk, List.filter_cons]
    · simp [hk, List.filter_cons]

/-- C7, as amended.  When at least one anchor of the fragment has text, the result
is one entity for each anchor whose trimmed text is non-empty, in document order:
its name is that trimmed text and its link the href made absolute (absent when the
anchor has no href or an empty one).  Anchors without text yield no entity. -/
theorem extractEntities_anchors (cell : List Node)
    (h : ∃ a ∈ selectList isAnchor cell, hasText a = true) :
    extractEntities cell = ((selectList isAnchor cell).filter hasText).map anchorEntity := by
  obtain ⟨a, ha, ht⟩ := h
  have hne : ((selectList isAnchor cell).filter hasText).map anchorEntity ≠ [] := by
    intro hnil
    have hm : a ∈ (selectList isAnchor cell).filter hasText := List.mem_filter.mpr ⟨ha, ht⟩
    rw [List.map_eq_nil_iff] at hnil
    rw [hnil] at hm
    cases hm
  unfold extractEntities
  simp only [foldl_pushAnchor, List.nil_append]
  rw [if_neg]
  intro hl
  exact hne (List.length_eq_zero.mp hl)

/-- C7 at the fragment of the specification: Alice, then Bob. -/
theorem extractEntities_anchors_witness :
    (extractEntities aliceBobAnchors).map (fun e => e.name) = ["Alice", "Bob"] ∧
    (selectList isAnchor aliceBobAnchors).map (fun a => a.attr "href") = [some "/x", some "/y"] :=
  ⟨(congrArg (List.map (fun e => e.name))
      (extractEntities_anchors aliceBobAnchors
        ⟨anchor "/x" "Alice", List.Mem.head _, by decide⟩)).trans (by decide),
   by decide⟩

/-- C7 as stated fails: this fragment has two anchors, the first without text, and
the result has one entity. -/
theorem textless_anchor_skipped :
    (selectList isAnchor imageThenBob).length = 2 ∧
    (extractEntities imageThenBob).length = 1 ∧
    (extractEntities imageThenBob).map (fun e => e.name) = ["Bob"] := by
  decide

/-- C8.  For a fragment without anchors the result is, in order, one entity without
link for each non-empty piece of the trimmed text split on commas, each piece
trimmed; a fragment whose text is empty or whitespace yields the empty list. -/
theorem extractEntities_comma_fallback (cell : List Node)
    (h : selectList isAnchor cell = []) :
    extractEntities cell =
      ((((jsSplit ',' (jsTrim (textContent cell))).map jsTrim).filter
        (fun n => decide (n ≠ ""))).map nameEntity) ∧
    ((∀ c ∈ (textContent cell).data, isJsWhitespace c = true) → extractEntities cell = []) := by
  have hmain : extractEntities cell =
      ((((jsSplit ',' (jsTrim (textContent cell))).map jsTrim).filter
        (fun n => decide (n ≠ ""))).map nameEntity) := by
    unfold extractEntities
    simp only [h, List.foldl_nil, List.length_nil, if_true]
    by_cases ht : jsTrim (textContent cell) = ""
    · rw [ht, if_neg (by simp)]
      decide
    · rw [if_pos ht]
      exact foldl_push_map nameEntity _ []
  refine ⟨hmain, fun hw => ?_⟩
  have ht : jsTrim (textContent cell) = "" := by
    unfold jsTrim
    rw [trimChars_of_whitespace _ hw]
  rw [hmain, ht]
  decide

/-- C8 at the text of the specification, and at a fragment of blanks. -/
theorem extractEntities_comma_fallback_witness :
    extractEntities [Node.text "Alice, Bob"] =
      [{ name := "Alice", link := none }, { name := "Bob", link := none }] ∧
    extractEntities [Node.text " \n "] = [] :=
  ⟨(extractEntities_comma_fallback [Node.text "Alice, Bob"] rfl).1.trans (by decide),
   (extractEntities_comma_fallback [Node.text " \n "] rfl).2 (by decide)⟩

/-- C9 fails on the code: the link of a root-relative href is the base with its
trailing slash followed by the href, so `/x` gives two slashes between host and
path, in `extractCellData` and in `extractEntities` alike. -/
theorem root_relative_link_double_slash :
    extractCellData [anchor "/x" "Alice"] =
      { text := "Alice", link := some "https://openheritage3d.org//x" } ∧
    extractEntities [anchor "/x" "Alice"] =
      [{ name := "Alice", link := some "https://openheritage3d.org//x" }] ∧
    resolveLink (some "/x") ≠ some "https://openheritage3d.org/x" := by
  decide

/-! ## Detail page parser -/

/-- C10 fails on the code: on a page whose entity rows have an empty value cell the
four entity fields hold the serialisation of the empty list, not null. -/
theorem empty_entity_cell_serialised :
    (processTables emptyEntityPage (initialDetails "10.1/abc")).contributors_json = some "[]" ∧
    (processTables emptyEntityPage (initialDetails "10.1/abc")).collectors_json = some "[]" ∧
    (processTables emptyEntityPage (initialDetails "10.1/abc")).funders_json = some "[]" ∧
    (processTables emptyEntityPage (initialDetails "10.1/abc")).partners_json = some "[]" ∧
    stringifyEntities [] = "[]" := by
  decide

/-! ## Data-type tables -/

theorem pushDataType_eq (dataTypes : List DataType) (row : Node) :
    pushDataType dataTypes row =
      if hasFourDataCells row = true then dataTypes ++ [rowDescriptor row] else dataTypes := by
  unfold pushDataType hasFourDataCells rowDescriptor
  by_cases h : 4 ≤ (row.find isDataCell).length
  · have h' : (row.find isDataCell).length ≥ 4 := h
    simp only [h, h', if_true, decide_True]
  · have h' : ¬ (row.find isDataCell).length ≥ 4 := h
    simp only [h, h', if_false, decide_False, Bool.false_eq_true]

/-- The row loop of a data-type table is a filter followed by a map. -/
theorem foldl_pushDataType (rows : List Node) :
    ∀ acc, rows.foldl pushDataType acc =
      acc ++ (rows.filter hasFourDataCells).map rowDescriptor := by
  induction rows with
  | nil => intro acc; simp
  | cons row rows ih =>
    intro acc
    rw [List.foldl_cons, ih, pushDataType_eq]
    by_cases hk : hasFourDataCells row = true
    · simp [hk, List.filter_cons]
    · simp [hk, List.filter_cons]

theorem processTable_dataTypes (st : TableState) (t : Node) :
    (processTable st t).dataTypes = st.dataTypes ++ tableDescriptors t := by
  unfold processTable tableDescriptors
  by_cases h : isDataTypeTable (t.find isRow) = true
  · simp only [h, if_true, foldl_pushDataType]
  · simp only [h, if_false, List.append_nil, Bool.false_eq_true]

theorem dispatchLabel_data_types_json (details : ProjectDetails) (label : String)
    (value : List Node) :
    (dispatchLabel details label value).data_types_json = details.data_types_json := by
  unfold dispatchLabel
  split <;> rfl

theorem foldl_processLabelRow_data_types_json (rows : List Node) :
    ∀ details : ProjectDetails,
      (rows.foldl processLabelRow details).data_types_json = details.data_types_json := by
  induction rows with
  | nil => intro details; rfl
  | cons row rows ih =>
    intro details
    rw [List.foldl_cons, ih]
    unfold processLabelRow
    simp only
    split
    · exact dispatchLabel_data_types_json _ _ _
    · rfl

theorem processTable_data_types_json (st : TableState) (t : Node) :
    (processTable st t).details.data_types_json = st.details.data_types_json := by
  unfold processTable
  simp only
  split
  · rfl
  · exact foldl_processLabelRow_data_types_json _ _

theorem foldl_processTable (tables : List Node) :
    ∀ st : TableState,
      (tables.foldl processTable st).dataTypes = st.dataTypes ++ descriptorsOf tables ∧
      (tables.foldl processTable st).details.data_types_json = st.details.data_types_json := by
  induction tables with
  | nil => intro st; simp [descriptorsOf]
  | cons t tables ih =>
    intro st
    rw [List.foldl_cons]
    obtain ⟨h1, h2⟩ := ih (processTable st t)
    rw [h1, h2, processTable_dataTypes, processTable_data_types_json]
    simp [descriptorsOf]

/-- C11, as amended.  A data-type table contributes, in row order, one descriptor for
each row after its first that has at least four `td` cells, taken from the trimmed
text of the first four; rows with fewer contribute none, and a table that is no
data-type table contributes none.  On a fresh record `data_types_json` is the
serialisation of the descriptors of all tables of the page, and null when there is
none.  The table of the specification gives its descriptor. -/
theorem data_type_descriptors :
    (∀ (st : TableState) (t : Node), isDataTypeTable (t.find isRow) = true →
      (processTable st t).dataTypes =
        st.dataTypes ++ (((t.find isRow).drop 1).filter hasFourDataCells).map rowDescriptor) ∧
    (∀ (st : TableState) (t : Node), isDataTypeTable (t.find isRow) = false →
      (processTable st t).dataTypes = st.dataTypes) ∧
    (∀ (page : List Node) (doi : String),
      (processTables page (initialDetails doi)).data_types_json =
        if pageDescriptors page = [] then none
        else some (stringifyDataTypes (pageDescriptors page))) ∧
    pageDescriptors [lidarTable] =
      [{ type := "LiDAR", size := "2GB", device_name := "Scanner X", device_type := "TLS" }] ∧
    (processTables [lidarTable] (initialDetails "10.1/abc")).data_types_json =
      some ("[\x7b\"type\":\"LiDAR\",\"size\":\"2GB\",\"device_name\":\"Scanner X\"," ++
        "\"device_type\":\"TLS\"\x7d]") := by
  refine ⟨?_, ?_, ?_, by decide, by decide⟩
  · intro st t h
    rw [processTable_dataTypes, tableDescriptors, if_pos h]
  · intro st t h
    rw [processTable_dataTypes, tableDescriptors, if_neg (by simp [h]), List.append_nil]
  · intro page doi
    unfold processTables pageDescriptors
    obtain ⟨h1, h2⟩ := foldl_processTable (selectList isTable page)
      { details := initialDetails doi, dataTypes := [] }
    simp only [List.nil_append] at h1
    by_cases he : descriptorsOf (selectList isTable page) = []
    · simp only [h1, he, List.length_nil, gt_iff_lt, Nat.lt_irrefl, if_false, if_true, h2]
      rfl
    · have hpos : (descriptorsOf (selectList isTable page)).length > 0 :=
        List.length_pos.mpr he
      simp only [h1, he, hpos, if_true, if_false]

/-- C11 as stated fails: this data-type table has one body row, with three cells, and
contributes no descriptor. -/
theorem short_row_no_descriptor :
    isDataTypeTable (shortRowTable.find isRow) = true ∧
    ((shortRowTable.find isRow).drop 1).length = 1 ∧
    pageDescriptors [shortRowTable] = [] ∧
    (processTables [shortRowTable] (initialDetails "10.1/abc")).data_types_json = none := by
  decide

/-! ## License URL -/

theorem startsWith_https_append (h : String) : startsWith ("https://" ++ h) "http" = true := by
  unfold startsWith
  rw [String.data_append]
  exact List.isPrefixOf_iff_prefix.mpr ⟨"s://".data ++ h.data, rfl⟩

theorem processLabelRow_license (details : ProjectDetails) (row : Node)
    (hcells : 2 ≤ (row.find isCell).length)
    (hlabel : normalizeLabel (cellText (row.find isCell) 0) = "licensetype") :
    processLabelRow details row =
      { details with
        license := some (jsTrim (textContent (cellHtml (row.find isCell) 1)))
        license_url := licenseUrl details.license_url
          (firstAttr "href" (selectList isAnchor (cellHtml (row.find isCell) 1))) } := by
  unfold processLabelRow
  have h2 : (row.find isCell).length ≥ 2 := hcells
  simp only [h2, if_true, hlabel]
  rfl

/-- C18, as amended.  On a license row, `license` is the trimmed text of the value
cell.  When the first anchor of the cell has a non-empty href, `license_url` is that
href unchanged when it starts with `http`, and `https://` followed by it otherwise,
so it always starts with `http`.  When the cell has no anchor, `license_url` keeps the
value it had, null on a fresh record. -/
theorem license_url_normalisation (details : ProjectDetails) (row : Node)
    (hcells : 2 ≤ (row.find isCell).length)
    (hlabel : normalizeLabel (cellText (row.find isCell) 0) = "licensetype") :
    (processLabelRow details row).license =
      some (jsTrim (textContent (cellHtml (row.find isCell) 1))) ∧
    (∀ h : String,
      firstAttr "href" (selectList isAnchor (cellHtml (row.find isCell) 1)) = some h →
      h ≠ "" →
      (processLabelRow details row).license_url =
        some (if startsWith h "http" = true then h else "https://" ++ h) ∧
      startsWith (if startsWith h "http" = true then h else "https://" ++ h) "http" = true) ∧
    (selectList isAnchor (cellHtml (row.find isCell) 1) = [] →
      (processLabelRow details row).license_url = details.license_url) := by
  rw [processLabelRow_license details row hcells hlabel]
  refine ⟨rfl, ?_, ?_⟩
  · intro h hh hne
    simp only [hh, licenseUrl, hne, if_false]
    by_cases hs : startsWith h "http" = true
    · simp only [hs, if_true, and_self]
    · simp only [hs, if_false, startsWith_https_append, and_self, Bool.false_eq_true]
  · intro hno
    simp only [hno, firstAttr, licenseUrl]

/-- C18 at a license row whose link has no scheme, and at one without a link. -/
theorem license_url_normalisation_witness :
    (processLabelRow (initialDetails "10.1/abc") licenseRow).license_url =
      some "https://creativecommons.org/licenses/by/4.0/" ∧
    (processLabelRow (initialDetails "10.1/abc") licenseRow).license = some "CC BY 4.0" ∧
    (processLabelRow (initialDetails "10.1/abc") plainLicenseRow).license_url = none ∧
    (processLabelRow (initialDetails "10.1/abc") plainLicenseRow).license = some "CC0" :=
  ⟨((license_url_normalisation (initialDetails "10.1/abc") licenseRow (by decide)
      (by decide)).2.1 "creativecommons.org/licenses/by/4.0/" (by decide) (by decide)).1.trans
      (by decide),
   (license_url_normalisation (initialDetails "10.1/abc") licenseRow (by decide)
      (by decide)).1.trans (by decide),
   (license_url_normalisation (initialDetails "10.1/abc") plainLicenseRow (by decide)
      (by decide)).2.2 rfl,
   (license_url_normalisation (initialDetails "10.1/abc") plainLicenseRow (by decide)
      (by decide)).1.trans (by decide)⟩

/-- C18 as stated fails: an href with the scheme `ftp` is given a second scheme, and
an href that starts with `http` without being a scheme is stored without one. -/
theorem license_url_scheme_test :
    hasScheme "ftp://example.org/license.txt" = true ∧
    claimedLicenseUrl "ftp://example.org/license.txt" = "ftp://example.org/license.txt" ∧
    (processLabelRow (initialDetails "10.1/abc") ftpLicenseRow).license_url =
      some "https://ftp://example.org/license.txt" ∧
    hasScheme "httpbin.org/license" = false ∧
    claimedLicenseUrl "httpbin.org/license" = "https://httpbin.org/license" ∧
    (processLabelRow (initialDetails "10.1/abc") httpbinLicenseRow).license_url =
      some "httpbin.org/license" := by
  decide

/-! ## Pattern primitives -/

theorem dropWhile_append_head (p : Char → Bool) (w r : List Char)
    (hw : ∀ c ∈ w, p c = true) (hr : ∀ c, r.head? = some c → p c = false) :
    (w ++ r).dropWhile p = r := by
  induction w with
  | nil =>
    cases r with
    | nil => rfl
    | cons c cs =>
      have := hr c rfl
      simp [List.dropWhile_cons, this]
  | cons a w ih =>
    have ha := hw a (List.mem_cons_self _ _)
    simp only [List.cons_append, List.dropWhile_cons, ha, if_true]
    exact ih (fun c hc => hw c (List.mem_cons_of_mem _ hc))

theorem takeWhile_append_head (p : Char → Bool) (w r : List Char)
    (hw : ∀ c ∈ w, p c = true) (hr : ∀ c, r.head? = some c → p c = false) :
    (w ++ r).takeWhile p = w := by
  induction w with
  | nil =>
    cases r with
    | nil => rfl
    | cons c cs =>
      have := hr c rfl
      simp [List.takeWhile_cons, this]
  | cons a w ih =>
    have ha := hw a (List.mem_cons_self _ _)
    simp only [List.cons_append, List.takeWhile_cons, ha, if_true]
    rw [ih (fun c hc => hw c (List.mem_cons_of_mem _ hc))]

theorem head_append_of_ne (a r : List Char) (ha : a ≠ []) : (a ++ r).head? = a.head? := by
  cases a with
  | nil => exact absurd rfl ha
  | cons c cs => rfl

theorem head_mem (a : List Char) (c : Char) (h : a.head? = some c) : c ∈ a := by
  cases a with
  | nil => cases h
  | cons d ds =>
    simp only [List.head?_cons, Option.some.injEq] at h
    rw [h]
    exact List.mem_cons_self _ _

theorem whitespace_not_coord (c : Char) (h : isJsWhitespace c = true) : isCoordChar c = false := by
  simp only [isJsWhitespace, isCoordChar, isDigit, Bool.or_eq_true, Bool.and_eq_true, beq_iff_eq,
    decide_eq_true_eq, Bool.or_eq_false_iff, Bool.and_eq_false_iff, decide_eq_false_iff_not,
    beq_eq_false_iff_ne] at h ⊢
  omega

theorem coord_not_whitespace (c : Char) (h : isCoordChar c = true) : isJsWhitespace c = false := by
  cases hw : isJsWhitespace c with
  | false => rfl
  | true => rw [whitespace_not_coord c hw] at h; cases h

theorem expect_append (pat : String) (r : List Char) : expect pat (pat.data ++ r) = some r := by
  unfold expect
  rw [if_pos (List.isPrefixOf_iff_prefix.mpr ⟨r, rfl⟩), List.drop_left]

theorem expect_eq_some (pat : String) (l r : List Char) (h : expect pat l = some r) :
    l = pat.data ++ r := by
  unfold expect at h
  split at h
  · rename_i hp
    obtain ⟨t, ht⟩ := List.isPrefixOf_iff_prefix.mp hp
    simp only [Option.some.injEq] at h
    rw [← ht, List.drop_left] at h
    rw [← ht, h]
  · cases h

/-- Whitespace before a literal that starts with another character is skipped whole. -/
theorem skip_blank_literal (w : List Char) (pat : String) (r : List Char) (hw : IsBlank w)
    (hp : ∀ c, pat.data.head? = some c → isJsWhitespace c = false) (hne : pat.data ≠ []) :
    skipWhitespace (w ++ (pat.data ++ r)) = pat.data ++ r := by
  unfold skipWhitespace
  apply dropWhile_append_head _ _ _ hw
  intro c hc
  rw [head_append_of_ne _ _ hne] at hc
  exact hp c hc

/-- Whitespace before a coordinate text is skipped whole. -/
theorem skip_blank_coord (w a r : List Char) (hw : IsBlank w) (ha : IsCoordText a) :
    skipWhitespace (w ++ (a ++ r)) = a ++ r := by
  unfold skipWhitespace
  apply dropWhile_append_head _ _ _ hw
  intro c hc
  rw [head_append_of_ne _ _ ha.1] at hc
  exact coord_not_whitespace c (ha.2 c (head_mem a c hc))

/-- A coordinate text before whitespace and a literal outside the class is taken
whole. -/
theorem takeCoord_blank_literal (a w : List Char) (pat : String) (r : List Char)
    (ha : IsCoordText a) (hw : IsBlank w)
    (hp : ∀ c, pat.data.head? = some c → isCoordChar c = false) (hne : pat.data ≠ []) :
    takeCoord (a ++ (w ++ (pat.data ++ r))) = some (a, w ++ (pat.data ++ r)) := by
  have hr : ∀ c, (w ++ (pat.data ++ r)).head? = some c → isCoordChar c = false := by
    intro c hc
    cases w with
    | nil =>
      rw [List.nil_append, head_append_of_ne _ _ hne] at hc
      exact hp c hc
    | cons d ds =>
      simp only [List.cons_append, List.head?_cons, Option.some.injEq] at hc
      rw [← hc]
      exact whitespace_not_coord d (hw d (List.mem_cons_self _ _))
  unfold takeCoord
  rw [takeWhile_append_head _ _ _ ha.2 hr, dropWhile_append_head _ _ _ ha.2 hr, if_neg ha.1]

theorem takeCoord_literal (a : List Char) (pat : String) (r : List Char) (ha : IsCoordText a)
    (hp : ∀ c, pat.data.head? = some c → isCoordChar c = false) (hne : pat.data ≠ []) :
    takeCoord (a ++ (pat.data ++ r)) = some (a, pat.data ++ r) :=
  takeCoord_blank_literal a [] pat r ha (fun _ h => by cases h) hp hne

theorem skip_expect_split (pat : String) (x r : List Char)
    (h : expect pat (skipWhitespace x) = some r) :
    ∃ w, IsBlank w ∧ x = w ++ (pat.data ++ r) := by
  refine ⟨x.takeWhile isJsWhitespace, fun c hc => (List.mem_takeWhile_imp hc), ?_⟩
  have e := expect_eq_some pat _ r h
  unfold skipWhitespace at e
  rw [← e, List.takeWhile_append_dropWhile]

theorem takeCoord_split (x : List Char) (m : List Char × List Char)
    (h : takeCoord x = some m) : IsCoordText m.1 ∧ x = m.1 ++ m.2 := by
  unfold takeCoord at h
  split at h
  · cases h
  · rename_i hne
    simp only [Option.some.injEq] at h
    subst h
    exact ⟨⟨hne, fun c hc => List.mem_takeWhile_imp hc⟩,
      (List.takeWhile_append_dropWhile _ _).symm⟩

theorem skip_takeCoord_split (x : List Char) (m : List Char × List Char)
    (h : takeCoord (skipWhitespace x) = some m) :
    ∃ w, IsBlank w ∧ IsCoordText m.1 ∧ x = w ++ (m.1 ++ m.2) := by
  obtain ⟨hc, e⟩ := takeCoord_split _ m h
  refine ⟨x.takeWhile isJsWhitespace, fun c hc => (List.mem_takeWhile_imp hc), hc, ?_⟩
  unfold skipWhitespace at e
  rw [← e, List.takeWhile_append_dropWhile]

/-! ## Leftmost match -/

theorem firstMatch_leftmost {α : Type} (f : List Char → Option α) (pre : List Char) :
    ∀ (suf : List Char) (r : α), f suf = some r →
      (∀ p s, pre ++ suf = p ++ s → p.length < pre.length → f s = none) →
      firstMatch f (pre ++ suf) = some r := by
  induction pre with
  | nil =>
    intro suf r hf _
    cases suf with
    | nil => exact hf
    | cons c cs =>
      simp only [List.nil_append, firstMatch, hf]
  | cons x pre ih =>
    intro suf r hf hmin
    have h0 : f (x :: (pre ++ suf)) = none :=
      hmin [] (x :: (pre ++ suf)) rfl (by simp)
    have hstep : firstMatch f (x :: (pre ++ suf)) = firstMatch f (pre ++ suf) := by
      rw [firstMatch, h0]
    show firstMatch f (x :: (pre ++ suf)) = some r
    rw [hstep]
    apply ih suf r hf
    intro p s hps hlt
    exact hmin (x :: p) s (by rw [List.cons_append, List.cons_append, hps])
      (by simpa using hlt)

theorem firstMatch_sound {α : Type} (f : List Char → Option α) (l : List Char) :
    ∀ r, firstMatch f l = some r → ∃ pre suf, l = pre ++ suf ∧ f suf = some r := by
  induction l with
  | nil => intro r h; exact ⟨[], [], rfl, h⟩
  | cons c cs ih =>
    intro r h
    unfold firstMatch at h
    split at h
    · rename_i r0 h0
      simp only [Option.some.injEq] at h
      subst h
      exact ⟨[], c :: cs, rfl, h0⟩
    · obtain ⟨pre, suf, e, hf⟩ := ih r h
      exact ⟨c :: pre, suf, by rw [e]; rfl, hf⟩

theorem firstMatch_none {α : Type} (f : List Char → Option α) (l : List Char)
    (h : ∀ pre suf, l = pre ++ suf → f suf = none) : firstMatch f l = none := by
  cases hm : firstMatch f l with
  | none => rfl
  | some r =>
    obtain ⟨pre, suf, e, hf⟩ := firstMatch_sound f l r hm
    rw [h pre suf e] at hf
    cases hf

/-! ## Midpoint assignments -/

theorem midMatchHere_complete (name : String) (w1 w2 w3 a w4 w5 b w6 w7 rest : List Char)
    (h1 : IsBlank w1) (h2 : IsBlank w2) (h3 : IsBlank w3) (h4 : IsBlank w4) (h5 : IsBlank w5)
    (h6 : IsBlank w6) (h7 : IsBlank w7) (ha : IsCoordText a) (hb : IsCoordText b) :
    midMatchHere name (midText name w1 w2 w3 a w4 w5 b w6 w7 rest) = some (a, b) := by
  unfold midMatchHere midText
  rw [expect_append, Option.some_bind,
    skip_blank_literal w1 "=" _ h1 (by decide) (by decide), expect_append, Option.some_bind,
    skip_blank_literal w2 "(" _ h2 (by decide) (by decide), expect_append, Option.some_bind,
    skip_blank_coord w3 a _ h3 ha,
    takeCoord_blank_literal a w4 "+" _ ha h4 (by decide) (by decide), Option.some_bind]
  simp only
  rw [skip_blank_literal w4 "+" _ h4 (by decide) (by decide), expect_append, Option.some_bind,
    skip_blank_coord w5 b _ h5 hb,
    takeCoord_literal b ")" _ hb (by decide) (by decide), Option.some_bind]
  simp only
  rw [expect_append, Option.some_bind,
    skip_blank_literal w6 "/" _ h6 (by decide) (by decide), expect_append, Option.some_bind,
    skip_blank_literal w7 "2" _ h7 (by decide) (by decide), expect_append, Option.some_bind]

theorem midMatchHere_sound (name : String) (l a b : List Char)
    (h : midMatchHere name l = some (a, b)) : IsMidAt name l [] a b := by
  unfold midMatchHere at h
  simp only [Option.bind_eq_some] at h
  obtain ⟨r1, e1, r2, e2, r3, e3, pa, e4, r5, e5, pb, e6, r7, e7, r8, e8, r9, e9, he⟩ := h
  simp only [Option.some.injEq, Prod.mk.injEq] at he
  have f1 := expect_eq_some name l r1 e1
  obtain ⟨w1, hw1, f2⟩ := skip_expect_split "=" r1 r2 e2
  obtain ⟨w2, hw2, f3⟩ := skip_expect_split "(" r2 r3 e3
  obtain ⟨w3, hw3, hca, f4⟩ := skip_takeCoord_split r3 pa e4
  obtain ⟨w4, hw4, f5⟩ := skip_expect_split "+" pa.2 r5 e5
  obtain ⟨w5, hw5, hcb, f6⟩ := skip_takeCoord_split r5 pb e6
  have f7 := expect_eq_some ")" pb.2 r7 e7
  obtain ⟨w6, hw6, f8⟩ := skip_expect_split "/" r7 r8 e8
  obtain ⟨w7, hw7, f9⟩ := skip_expect_split "2" r8 r9 e9
  refine ⟨w1, w2, w3, w4, w5, w6, w7, r9, hw1, hw2, hw3, hw4, hw5, hw6, hw7,
    he.1 ▸ hca, he.2 ▸ hcb, ?_⟩
  rw [List.nil_append, f1, f2, f3, f4, f5, f6, f7, f8, f9, ← he.1, ← he.2]
  rfl

theorem isMidAt_shift (name : String) (p s a b : List Char) (h : IsMidAt name s [] a b) :
    IsMidAt name (p ++ s) p a b := by
  obtain ⟨w1, w2, w3, w4, w5, w6, w7, rest, h1, h2, h3, h4, h5, h6, h7, ha, hb, e⟩ := h
  exact ⟨w1, w2, w3, w4, w5, w6, w7, rest, h1, h2, h3, h4, h5, h6, h7, ha, hb,
    by rw [e, List.nil_append]⟩

/-- The pattern matches at the leftmost midpoint assignment of the text. -/
theorem firstMatch_mid_of_leftmost (name : String) (html pre a b : List Char)
    (h : IsMidAt name html pre a b)
    (hmin : ∀ p a' b', IsMidAt name html p a' b' → pre.length ≤ p.length) :
    firstMatch (midMatchHere name) html = some (a, b) := by
  obtain ⟨w1, w2, w3, w4, w5, w6, w7, rest, h1, h2, h3, h4, h5, h6, h7, ha, hb, e⟩ := h
  rw [e]
  apply firstMatch_leftmost _ pre _ _
    (midMatchHere_complete name w1 w2 w3 a w4 w5 b w6 w7 rest h1 h2 h3 h4 h5 h6 h7 ha hb)
  intro p s hps hlt
  cases hm : midMatchHere name s with
  | none => rfl
  | some m =>
    have hs := isMidAt_shift name p s m.1 m.2 (midMatchHere_sound name s m.1 m.2 hm)
    rw [← hps, ← e] at hs
    have := hmin p m.1 m.2 hs
    omega

theorem firstMatch_mid_none (name : String) (html : List Char)
    (h : ∀ pre a b, ¬ IsMidAt name html pre a b) :
    firstMatch (midMatchHere name) html = none := by
  apply firstMatch_none
  intro pre suf e
  cases hm : midMatchHere name suf with
  | none => rfl
  | some m =>
    have hs := isMidAt_shift name pre suf m.1 m.2 (midMatchHere_sound name suf m.1 m.2 hm)
    rw [← e] at hs
    exact absurd hs (h pre m.1 m.2)

theorem midpoint_of_leftmost (ops : NumberOps) (name html : String) (pre a b : List Char)
    (h : IsMidAt name html.data pre a b)
    (hmin : ∀ p a' b', IsMidAt name html.data p a' b' → pre.length ≤ p.length) :
    midpoint ops name html =
      some (jsHalf ops (jsAdd ops (parseFloat ops (String.mk a)) (parseFloat ops (String.mk b)))) := by
  unfold midpoint
  rw [firstMatch_mid_of_leftmost name html.data pre a b h hmin]

theorem midpoint_none (ops : NumberOps) (name html : String)
    (h : ∀ pre a b, ¬ IsMidAt name html.data pre a b) : midpoint ops name html = none := by
  unfold midpoint
  rw [firstMatch_mid_none name html.data h]

/-- No midpoint assignment starts before position `n` when no attempt before `n`
succeeds. -/
theorem isMidAt_position (name : String) (html : List Char) (n : Nat)
    (hn : ∀ k, k < n → midMatchHere name (html.drop k) = none) (p a b : List Char)
    (h : IsMidAt name html p a b) : n ≤ p.length := by
  by_contra hlt
  have hk := hn p.length (by omega)
  obtain ⟨w1, w2, w3, w4, w5, w6, w7, rest, h1, h2, h3, h4, h5, h6, h7, ha, hb, e⟩ := h
  rw [e, List.drop_left,
    midMatchHere_complete name w1 w2 w3 a w4 w5 b w6 w7 rest h1 h2 h3 h4 h5 h6 h7 ha hb] at hk
  cases hk

theorem parseFloat_of_literal (ops : NumberOps) (a : List Char) (d : DecimalLiteral)
    (rest : List Char) (h : signedLiteral a = some (d, rest)) :
    parseFloat ops (String.mk a) = ops.round d.value := by
  unfold parseFloat
  simp only [h]

theorem firstMatch_complete {α : Type} (f : List Char → Option α) (pre : List Char) :
    ∀ (suf : List Char) (r : α), f suf = some r → ∃ r', firstMatch f (pre ++ suf) = some r' := by
  induction pre with
  | nil =>
    intro suf r hf
    cases suf with
    | nil => exact ⟨r, hf⟩
    | cons c cs => exact ⟨r, by simp only [List.nil_append, firstMatch, hf]⟩
  | cons x pre ih =>
    intro suf r hf
    cases h0 : f (x :: (pre ++ suf)) with
    | some r0 => exact ⟨r0, by rw [List.cons_append, firstMatch, h0]⟩
    | none =>
      obtain ⟨r', hr'⟩ := ih suf r hf
      exact ⟨r', by rw [List.cons_append, firstMatch, h0]; exact hr'⟩

theorem midpoint_eq_none_iff (ops : NumberOps) (name html : String) :
    midpoint ops name html = none ↔ ∀ pre a b, ¬ IsMidAt name html.data pre a b := by
  constructor
  · intro h pre a b hmid
    obtain ⟨w1, w2, w3, w4, w5, w6, w7, rest, h1, h2, h3, h4, h5, h6, h7, ha, hb, e⟩ := hmid
    obtain ⟨r', hr'⟩ := firstMatch_complete (midMatchHere name) pre _ _
      (midMatchHere_complete name w1 w2 w3 a w4 w5 b w6 w7 rest h1 h2 h3 h4 h5 h6 h7 ha hb)
    unfold midpoint at h
    rw [e, hr'] at h
    cases h
  · exact midpoint_none ops name html

theorem jsAdd_nan_right (ops : NumberOps) (x : JsNumber) : jsAdd ops x .nan = .nan := by
  cases x <;> rfl

/-- C13, as amended.  A centroid field is null exactly when the page has no midpoint
assignment of its name.  When it has one, the field is half the sum of the two parsed
literals: `parseFloat` gives the Number value of the longest decimal literal at the
start of a captured text, whatever follows it, and NaN when the text starts with
none, and a NaN operand makes the field NaN. -/
theorem coordinate_failure_policy (ops : NumberOps) (html : String) :
    ((extractCoordinates ops html).center_lat = none ↔
      ∀ pre a b, ¬ IsMidAt "lat_mid" html.data pre a b) ∧
    ((extractCoordinates ops html).center_lng = none ↔
      ∀ pre a b, ¬ IsMidAt "lng_mid" html.data pre a b) ∧
    (∀ (a : List Char) (d : DecimalLiteral) (rest : List Char),
      signedLiteral a = some (d, rest) → parseFloat ops (String.mk a) = ops.round d.value) ∧
    (∀ a : List Char, signedLiteral a = none → parseFloat ops (String.mk a) = .nan) ∧
    (∀ x : JsNumber, jsHalf ops (jsAdd ops .nan x) = .nan ∧ jsHalf ops (jsAdd ops x .nan) = .nan) := by
  refine ⟨midpoint_eq_none_iff ops _ html, midpoint_eq_none_iff ops _ html,
    fun a d rest h => parseFloat_of_literal ops a d rest h, ?_, ?_⟩
  · intro a h
    unfold parseFloat
    simp only [h]
  · intro x
    rw [jsAdd_nan_right]
    exact ⟨rfl, rfl⟩

/-- C13 as stated fails: with `-`, `.` or `--` in place of the first literal the
centroid field is NaN, not null, and with `1.2.3` it is the value computed from
`1.2`, the part of the literal that `parseFloat` reads. -/
theorem malformed_literal_not_absent :
    (∀ ops : NumberOps,
      (extractCoordinates ops "lat_mid = (- + 20.0) / 2").center_lat = some .nan) ∧
    (∀ ops : NumberOps,
      (extractCoordinates ops "lat_mid = (. + 20.0) / 2").center_lat = some .nan) ∧
    (∀ ops : NumberOps,
      (extractCoordinates ops "lat_mid = (-- + 20.0) / 2").center_lat = some .nan) ∧
    (∀ ops : NumberOps,
      (extractCoordinates ops "lat_mid = (10.0 + -) / 2").center_lat = some .nan) ∧
    (∀ ops : NumberOps,
      (extractCoordinates ops "lat_mid = (1.2.3 + 20.0) / 2").center_lat =
        (extractCoordinates ops "lat_mid = (1.2 + 20.0) / 2").center_lat ∧
      (extractCoordinates ops "lat_mid = (1.2.3 + 20.0) / 2").center_lat ≠ none) :=
  ⟨fun _ => rfl, fun _ => rfl, fun _ => rfl,
   fun ops => congrArg some (congrArg (jsHalf ops) (jsAdd_nan_right ops _)),
   fun _ => ⟨rfl, fun h => by cases h⟩⟩

/-! ## The `cords` array -/

theorem scanItems_run (x : List Char) :
    ∀ (st st' : ItemState) (rest : List Char), runItems st x = some st' →
      scanItems st (x ++ rest) = (scanItems st' rest).map (fun captured => x ++ captured) := by
  induction x with
  | nil =>
    intro st st' rest h
    simp only [runItems, Option.some.injEq] at h
    subst h
    simp
  | cons c cs ih =>
    intro st st' rest h
    simp only [runItems] at h
    cases hstep : itemStep st c with
    | next s1 =>
      rw [hstep] at h
      have hs : scanItems st (c :: (cs ++ rest)) =
          (scanItems s1 (cs ++ rest)).map (fun captured => c :: captured) := by
        rw [scanItems, hstep]
      show scanItems st (c :: (cs ++ rest)) = _
      rw [hs, ih s1 st' rest h, Option.map_map]
      rfl
    | accept => rw [hstep] at h; cases h
    | reject => rw [hstep] at h; cases h

theorem runItems_append (x y : List Char) :
    ∀ st : ItemState, runItems st (x ++ y) = (runItems st x).bind (fun s => runItems s y) := by
  induction x with
  | nil => intro st; rfl
  | cons c cs ih =>
    intro st
    simp only [List.cons_append, runItems]
    cases itemStep st c with
    | next s1 => exact ih s1
    | accept => rfl
    | reject => rfl

theorem runItems_inside (x : List Char) (h : ∀ c ∈ x, c.toNat ≠ 0x7D) :
    runItems .inside x = some .inside := by
  induction x with
  | nil => rfl
  | cons c cs ih =>
    have hc := h c (List.mem_cons_self _ _)
    simp only [runItems, itemStep, hc, if_false]
    exact ih (fun d hd => h d (List.mem_cons_of_mem _ hd))

theorem runItems_opened (x : List Char) (hne : x ≠ []) (h : ∀ c ∈ x, c.toNat ≠ 0x7D) :
    runItems .opened x = some .inside := by
  cases x with
  | nil => exact absurd rfl hne
  | cons c cs =>
    have hc := h c (List.mem_cons_self _ _)
    simp only [runItems, itemStep, hc, if_false]
    exact runItems_inside cs (fun d hd => h d (List.mem_cons_of_mem _ hd))

theorem runItems_between (w : List Char) (hw : IsBlank w) :
    runItems .between w = some .between := by
  induction w with
  | nil => rfl
  | cons c cs ih =>
    have hc := hw c (List.mem_cons_self _ _)
    simp only [runItems, itemStep, hc, if_true]
    exact ih (fun d hd => hw d (List.mem_cons_of_mem _ hd))

theorem whitespace_toNat (c : Char) (h : isJsWhitespace c = true) :
    c.toNat ≠ 0x2C ∧ c.toNat ≠ 0x7B ∧ c.toNat ≠ 0x7D ∧ c.toNat ≠ 0x5D := by
  simp only [isJsWhitespace, Bool.or_eq_true, Bool.and_eq_true, beq_iff_eq,
    decide_eq_true_eq] at h
  omega

theorem coord_toNat (c : Char) (h : isCoordChar c = true) : c.toNat ≠ 0x7D ∧ c.toNat ≠ 0x7B := by
  simp only [isCoordChar, isDigit, Bool.or_eq_true, Bool.and_eq_true, beq_iff_eq,
    decide_eq_true_eq] at h
  omega

/-- After a closing brace, whitespace leads to the state between two items, or leaves
the state as it is when there is none. -/
theorem runItems_closed (w : List Char) (hw : IsBlank w) :
    runItems .closed w = some (if w = [] then .closed else .between) := by
  cases w with
  | nil => rfl
  | cons c cs =>
    have hc := hw c (List.mem_cons_self _ _)
    have hn := whitespace_toNat c hc
    simp only [runItems, itemStep, hn.1, hc, if_true, if_false]
    rw [runItems_between cs (fun d hd => hw d (List.mem_cons_of_mem _ hd))]
    simp

theorem inner_no_brace (it : PairItem) (h : it.WellFormed) :
    it.inner ≠ [] ∧ ∀ c ∈ it.inner, c.toNat ≠ 0x7D := by
  obtain ⟨h1, h2, h3, h4, h5, _, ha, hb⟩ := h
  constructor
  · intro he
    have := congrArg List.length he
    simp [PairItem.inner] at this
  · intro c hc
    simp only [PairItem.inner, List.mem_append] at hc
    rcases hc with hc | hc | hc | hc | hc | hc | hc | hc | hc | hc
    · exact (whitespace_toNat c (h1 c hc)).2.2.1
    · revert c; decide
    · exact (whitespace_toNat c (h2 c hc)).2.2.1
    · exact (coord_toNat c (ha.2 c hc)).1
    · revert c; decide
    · exact (whitespace_toNat c (h3 c hc)).2.2.1
    · revert c; decide
    · exact (whitespace_toNat c (h4 c hc)).2.2.1
    · exact (coord_toNat c (hb.2 c hc)).1
    · exact (whitespace_toNat c (h5 c hc)).2.2.1

/-- A state in which an opening brace starts an item. -/
theorem itemStep_brace (st : ItemState) (h : st = .start ∨ st = .closed ∨ st = .between) :
    itemStep st (Char.ofNat 0x7B) = .next .opened := by
  rcases h with h | h | h <;> subst h <;> decide

theorem runItems_separator (it : PairItem) (h : it.WellFormed) :
    ∃ st, (st = .closed ∨ st = .between) ∧ runItems .closed it.separator = some st := by
  obtain ⟨_, _, _, _, _, h6, _, _⟩ := h
  unfold PairItem.separator
  cases it.comma with
  | true =>
    refine ⟨.between, Or.inr rfl, ?_⟩
    show runItems .closed (Char.ofNat 0x2C :: it.w6) = some .between
    simp only [runItems]
    exact runItems_between it.w6 h6
  | false =>
    refine ⟨if it.w6 = [] then .closed else .between, ?_, ?_⟩
    · by_cases hw : it.w6 = []
      · simp [hw]
      · simp [hw]
    · simp only [Bool.false_eq_true, if_false, List.nil_append]
      exact runItems_closed it.w6 h6

/-- Reading one object from a state that admits one leads to a state after an item. -/
theorem runItems_item (it : PairItem) (h : it.WellFormed) (st : ItemState)
    (hst : st = .start ∨ st = .closed ∨ st = .between) :
    ∃ st', (st' = .closed ∨ st' = .between) ∧
      runItems st ("\x7b".data ++ (it.inner ++ ("\x7d".data ++ it.separator))) = some st' := by
  obtain ⟨hne, hb⟩ := inner_no_brace it h
  obtain ⟨st', hst', hsep⟩ := runItems_separator it h
  refine ⟨st', hst', ?_⟩
  show runItems st (Char.ofNat 0x7B :: (it.inner ++ (Char.ofNat 0x7D :: it.separator))) = some st'
  simp only [runItems, itemStep_brace st hst]
  rw [runItems_append, runItems_opened it.inner hne hb]
  simp only [Option.some_bind, runItems]
  exact hsep

theorem item_text_eq (it : PairItem) (rest : List Char) :
    it.text rest = ("\x7b".data ++ (it.inner ++ ("\x7d".data ++ it.separator))) ++ rest := by
  simp only [PairItem.text, List.append_assoc]

theorem scanItems_items (items : List PairItem) (rest : List Char) :
    ∀ st : ItemState, (st = .start ∨ st = .closed ∨ st = .between) → items ≠ [] →
      (∀ it ∈ items, it.WellFormed) →
      scanItems st (itemsText items ("]".data ++ rest)) = some (itemsText items []) := by
  induction items with
  | nil => intro st _ hne; exact absurd rfl hne
  | cons it its ih =>
    intro st hst _ hwf
    obtain ⟨st', hst', hrun⟩ := runItems_item it (hwf it (List.mem_cons_self _ _)) st hst
    simp only [itemsText]
    rw [item_text_eq, scanItems_run _ st st' _ hrun, item_text_eq]
    cases its with
    | nil =>
      have hacc : scanItems st' ("]".data ++ rest) = some [] := by
        show scanItems st' (Char.ofNat 0x5D :: rest) = some []
        rcases hst' with h | h <;> subst h <;> rfl
      simp only [itemsText, hacc, Option.map_some']
    | cons it2 its2 =>
      rw [ih st' (Or.inr hst') (by simp) (fun i hi => hwf i (List.mem_cons_of_mem _ hi))]
      simp only [Option.map_some']

theorem pairMatchHere_complete (it : PairItem) (h : it.WellFormed) (rest : List Char) :
    pairMatchHere (it.text rest) = some (it.lat, it.lng, it.separator ++ rest) := by
  obtain ⟨h1, h2, h3, h4, h5, _, ha, hb⟩ := h
  unfold pairMatchHere
  simp only [PairItem.text, PairItem.inner, List.append_assoc]
  rw [expect_append, Option.some_bind,
    skip_blank_literal it.w1 "lat:" _ h1 (by decide) (by decide), expect_append,
    Option.some_bind, skip_blank_coord it.w2 it.lat _ h2 ha,
    takeCoord_literal it.lat "," _ ha (by decide) (by decide), Option.some_bind]
  simp only
  rw [expect_append, Option.some_bind,
    skip_blank_literal it.w3 "lng:" _ h3 (by decide) (by decide), expect_append,
    Option.some_bind, skip_blank_coord it.w4 it.lng _ h4 hb,
    takeCoord_blank_literal it.lng it.w5 "\x7d" _ hb h5 (by decide) (by decide),
    Option.some_bind]
  simp only
  rw [skip_blank_literal it.w5 "\x7d" _ h5 (by decide) (by decide), expect_append,
    Option.some_bind]

theorem allPairs_skip (x y : List Char) : allPairs x.length (x ++ y) = allPairs 0 y := by
  induction x with
  | nil => rfl
  | cons c cs ih =>
    show allPairs (cs.length + 1) (c :: (cs ++ y)) = allPairs 0 y
    rw [allPairs, ih]

theorem pairMatchHere_other (c : Char) (cs : List Char) (hc : c.toNat ≠ 0x7B) :
    pairMatchHere (c :: cs) = none := by
  have he : expect "\x7b" (c :: cs) = none := by
    unfold expect
    rw [if_neg]
    intro hp
    obtain ⟨t, ht⟩ := List.isPrefixOf_iff_prefix.mp hp
    have hh : Char.ofNat 0x7B = c := by
      have := congrArg List.head? ht
      simpa using this
    rw [← hh] at hc
    exact hc (by decide)
  unfold pairMatchHere
  rw [he]
  rfl

theorem allPairs_other (x y : List Char) (hx : ∀ c ∈ x, c.toNat ≠ 0x7B) :
    allPairs 0 (x ++ y) = allPairs 0 y := by
  induction x with
  | nil => rfl
  | cons c cs ih =>
    show allPairs 0 (c :: (cs ++ y)) = allPairs 0 y
    rw [allPairs, pairMatchHere_other c _ (hx c (List.mem_cons_self _ _))]
    exact ih (fun d hd => hx d (List.mem_cons_of_mem _ hd))

theorem separator_no_brace (it : PairItem) (h : it.WellFormed) :
    ∀ c ∈ it.separator, c.toNat ≠ 0x7B := by
  obtain ⟨_, _, _, _, _, h6, _, _⟩ := h
  intro c hc
  simp only [PairItem.separator, List.mem_append] at hc
  rcases hc with hc | hc
  · cases hcm : it.comma with
    | true =>
      rw [hcm] at hc
      revert c
      decide
    | false =>
      rw [hcm] at hc
      simp at hc
  · exact (whitespace_toNat c (h6 c hc)).2.1

theorem allPairs_item (it : PairItem) (h : it.WellFormed) (rest : List Char) :
    allPairs 0 (it.text rest) = (it.lat, it.lng) :: allPairs 0 rest := by
  have hm := pairMatchHere_complete it h rest
  have ht : it.text rest =
      Char.ofNat 0x7B :: ((it.inner ++ "\x7d".data) ++ (it.separator ++ rest)) := by
    simp only [PairItem.text, List.append_assoc]
    rfl
  rw [ht] at hm ⊢
  rw [allPairs, hm]
  simp only
  have hlen : ((it.inner ++ "\x7d".data) ++ (it.separator ++ rest)).length -
      (it.separator ++ rest).length = (it.inner ++ "\x7d".data).length := by
    rw [List.length_append]
    omega
  rw [hlen, allPairs_skip, allPairs_other _ _ (separator_no_brace it h)]

theorem allPairs_items (items : List PairItem) (h : ∀ it ∈ items, it.WellFormed) :
    allPairs 0 (itemsText items []) = items.map (fun it => (it.lat, it.lng)) := by
  induction items with
  | nil => rfl
  | cons it its ih =>
    simp only [itemsText, List.map_cons]
    rw [allPairs_item it (h it (List.mem_cons_self _ _)),
      ih (fun i hi => h i (List.mem_cons_of_mem _ hi))]

theorem cordsMatchHere_complete (w1 w2 w3 : List Char) (items : List PairItem)
    (rest : List Char) (h1 : IsBlank w1) (h2 : IsBlank w2) (h3 : IsBlank w3)
    (hne : items ≠ []) (hwf : ∀ it ∈ items, it.WellFormed) :
    cordsMatchHere (cordsText w1 w2 w3 items rest) = some (itemsText items []) := by
  have hskip : skipWhitespace (w3 ++ itemsText items ("]".data ++ rest)) =
      itemsText items ("]".data ++ rest) := by
    unfold skipWhitespace
    apply dropWhile_append_head _ _ _ h3
    intro c hc
    cases items with
    | nil => exact absurd rfl hne
    | cons it its =>
      have : c = Char.ofNat 0x7B := by
        simp only [itemsText, PairItem.text] at hc
        have hc' : (Char.ofNat 0x7B :: (it.inner ++ ("\x7d".data ++
            (it.separator ++ itemsText its ("]".data ++ rest))))).head? = some c := hc
        simpa using hc'.symm
      rw [this]
      decide
  unfold cordsMatchHere cordsText
  rw [expect_append, Option.some_bind,
    skip_blank_literal w1 "=" _ h1 (by decide) (by decide), expect_append, Option.some_bind,
    skip_blank_literal w2 "[" _ h2 (by decide) (by decide), expect_append, Option.some_bind,
    hskip]
  exact scanItems_items items rest .start (Or.inl rfl) hne hwf

theorem cordsMatchHere_keyword (s r : List Char) (h : cordsMatchHere s = some r) :
    ∃ t, s = "cords".data ++ t := by
  unfold cordsMatchHere at h
  simp only [Option.bind_eq_some] at h
  obtain ⟨r1, e1, _⟩ := h
  exact ⟨r1, expect_eq_some "cords" s r1 e1⟩

/-- The points of the leftmost `cords` array, when its objects are well formed. -/
theorem boundingBox_of_literal (ops : NumberOps) (html : String)
    (pre w1 w2 w3 : List Char) (items : List PairItem) (rest : List Char)
    (e : html.data = pre ++ cordsText w1 w2 w3 items rest)
    (h1 : IsBlank w1) (h2 : IsBlank w2) (h3 : IsBlank w3) (hne : items ≠ [])
    (hwf : ∀ it ∈ items, it.WellFormed)
    (hmin : ∀ p s, html.data = p ++ ("cords".data ++ s) → pre.length ≤ p.length) :
    boundingBox ops html = some (items.map (PairItem.point ops)) := by
  have hm : firstMatch cordsMatchHere html.data = some (itemsText items []) := by
    rw [e]
    apply firstMatch_leftmost _ pre _ _
      (cordsMatchHere_complete w1 w2 w3 items rest h1 h2 h3 hne hwf)
    intro p s hps hlt
    cases hc : cordsMatchHere s with
    | none => rfl
    | some r =>
      obtain ⟨t, ht⟩ := cordsMatchHere_keyword s r hc
      have := hmin p t (by rw [e, hps, ht])
      omega
  unfold boundingBox
  rw [hm]
  simp only [allPairs_items items hwf, List.map_map, List.length_map]
  rw [if_pos (List.length_pos.mpr hne)]
  rfl

theorem boundingBox_none_of_no_keyword (ops : NumberOps) (html : String)
    (h : ∀ p s, html.data ≠ p ++ ("cords".data ++ s)) : boundingBox ops html = none := by
  have hm : firstMatch cordsMatchHere html.data = none := by
    apply firstMatch_none
    intro pre suf e
    cases hc : cordsMatchHere suf with
    | none => rfl
    | some r =>
      obtain ⟨t, ht⟩ := cordsMatchHere_keyword suf r hc
      exact absurd (by rw [e, ht]) (h pre t)
  unfold boundingBox
  rw [hm]

theorem boundingBox_shape (ops : NumberOps) (html : String) :
    boundingBox ops html = none ∨
      ∃ points, points ≠ [] ∧ boundingBox ops html = some points := by
  unfold boundingBox
  cases firstMatch cordsMatchHere html.data with
  | none => exact Or.inl rfl
  | some s =>
    simp only
    split
    · rename_i hpos
      exact Or.inr ⟨_, List.length_pos.mp hpos, rfl⟩
    · exact Or.inl rfl

/-! ## The record of a page -/

theorem dispatchLabel_mined (details : ProjectDetails) (label : String) (value : List Node) :
    (dispatchLabel details label value).bbox_json = details.bbox_json ∧
    (dispatchLabel details label value).downloads_json = details.downloads_json := by
  unfold dispatchLabel
  split <;> exact ⟨rfl, rfl⟩

theorem foldl_processLabelRow_mined (rows : List Node) :
    ∀ details : ProjectDetails,
      (rows.foldl processLabelRow details).bbox_json = details.bbox_json ∧
      (rows.foldl processLabelRow details).downloads_json = details.downloads_json := by
  induction rows with
  | nil => intro details; exact ⟨rfl, rfl⟩
  | cons row rows ih =>
    intro details
    rw [List.foldl_cons]
    obtain ⟨h1, h2⟩ := ih (processLabelRow details row)
    rw [h1, h2]
    unfold processLabelRow
    simp only
    split
    · exact dispatchLabel_mined _ _ _
    · exact ⟨rfl, rfl⟩

theorem processTable_mined (st : TableState) (t : Node) :
    (processTable st t).details.bbox_json = st.details.bbox_json ∧
    (processTable st t).details.downloads_json = st.details.downloads_json := by
  unfold processTable
  simp only
  split
  · exact ⟨rfl, rfl⟩
  · exact foldl_processLabelRow_mined _ _

theorem foldl_processTable_mined (tables : List Node) :
    ∀ st : TableState,
      (tables.foldl processTable st).details.bbox_json = st.details.bbox_json ∧
      (tables.foldl processTable st).details.downloads_json = st.details.downloads_json := by
  induction tables with
  | nil => intro st; exact ⟨rfl, rfl⟩
  | cons t tables ih =>
    intro st
    rw [List.foldl_cons]
    obtain ⟨h1, h2⟩ := ih (processTable st t)
    obtain ⟨h3, h4⟩ := processTable_mined st t
    exact ⟨h1.trans h3, h2.trans h4⟩

/-- The table loop leaves the two mined fields as they are. -/
theorem processTables_mined (page : List Node) (details : ProjectDetails) :
    (processTables page details).bbox_json = details.bbox_json ∧
    (processTables page details).downloads_json = details.downloads_json := by
  unfold processTables
  obtain ⟨h1, h2⟩ := foldl_processTable_mined (selectList isTable page)
    { details := details, dataTypes := [] }
  simp only
  split
  · exact ⟨h1, h2⟩
  · exact ⟨h1, h2⟩

theorem parseDetails_bbox_json (ops : NumberOps) (doi : String) (response : DetailResponse)
    (datacite : Option String) :
    (parseDetails ops doi response datacite).bbox_json =
      (extractCoordinates ops response.data).bbox.map (stringifyBbox ops) := by
  have h1 : ∀ d : ProjectDetails, (withDatacite datacite d).bbox_json = d.bbox_json := by
    intro d; unfold withDatacite; split <;> rfl
  have h2 : ∀ (l : List Download) (d : ProjectDetails),
      (withDownloads l d).bbox_json = d.bbox_json := by
    intro l d; unfold withDownloads; split <;> rfl
  unfold parseDetails
  rw [h1, (processTables_mined _ _).1, h2]
  rfl

theorem parseDetails_downloads_json (ops : NumberOps) (doi : String)
    (response : DetailResponse) (datacite : Option String) :
    (parseDetails ops doi response datacite).downloads_json =
      if (extractDownloads response.document).length > 0 then
        some (stringifyDownloads (extractDownloads response.document))
      else none := by
  have h1 : ∀ d : ProjectDetails, (withDatacite datacite d).downloads_json = d.downloads_json := by
    intro d; unfold withDatacite; split <;> rfl
  have h3 : ∀ d : ProjectDetails, (withViewer response.document d).downloads_json =
      d.downloads_json := by
    intro d; unfold withViewer; split <;> rfl
  unfold parseDetails
  rw [h1, (processTables_mined _ _).2]
  unfold withDownloads
  split
  · rfl
  · show (withViewer response.document (initialDetails doi)).downloads_json = none
    rw [h3]
    rfl

/-- No occurrence of a keyword starts before position `n` when none of the first `n`
suffixes of the text starts with it. -/
theorem keyword_position (pat : String) (html : List Char) (n : Nat)
    (hn : ∀ k, k < n → pat.data.isPrefixOf (html.drop k) = false) (p s : List Char)
    (h : html = p ++ (pat.data ++ s)) : n ≤ p.length := by
  by_contra hlt
  have hk := hn p.length (by omega)
  rw [h, List.drop_left, List.isPrefixOf_iff_prefix.mpr ⟨s, rfl⟩] at hk
  cases hk

/-! ## Download miner -/

theorem matchesFieldName_ne_empty (name : String) (h : matchesFieldName name = true) :
    name ≠ "" := by
  intro he
  rw [he] at h
  cases h

theorem jsTrim_ne_empty (value : String) (h : jsTrim value ≠ "") : value ≠ "" := by
  intro he
  rw [he] at h
  exact h rfl

theorem pushHiddenInput_eq (downloads : List Download) (el : Node) :
    pushHiddenInput downloads el = downloads ++ (hiddenDescriptor el).toList := by
  unfold pushHiddenInput hiddenDescriptor
  cases el.attr "name" with
  | none => simp
  | some name =>
    cases el.attr "value" with
    | none => simp
    | some value =>
      simp only
      by_cases hn : matchesFieldName name = true
      · by_cases hv : jsTrim value ≠ ""
        · rw [if_pos ⟨matchesFieldName_ne_empty name hn, hn, jsTrim_ne_empty value hv, hv⟩,
            if_pos ⟨hn, hv⟩]
          rfl
        · rw [if_neg (fun h => hv h.2.2.2), if_neg (fun h => hv h.2)]
          simp
      · rw [if_neg (fun h => hn h.2.1), if_neg (fun h => hn h.1)]
        simp

theorem foldl_push_filterMap {α β : Type} (f : α → Option β) (step : List β → α → List β)
    (hstep : ∀ acc a, step acc a = acc ++ (f a).toList)
    (l : List α) : ∀ acc, l.foldl step acc = acc ++ l.filterMap f := by
  induction l with
  | nil => intro acc; simp
  | cons a l ih =>
    intro acc
    rw [List.foldl_cons, ih, hstep]
    cases hf : f a with
    | none => simp [List.filterMap_cons, hf]
    | some d => simp [List.filterMap_cons, hf]

theorem includesChars_of_infix (pat : List Char) (l : List Char) :
    ∀ pre rest, l = pre ++ (pat ++ rest) → includesChars pat l = true := by
  induction l with
  | nil =>
    intro pre rest h
    have hp : pre = [] := by
      cases pre with
      | nil => rfl
      | cons a p => cases h
    subst hp
    have hpat : pat = [] := by
      cases pat with
      | nil => rfl
      | cons a p => cases h
    subst hpat
    rfl
  | cons c cs ih =>
    intro pre rest h
    unfold includesChars
    cases pre with
    | nil =>
      have hp : pat.isPrefixOf (c :: cs) = true :=
        List.isPrefixOf_iff_prefix.mpr ⟨rest, by rw [h]; rfl⟩
      rw [hp]
      rfl
    | cons a p =>
      simp only [List.cons_append, List.cons.injEq] at h
      rw [ih p rest h.2]
      simp

theorem consoleMatchHere_complete (arg rest : List Char) (hne : arg ≠ [])
    (harg : ∀ c ∈ arg, c.toNat ≠ 0x29) :
    consoleMatchHere ("console.log(".data ++ (arg ++ (")".data ++ rest))) = some arg := by
  have hp : ∀ c ∈ arg, (fun c : Char => c.toNat != 0x29) c = true := by
    intro c hc
    simpa using harg c hc
  have hr : ∀ c, (")".data ++ rest).head? = some c →
      (fun c : Char => c.toNat != 0x29) c = false := by
    intro c hc
    have : c = Char.ofNat 0x29 := by
      have hc' : (Char.ofNat 0x29 :: rest).head? = some c := hc
      simpa using hc'.symm
    rw [this]
    decide
  unfold consoleMatchHere
  rw [if_pos (List.isPrefixOf_iff_prefix.mpr ⟨_, rfl⟩)]
  have hd : ("console.log(".data ++ (arg ++ (")".data ++ rest))).drop 12 =
      arg ++ (")".data ++ rest) := @List.drop_left' Char "console.log(".data _ 12 rfl
  simp only [hd]
  rw [takeWhile_append_head _ _ _ hp hr, dropWhile_append_head _ _ _ hp hr, if_pos]
  exact ⟨hne, by intro h; cases h⟩

theorem consoleMatchHere_sound (s arg : List Char) (h : consoleMatchHere s = some arg) :
    IsLogCall s [] arg := by
  unfold consoleMatchHere at h
  split at h
  · rename_i hp
    obtain ⟨t, ht⟩ := List.isPrefixOf_iff_prefix.mp hp
    have hd : s.drop 12 = t := by
      rw [← ht]
      exact @List.drop_left' Char "console.log(".data t 12 rfl
    simp only [hd] at h
    split at h
    · rename_i hc
      simp only [Option.some.injEq] at h
      cases hdw : t.dropWhile (fun c : Char => c.toNat != 0x29) with
      | nil => exact absurd hdw hc.2
      | cons c rest =>
        have hcp : (fun c : Char => c.toNat != 0x29) c = false := by
          have := List.head?_dropWhile_not (fun c : Char => c.toNat != 0x29) t
          rw [hdw] at this
          simpa using this
        have hc29 : c = Char.ofNat 0x29 := by
          have : c.toNat = 0x29 := by simpa using hcp
          rw [← Char.ofNat_toNat c, this]
        refine ⟨rest, ?_, h ▸ hc.1, ?_⟩
        · rw [List.nil_append, ← ht, ← h]
          congr 1
          have := List.takeWhile_append_dropWhile (fun c : Char => c.toNat != 0x29) t
          rw [hdw, hc29] at this
          exact this.symm
        · intro d hd'
          rw [← h] at hd'
          have := List.mem_takeWhile_imp hd'
          simpa using this
    · cases h
  · cases h

theorem isLogCall_shift (p s arg : List Char) (h : IsLogCall s [] arg) :
    IsLogCall (p ++ s) p arg := by
  obtain ⟨rest, e, hne, harg⟩ := h
  exact ⟨rest, by rw [e, List.nil_append], hne, harg⟩

theorem firstMatch_console_of_leftmost (content pre arg : List Char)
    (h : IsLogCall content pre arg)
    (hmin : ∀ p a, IsLogCall content p a → pre.length ≤ p.length) :
    firstMatch consoleMatchHere content = some arg := by
  obtain ⟨rest, e, hne, harg⟩ := h
  rw [e]
  apply firstMatch_leftmost _ pre _ _ (consoleMatchHere_complete arg rest hne harg)
  intro p s hps hlt
  cases hm : consoleMatchHere s with
  | none => rfl
  | some a =>
    have hs := isLogCall_shift p s a (consoleMatchHere_sound s a hm)
    rw [← hps, ← e] at hs
    have := hmin p a hs
    omega

theorem firstMatch_console_none (content : List Char)
    (h : ∀ pre arg, ¬ IsLogCall content pre arg) :
    firstMatch consoleMatchHere content = none := by
  apply firstMatch_none
  intro pre suf e
  cases hm : consoleMatchHere suf with
  | none => rfl
  | some a =>
    have hs := isLogCall_shift pre suf a (consoleMatchHere_sound suf a hm)
    rw [← e] at hs
    exact absurd hs (h pre a)

theorem consoleMatch_content (content arg : String) (h : consoleMatch content = some arg) :
    content ≠ "" ∧ includes content "console.log" = true := by
  unfold consoleMatch at h
  cases hm : firstMatch consoleMatchHere content.data with
  | none => rw [hm] at h; cases h
  | some a =>
    obtain ⟨pre, suf, e, hf⟩ := firstMatch_sound _ _ a hm
    obtain ⟨rest, es, _, _⟩ := consoleMatchHere_sound suf a hf
    rw [List.nil_append] at es
    constructor
    · intro he
      rw [he] at e
      have hl := congrArg List.length e
      have h12 : "console.log(".data.length = 12 := rfl
      have h0 : "".data.length = 0 := rfl
      rw [es, List.length_append, List.length_append, h12, h0] at hl
      omega
    · unfold includes
      apply includesChars_of_infix "console.log".data content.data pre
        ("(".data ++ (a ++ (")".data ++ rest)))
      rw [e, es]
      rfl

theorem pushConsoleLog_eq (downloads : List Download) (script : Node) :
    pushConsoleLog downloads script = downloads ++ (consoleDescriptor script).toList := by
  unfold pushConsoleLog consoleDescriptor
  simp only
  cases hm : consoleMatch script.textContent with
  | none =>
    simp only
    split <;> simp
  | some arg =>
    rw [if_pos (consoleMatch_content _ _ hm)]
    simp only
    split <;> simp

/-- The downloads of a page: the descriptors of its hidden inputs, then those of its
scripts, each kind in document order. -/
theorem extractDownloads_eq (page : List Node) :
    extractDownloads page =
      (hiddenInputs page).filterMap hiddenDescriptor ++
        (selectList isScript page).filterMap consoleDescriptor := by
  unfold extractDownloads
  simp only
  rw [foldl_push_filterMap hiddenDescriptor pushHiddenInput pushHiddenInput_eq,
    foldl_push_filterMap consoleDescriptor pushConsoleLog pushConsoleLog_eq, List.nil_append]

theorem matchesFieldName_iff (name : String) : matchesFieldName name = true ↔ IsFieldName name := by
  unfold matchesFieldName IsFieldName
  cases hd : name.data with
  | nil =>
    simp only [Bool.false_eq_true, false_iff]
    rintro ⟨ds, _, _, h⟩
    cases h
  | cons c ds =>
    simp only [Bool.and_eq_true, beq_iff_eq, Bool.not_eq_true', List.isEmpty_eq_false,
      List.all_eq_true, List.cons.injEq]
    constructor
    · rintro ⟨⟨hc, hne⟩, hall⟩
      refine ⟨ds, hne, hall, ?_, rfl⟩
      rw [← Char.ofNat_toNat c, hc]
    · rintro ⟨ds', hne, hall, hc, hds⟩
      subst hds
      subst hc
      exact ⟨⟨by decide, hne⟩, hall⟩

theorem hiddenDescriptor_eq_some (el : Node) (d : Download) :
    hiddenDescriptor el = some d ↔
      ∃ name value, el.attr "name" = some name ∧ el.attr "value" = some value ∧
        IsFieldName name ∧ jsTrim value ≠ "" ∧
        d = { field := name, value := stripQuotes value } := by
  unfold hiddenDescriptor
  constructor
  · intro h
    cases hn : el.attr "name" with
    | none => rw [hn] at h; cases h
    | some name =>
      cases hv : el.attr "value" with
      | none => rw [hn, hv] at h; cases h
      | some value =>
        rw [hn, hv] at h
        simp only at h
        split at h
        · rename_i hc
          simp only [Option.some.injEq] at h
          exact ⟨name, value, rfl, rfl, (matchesFieldName_iff name).mp hc.1, hc.2, h.symm⟩
        · cases h
  · rintro ⟨name, value, hn, hv, hf, ht, hd⟩
    rw [hn, hv]
    simp only
    rw [if_pos ⟨(matchesFieldName_iff name).mpr hf, ht⟩, hd]

theorem stripQuoteChars_quoted (v : List Char) :
    stripQuoteChars (Char.ofNat 0x27 :: (v ++ [Char.ofNat 0x27])) = v := by
  unfold stripQuoteChars
  have h1 : (Char.ofNat 0x27).toNat = 0x27 := by decide
  simp only [h1, if_true, List.getLast?_append, List.getLast?_singleton,
    List.dropLast_concat]
  exact if_pos rfl

theorem stripQuoteChars_plain (v : List Char) (hh : v.head? ≠ some (Char.ofNat 0x27))
    (hl : v.getLast? ≠ some (Char.ofNat 0x27)) : stripQuoteChars v = v := by
  unfold stripQuoteChars
  cases v with
  | nil => rfl
  | cons c cs =>
    have hc : c.toNat ≠ 0x27 := by
      intro h
      apply hh
      rw [List.head?_cons, ← Char.ofNat_toNat c, h]
    simp only [hc, if_false]
    rw [if_neg hl]

theorem consoleDescriptor_field (script : Node) (d : Download)
    (h : consoleDescriptor script = some d) : d.field = "console_log" := by
  unfold consoleDescriptor at h
  split at h
  · split at h
    · simp only [Option.some.injEq] at h
      rw [← h]
    · cases h
  · cases h

/-- C15, as amended.  The downloads of a page start with the descriptors of its hidden
inputs, in document order, and the rest come from the scripts.  A hidden input has a
descriptor exactly when its name is the letter `f` followed by one or more digits and
its value has a character other than whitespace; the descriptor holds the name and
the value with one single quote removed at each end where there is one, so a value
between single quotes loses both and a value without them is kept. -/
theorem hidden_input_downloads :
    (∀ page : List Node, ∃ console : List Download,
      extractDownloads page = (hiddenInputs page).filterMap hiddenDescriptor ++ console ∧
      ∀ d ∈ console, d.field = "console_log") ∧
    (∀ (el : Node) (d : Download), hiddenDescriptor el = some d ↔
      ∃ name value, el.attr "name" = some name ∧ el.attr "value" = some value ∧
        IsFieldName name ∧ jsTrim value ≠ "" ∧
        d = { field := name, value := stripQuotes value }) ∧
    (∀ v : List Char,
      stripQuotes (String.mk (Char.ofNat 0x27 :: (v ++ [Char.ofNat 0x27]))) = String.mk v) ∧
    (∀ v : List Char, v.head? ≠ some (Char.ofNat 0x27) → v.getLast? ≠ some (Char.ofNat 0x27) →
      stripQuotes (String.mk v) = String.mk v) ∧
    extractDownloads downloadPage =
      [{ field := "f1", value := "scan.zip" }, { field := "f2", value := "photos.zip" },
       { field := "console_log", value := "a.laz|b.laz" }] := by
  refine ⟨?_, hiddenDescriptor_eq_some, ?_, ?_, by decide⟩
  · intro page
    refine ⟨_, extractDownloads_eq page, ?_⟩
    intro d hd
    obtain ⟨script, _, hs⟩ := List.mem_filterMap.mp hd
    exact consoleDescriptor_field script d hs
  · intro v
    exact congrArg String.mk (stripQuoteChars_quoted v)
  · intro v hh hl
    exact congrArg String.mk (stripQuoteChars_plain v hh hl)

/-- C15 as stated fails: this hidden input is named `f1` and its value, a blank, is
not empty, and it has no descriptor. -/
theorem blank_value_no_descriptor :
    blankValueInput.attr "name" = some "f1" ∧ matchesFieldName "f1" = true ∧
    blankValueInput.attr "value" = some " " ∧ (" " : String) ≠ "" ∧
    hiddenInputs [blankValueInput] = [blankValueInput] ∧
    extractDownloads [blankValueInput] = [] := by
  refine ⟨by decide, by decide, by decide, by decide, rfl, by decide⟩

theorem includes_comma (arg : List Char) :
    includes (String.mk arg) "," = true ↔ Char.ofNat 0x2C ∈ arg := by
  unfold includes
  show includesChars [Char.ofNat 0x2C] arg = true ↔ _
  induction arg with
  | nil => simp [includesChars, List.isPrefixOf]
  | cons c cs ih =>
    simp only [includesChars, List.isPrefixOf, Bool.and_true, Bool.or_eq_true, beq_iff_eq, ih,
      List.mem_cons]

theorem consoleDescriptor_of_leftmost (script : Node) (pre arg : List Char)
    (h : IsLogCall script.textContent.data pre arg)
    (hmin : ∀ p a, IsLogCall script.textContent.data p a → pre.length ≤ p.length) :
    consoleDescriptor script =
      if Char.ofNat 0x2C ∈ arg then
        some { field := "console_log", value := consoleValue (String.mk arg) }
      else none := by
  unfold consoleDescriptor consoleMatch
  rw [firstMatch_console_of_leftmost _ pre arg h hmin]
  simp only [Option.map_some', includes_comma]

theorem consoleDescriptor_none (script : Node)
    (h : ∀ pre arg, ¬ IsLogCall script.textContent.data pre arg) :
    consoleDescriptor script = none := by
  unfold consoleDescriptor consoleMatch
  rw [firstMatch_console_none _ h]
  rfl

/-- C16, as amended.  The downloads of a page end with the descriptors of its
scripts, in document order, at most one for each script.  The call that decides is
the leftmost `console.log(` of the script that is followed by one or more characters
and a closing parenthesis; its argument is the text up to the first closing
parenthesis.  When this argument contains a comma the script has the descriptor
`console_log` whose value is the pieces of the argument between commas, each trimmed
and without its surrounding single quotes, joined with pipes; otherwise, and when the
script has no such call, it has none. -/
theorem console_log_downloads :
    (∀ page : List Node, ∃ hidden : List Download,
      extractDownloads page = hidden ++ (selectList isScript page).filterMap consoleDescriptor) ∧
    (∀ (script : Node) (pre arg : List Char), IsLogCall script.textContent.data pre arg →
      (∀ p a, IsLogCall script.textContent.data p a → pre.length ≤ p.length) →
      consoleDescriptor script =
        if Char.ofNat 0x2C ∈ arg then
          some { field := "console_log"
                 value := jsJoin "|"
                   ((jsSplit ',' (String.mk arg)).map (fun p => stripQuotes (jsTrim p))) }
        else none) ∧
    (∀ script : Node, (∀ pre arg, ¬ IsLogCall script.textContent.data pre arg) →
      consoleDescriptor script = none) :=
  ⟨fun page => ⟨_, extractDownloads_eq page⟩,
   fun script pre arg h hmin => consoleDescriptor_of_leftmost script pre arg h hmin,
   fun script h => consoleDescriptor_none script h⟩

/-- C16 at a script that logs a list of two names. -/
theorem console_log_downloads_witness :
    consoleDescriptor (inlineScript "console.log('a.laz', 'b.laz');") =
      some { field := "console_log", value := "a.laz|b.laz" } :=
  (console_log_downloads.2.1 (inlineScript "console.log('a.laz', 'b.laz');") []
    "'a.laz', 'b.laz'".data ⟨";".data, by decide, by decide, by decide⟩
    (fun _ _ _ => Nat.zero_le _)).trans (by decide)

/-- C16 as stated fails: the second call of this script has an argument with a comma,
and the script has no descriptor, because its first call has none. -/
theorem second_call_ignored :
    IsLogCall twoCallScript.textContent.data "console.log('x'); ".data "'a','b'".data ∧
    Char.ofNat 0x2C ∈ "'a','b'".data ∧
    consoleDescriptor twoCallScript = none ∧
    extractDownloads [twoCallScript] = [] :=
  ⟨⟨[], by decide, by decide, by decide⟩, by decide, by decide, by decide⟩

/-- C17.  The field `downloads_json` of the record of a page is null when neither its
hidden inputs nor its scripts have a descriptor, and otherwise the serialisation of the
descriptors of the hidden inputs followed by those of the scripts, each kind in
document order. -/
theorem downloads_json_of_page :
    (∀ (ops : NumberOps) (doi : String) (response : DetailResponse) (datacite : Option String),
      (parseDetails ops doi response datacite).downloads_json =
        if (hiddenInputs response.document).filterMap hiddenDescriptor ++
            (selectList isScript response.document).filterMap consoleDescriptor = [] then none
        else some (stringifyDownloads
          ((hiddenInputs response.document).filterMap hiddenDescriptor ++
            (selectList isScript response.document).filterMap consoleDescriptor))) ∧
    (parseDetails exactOps "10.1/abc" { data := "", document := downloadPage } none).downloads_json =
      some ("[\x7b\"field\":\"f1\",\"value\":\"scan.zip\"\x7d," ++
        "\x7b\"field\":\"f2\",\"value\":\"photos.zip\"\x7d," ++
        "\x7b\"field\":\"console_log\",\"value\":\"a.laz|b.laz\"\x7d]") ∧
    (parseDetails exactOps "10.1/abc" { data := "", document := [blankValueInput] }
      none).downloads_json = none := by
  refine ⟨?_, by decide, by decide⟩
  intro ops doi response datacite
  rw [parseDetails_downloads_json, extractDownloads_eq]
  by_cases he : (hiddenInputs response.document).filterMap hiddenDescriptor ++
      (selectList isScript response.document).filterMap consoleDescriptor = []
  · rw [he]
    rfl
  · rw [if_neg he, if_pos (List.length_pos.mpr he)]

/-! ## Detail pass of the orchestrator -/

theorem poolInv_initial (K n : Nat) : PoolInv K n initialPool := by
  refine ⟨Nat.zero_le _, ?_, Nat.zero_le _, trivial⟩
  simp [initialPool]

theorem pool_nodup {K n : Nat} {s : PoolState} (h : PoolInv K n s) :
    (s.semaphore ++ s.completed.map Prod.fst).Nodup :=
  h.2.1.nodup_iff.mpr (List.nodup_range _)

theorem pool_not_completed {K n : Nat} {s : PoolState} (h : PoolInv K n s) {j : Nat}
    (hj : j ∈ s.semaphore) : j ∉ s.completed.map Prod.fst := by
  have hd := List.disjoint_of_nodup_append (pool_nodup h)
  exact fun hc => hd hj hc

theorem isCompleted_iff (s : PoolState) (j : Nat) :
    s.isCompleted j = true ↔ j ∈ s.completed.map Prod.fst := by
  simp [PoolState.isCompleted]

theorem poolInv_start {K n : Nat} {s : PoolState} (h : PoolInv K n s) (hn : s.next < n)
    (hlen : s.semaphore.length + 1 ≤ K) : PoolInv K n s.start := by
  obtain ⟨_, hperm, _, _⟩ := h
  refine ⟨hn, ?_, ?_, trivial⟩
  · show ((s.semaphore ++ [s.next]) ++ s.completed.map Prod.fst).Perm (List.range (s.next + 1))
    rw [List.range_succ]
    have h1 : ((s.semaphore ++ [s.next]) ++ s.completed.map Prod.fst).Perm
        ((s.semaphore ++ s.completed.map Prod.fst) ++ [s.next]) := by
      rw [List.append_assoc, List.append_assoc]
      exact List.Perm.append_left _ List.perm_append_comm
    exact h1.trans (List.Perm.append_right _ hperm)
  · show (s.semaphore ++ [s.next]).length ≤ K
    rw [List.length_append]
    exact hlen

theorem poolInv_settle {K n : Nat} {s : PoolState} (h : PoolInv K n s) {j : Nat} (ok : Bool)
    (hj : j ∈ s.semaphore) :
    PoolInv K n { s with semaphore := s.semaphore.erase j,
                         completed := s.completed ++ [(j, ok)] } := by
  obtain ⟨hle, hperm, hlen, hc⟩ := h
  have hsub : ∀ i ∈ s.semaphore.erase j, i ∈ s.semaphore := fun i hi => List.mem_of_mem_erase hi
  have hcases : ∀ i, i ∈ s.semaphore ∨ i ∈ s.completed.map Prod.fst →
      i ∈ s.semaphore.erase j ∨ i ∈ (s.completed ++ [(j, ok)]).map Prod.fst := by
    intro i hi
    by_cases hij : i = j
    · right
      rw [List.map_append, List.mem_append]
      right
      rw [hij]
      exact List.Mem.head _
    · rcases hi with hi | hi
      · left
        exact (List.mem_erase_of_ne hij).mpr hi
      · right
        rw [List.map_append, List.mem_append]
        exact Or.inl hi
  refine ⟨hle, ?_, ?_, ?_⟩
  · show (s.semaphore.erase j ++ (s.completed ++ [(j, ok)]).map Prod.fst).Perm (List.range s.next)
    refine List.Perm.trans ?_ hperm
    rw [List.map_append]
    have h1 : (s.semaphore.erase j ++ (s.completed.map Prod.fst ++ [j])).Perm
        (j :: (s.semaphore.erase j ++ s.completed.map Prod.fst)) := by
      rw [← List.append_assoc]
      exact List.perm_append_singleton _ _
    refine h1.trans ?_
    rw [← List.cons_append]
    exact List.Perm.append_right _ (List.perm_cons_erase hj).symm
  · show (s.semaphore.erase j).length ≤ K
    exact le_trans (List.length_erase_le _ _) hlen
  · show match s.control with
      | .check => True
      | .raceWait snapshot =>
        s.next < n ∧ snapshot.length ≤ K ∧ snapshot.Nodup ∧ snapshot ≠ [] ∧
          (∀ i ∈ s.semaphore.erase j, i ∈ snapshot) ∧
          (∀ i ∈ snapshot, i ∈ s.semaphore.erase j ∨ i ∈ (s.completed ++ [(j, ok)]).map Prod.fst)
      | .allWait snapshot =>
        s.next = n ∧ (∀ i ∈ s.semaphore.erase j, i ∈ snapshot) ∧
          (∀ i ∈ snapshot, i ∈ s.semaphore.erase j ∨ i ∈ (s.completed ++ [(j, ok)]).map Prod.fst)
      | .returned => s.next = n ∧ s.semaphore.erase j = []
    cases hctl : s.control with
    | check => trivial
    | raceWait snapshot =>
      rw [hctl] at hc
      obtain ⟨a, b, c, d, e, f⟩ := hc
      exact ⟨a, b, c, d, fun i hi => e i (hsub i hi), fun i hi => hcases i (f i hi)⟩
    | allWait snapshot =>
      rw [hctl] at hc
      obtain ⟨a, e, f⟩ := hc
      exact ⟨a, fun i hi => e i (hsub i hi), fun i hi => hcases i (f i hi)⟩
    | returned =>
      rw [hctl] at hc
      obtain ⟨a, b⟩ := hc
      rw [b] at hj
      exact absurd hj (List.not_mem_nil _)

/-- After a suspended `Promise.race` lets the function run on, a place of the array is
free. -/
theorem pool_room_after_race {K n : Nat} {s : PoolState} (h : PoolInv K n s)
    {snapshot : List Nat} (hctl : s.control = .raceWait snapshot)
    (hany : snapshot.any s.isCompleted = true) : s.semaphore.length + 1 ≤ K := by
  have hnd := pool_nodup h
  have hnc := fun j (hj : j ∈ s.semaphore) => pool_not_completed h hj
  obtain ⟨_, _, _, hc⟩ := h
  rw [hctl] at hc
  obtain ⟨_, hK, hsnd, _, hsub, _⟩ := hc
  obtain ⟨j, hj, hjc⟩ := List.any_eq_true.mp hany
  have hjc' := (isCompleted_iff s j).mp hjc
  have hsub' : s.semaphore ⊆ snapshot.erase j := by
    intro i hi
    have hij : i ≠ j := fun e => hnc i hi (e ▸ hjc')
    exact (List.mem_erase_of_ne hij).mpr (hsub i hi)
  have hle := (List.subperm_of_subset (List.nodup_append.mp hnd).1 hsub').length_le
  rw [List.length_erase_of_mem hj] at hle
  have hpos : 0 < snapshot.length := List.length_pos_of_mem hj
  omega

theorem poolInv_step {K n : Nat} (hK : 1 ≤ K) {s s' : PoolState} {e : PoolEvent}
    (h : PoolInv K n s) (hs : applyEvent K n s e = some s') : PoolInv K n s' := by
  cases e with
  | settle j ok =>
    simp only [applyEvent] at hs
    split at hs
    · rename_i hj
      cases hs
      exact poolInv_settle h ok hj
    · cases hs
  | resume =>
    simp only [applyEvent] at hs
    split at hs
    · rename_i hctl
      split at hs
      · rename_i hn
        split at hs
        · rename_i hfull
          cases hs
          obtain ⟨hle, hperm, hlen, _⟩ := h
          refine ⟨hle, hperm, hlen, ?_⟩
          show s.next < n ∧ s.semaphore.length ≤ K ∧ s.semaphore.Nodup ∧ s.semaphore ≠ [] ∧
            (∀ j ∈ s.semaphore, j ∈ s.semaphore) ∧
            (∀ j ∈ s.semaphore, j ∈ s.semaphore ∨ j ∈ s.completed.map Prod.fst)
          have hnd : (s.semaphore ++ s.completed.map Prod.fst).Nodup :=
            hperm.nodup_iff.mpr (List.nodup_range _)
          refine ⟨hn, hlen, (List.nodup_append.mp hnd).1, ?_, fun j hj => hj,
            fun j hj => Or.inl hj⟩
          intro hnil
          rw [hnil] at hfull
          simp at hfull
          omega
        · rename_i hfull
          cases hs
          exact poolInv_start h hn (by omega)
      · rename_i hn
        cases hs
        obtain ⟨hle, hperm, hlen, _⟩ := h
        refine ⟨hle, hperm, hlen, ?_⟩
        show s.next = n ∧ (∀ j ∈ s.semaphore, j ∈ s.semaphore) ∧
            (∀ j ∈ s.semaphore, j ∈ s.semaphore ∨ j ∈ s.completed.map Prod.fst)
        exact ⟨by omega, fun j hj => hj, fun j hj => Or.inl hj⟩
    · rename_i snapshot hctl
      split at hs
      · rename_i hany
        cases hs
        have hroom := pool_room_after_race h hctl hany
        have hn : s.next < n := by
          obtain ⟨_, _, _, hc⟩ := h
          rw [hctl] at hc
          exact hc.1
        exact poolInv_start h hn hroom
      · cases hs
    · rename_i snapshot hctl
      split at hs
      · rename_i hall
        cases hs
        have hnc := fun j (hj : j ∈ s.semaphore) => pool_not_completed h hj
        obtain ⟨hle, hperm, hlen, hc⟩ := h
        rw [hctl] at hc
        obtain ⟨hn, hsub, _⟩ := hc
        refine ⟨hle, hperm, hlen, ?_⟩
        show s.next = n ∧ s.semaphore = []
        refine ⟨hn, List.eq_nil_iff_forall_not_mem.mpr ?_⟩
        intro j hj
        exact hnc j hj ((isCompleted_iff s j).mp (List.all_eq_true.mp hall j (hsub j hj)))
      · cases hs
    · cases hs

theorem poolInv_run {K n : Nat} (hK : 1 ≤ K) (events : List PoolEvent) :
    ∀ s s' : PoolState, PoolInv K n s → runEvents K n s events = some s' → PoolInv K n s' := by
  induction events with
  | nil =>
    intro s s' h hs
    simp only [runEvents] at hs
    cases hs
    exact h
  | cons e es ih =>
    intro s s' h hs
    simp only [runEvents] at hs
    split at hs
    · rename_i t ht
      exact ih t s' (poolInv_step hK h ht) hs
    · cases hs

/-- A state that is not past the `return` has an event that can happen. -/
theorem pool_progress {K n : Nat} {s : PoolState} (h : PoolInv K n s)
    (hctl : s.control ≠ .returned) : ∃ e s', applyEvent K n s e = some s' := by
  cases hsem : s.semaphore with
  | cons j rest =>
    have hj : j ∈ s.semaphore := by
      rw [hsem]
      exact List.Mem.head _
    refine ⟨.settle j true, ?_⟩
    simp only [applyEvent, if_pos hj]
    exact ⟨_, rfl⟩
  | nil =>
    obtain ⟨_, _, _, hc⟩ := h
    cases hc0 : s.control with
    | check =>
      by_cases hn : s.next < n
      · by_cases hfull : s.semaphore.length ≥ K
        · exact ⟨.resume, by simp only [applyEvent, hc0, if_pos hn, if_pos hfull]; exact ⟨_, rfl⟩⟩
        · exact ⟨.resume, by simp only [applyEvent, hc0, if_pos hn, if_neg hfull]; exact ⟨_, rfl⟩⟩
      · exact ⟨.resume, by simp only [applyEvent, hc0, if_neg hn]; exact ⟨_, rfl⟩⟩
    | raceWait snapshot =>
      rw [hc0] at hc
      obtain ⟨_, _, _, hne, _, hcov⟩ := hc
      have hany : snapshot.any s.isCompleted = true := by
        obtain ⟨j, hj⟩ := List.exists_mem_of_ne_nil snapshot hne
        refine List.any_eq_true.mpr ⟨j, hj, (isCompleted_iff s j).mpr ?_⟩
        rcases hcov j hj with h1 | h1
        · rw [hsem] at h1
          exact absurd h1 (List.not_mem_nil _)
        · exact h1
      exact ⟨.resume, by simp only [applyEvent, hc0, if_pos hany]; exact ⟨_, rfl⟩⟩
    | allWait snapshot =>
      rw [hc0] at hc
      obtain ⟨_, _, hcov⟩ := hc
      have hall : snapshot.all s.isCompleted = true := by
        refine List.all_eq_true.mpr fun j hj => (isCompleted_iff s j).mpr ?_
        rcases hcov j hj with h1 | h1
        · rw [hsem] at h1
          exact absurd h1 (List.not_mem_nil _)
        · exact h1
      exact ⟨.resume, by simp only [applyEvent, hc0, if_pos hall]; exact ⟨_, rfl⟩⟩
    | returned => exact absurd hc0 hctl

/-- Every event lowers what is left to do. -/
theorem pool_measure_decreases {K n : Nat} {s s' : PoolState} {e : PoolEvent}
    (h : PoolInv K n s) (hs : applyEvent K n s e = some s') :
    poolMeasure n s' < poolMeasure n s := by
  cases e with
  | settle j ok =>
    simp only [applyEvent] at hs
    split at hs
    · rename_i hj
      cases hs
      have hlen := List.length_erase_of_mem hj
      have hpos : 0 < s.semaphore.length := List.length_pos_of_mem hj
      simp only [poolMeasure]
      omega
    · cases hs
  | resume =>
    simp only [applyEvent] at hs
    split at hs
    · rename_i hctl
      split at hs
      · rename_i hn
        split at hs
        · cases hs
          simp only [poolMeasure, hctl]
          omega
        · cases hs
          simp only [poolMeasure, hctl, PoolState.start, List.length_append, List.length_singleton]
          omega
      · cases hs
        simp only [poolMeasure, hctl]
        omega
    · rename_i snapshot hctl
      split at hs
      · cases hs
        have hn : s.next < n := by
          obtain ⟨_, _, _, hc⟩ := h
          rw [hctl] at hc
          exact hc.1
        simp only [poolMeasure, hctl, PoolState.start, List.length_append, List.length_singleton]
        omega
      · cases hs
    · rename_i snapshot hctl
      split at hs
      · cases hs
        simp only [poolMeasure, hctl]
        omega
      · cases hs
    · cases hs

/-- C20.  Bounded concurrency of the detail pass of `processProjectsWithDetails`:
for every ceiling `K` of at least one, every number `n` of stubs and every sequence of
events (the function running on, a task completing with or without details), in the
state reached the array holds at most `K` tasks; the tasks started are exactly those of
the first `next` stubs, each once, and each of them is either in the array or
completed, never both and never twice; the completion of any task of the array, with or
without details, takes it out of the array and frees one place; past the `return` every
one of the `n` stubs has had its task started and the array is empty; before the
`return` some event can always happen; and every event lowers a measure, so that the
function returns after finitely many events. -/
theorem bounded_concurrency (K n : Nat) (hK : 1 ≤ K) (events : List PoolEvent) (s : PoolState)
    (h : runEvents K n initialPool events = some s) :
    s.semaphore.length ≤ K ∧
    (s.semaphore ++ s.completed.map Prod.fst).Perm (List.range s.next) ∧ s.next ≤ n ∧
    (∀ j ∈ s.semaphore, ∀ ok, ∃ s', applyEvent K n s (.settle j ok) = some s' ∧
      j ∉ s'.semaphore ∧ s'.semaphore.length + 1 = s.semaphore.length ∧
      s'.isCompleted j = true) ∧
    (s.control = .returned → s.next = n ∧ s.semaphore = [] ∧
      (s.completed.map Prod.fst).Perm (List.range n)) ∧
    (s.control ≠ .returned → ∃ e s', applyEvent K n s e = some s') ∧
    (∀ e s', applyEvent K n s e = some s' → poolMeasure n s' < poolMeasure n s) := by
  have hinv := poolInv_run hK events initialPool s (poolInv_initial K n) h
  refine ⟨hinv.2.2.1, hinv.2.1, hinv.1, ?_, ?_, pool_progress hinv,
    fun e s' hs => pool_measure_decreases hinv hs⟩
  · intro j hj ok
    simp only [applyEvent, if_pos hj]
    refine ⟨_, rfl, ?_, ?_, ?_⟩
    · show j ∉ s.semaphore.erase j
      exact fun hmem => (List.Nodup.mem_erase_iff (List.nodup_append.mp (pool_nodup hinv)).1).mp hmem |>.1 rfl
    · show (s.semaphore.erase j).length + 1 = s.semaphore.length
      have hlen := List.length_erase_of_mem hj
      have hpos : 0 < s.semaphore.length := List.length_pos_of_mem hj
      omega
    · rw [isCompleted_iff]
      show j ∈ (s.completed ++ [(j, ok)]).map Prod.fst
      rw [List.map_append, List.mem_append]
      exact Or.inr (List.Mem.head _)
  · intro hret
    obtain ⟨_, hperm, _, hc⟩ := hinv
    rw [hret] at hc
    obtain ⟨hn, hnil⟩ := hc
    refine ⟨hn, hnil, ?_⟩
    rw [hnil, hn] at hperm
    exact hperm

/-- C20 at the ceiling 3 and ten stubs, in a run in which the tasks
complete out of order and three of them without details: the run ends past the
`return` with every task started and completed once, and the array never holds more
than three tasks. -/
theorem bounded_concurrency_witness :
    runEvents 3 10 initialPool tenProjectRun = some tenProjectEnd ∧
    tenProjectEnd.semaphore.length ≤ 3 ∧
    (tenProjectEnd.semaphore ++ tenProjectEnd.completed.map Prod.fst).Perm
      (List.range tenProjectEnd.next) ∧
    tenProjectEnd.next ≤ 10 ∧
    arrayLengths 3 10 tenProjectRun =
      [0, 1, 2, 3, 3, 2, 3, 3, 2, 3, 3, 2, 1, 2, 3, 3, 2, 3, 3, 2, 3, 3, 2, 3, 3, 2, 1, 0,
        0].map some :=
  have h := bounded_concurrency 3 10 (by decide) tenProjectRun tenProjectEnd (by decide)
  ⟨by decide, h.1, h.2.1, h.2.2.1, by decide⟩

/-! ## The upsert statement -/

theorem hasDoi_iff_mem {α : Type} (key : α → String) (rows : List (Row α)) (doi : String) :
    hasDoi key rows doi = true ↔ doi ∈ rows.map fun row => key row.columns := by
  unfold hasDoi
  rw [List.any_eq_true, List.mem_map]
  constructor
  · rintro ⟨row, hrow, h⟩
    exact ⟨row, hrow, eq_of_beq h⟩
  · rintro ⟨row, hrow, h⟩
    exact ⟨row, hrow, beq_iff_eq.mpr h⟩

/-- An update changes no DOI. -/
theorem updateRows_keys {α : Type} (key : α → String) (rows : List (Row α)) (record : α) :
    ((updateRows key rows record).map fun row => key row.columns) =
      rows.map fun row => key row.columns := by
  unfold updateRows
  rw [List.map_map]
  apply List.map_congr_left
  intro row _
  show key (if key row.columns = key record then { row with columns := record } else row).columns
    = key row.columns
  split
  · rename_i h
    exact h.symm
  · rfl

theorem upsertRows_covered {α : Type} (key : α → String) (rows : List (Row α)) (record : α)
    (h : key record ∈ rows.map fun row => key row.columns) :
    upsertRows key rows record = (updateRows key rows record, none) := by
  unfold upsertRows
  rw [if_pos ((hasDoi_iff_mem key rows _).mpr h)]

theorem upsertRows_fresh {α : Type} (key : α → String) (rows : List (Row α)) (record : α)
    (h : key record ∉ rows.map fun row => key row.columns) :
    upsertRows key rows record =
      (rows ++ [{ id := freshId rows, columns := record }], some (freshId rows)) := by
  unfold upsertRows
  rw [if_neg (fun hc => h ((hasDoi_iff_mem key rows _).mp hc))]

/-- The DOIs of a table after the statement: those it had, and that of the record. -/
theorem upsertRows_keys_mem {α : Type} (key : α → String) (rows : List (Row α)) (record : α)
    (doi : String) :
    (doi ∈ (upsertRows key rows record).1.map fun row => key row.columns) ↔
      (doi ∈ rows.map fun row => key row.columns) ∨ doi = key record := by
  by_cases h : key record ∈ rows.map fun row => key row.columns
  · rw [upsertRows_covered key rows record h]
    show (doi ∈ (updateRows key rows record).map fun row => key row.columns) ↔ _
    rw [updateRows_keys]
    constructor
    · exact Or.inl
    · rintro (h1 | h1)
      · exact h1
      · rw [h1]
        exact h
  · rw [upsertRows_fresh key rows record h]
    show (doi ∈ (rows ++ [({ id := freshId rows, columns := record } : Row α)]).map
      fun row => key row.columns) ↔ _
    rw [List.map_append, List.mem_append, List.map_singleton, List.mem_singleton]

/-- A row of a table after the statement either has the DOI and the columns of the
record, or is a row the table had, with another DOI. -/
theorem mem_upsertRows {α : Type} (key : α → String) (rows : List (Row α)) (record : α)
    (row : Row α) (hrow : row ∈ (upsertRows key rows record).1) :
    (key row.columns = key record ∧ row.columns = record) ∨
      (key row.columns ≠ key record ∧ row ∈ rows) := by
  by_cases h : key record ∈ rows.map fun row => key row.columns
  · rw [upsertRows_covered key rows record h] at hrow
    obtain ⟨old, hold, heq⟩ := List.mem_map.mp hrow
    by_cases hk : key old.columns = key record
    · rw [if_pos hk] at heq
      left
      rw [← heq]
      exact ⟨rfl, rfl⟩
    · rw [if_neg hk] at heq
      right
      rw [← heq]
      exact ⟨hk, hold⟩
  · rw [upsertRows_fresh key rows record h] at hrow
    rcases List.mem_append.mp hrow with h1 | h1
    · right
      refine ⟨?_, h1⟩
      intro hk
      exact h (List.mem_map.mpr ⟨row, h1, hk⟩)
    · left
      rw [List.mem_singleton.mp h1]
      exact ⟨rfl, rfl⟩

theorem upsertAll_cons {α : Type} (key : α → String) (rows : List (Row α)) (record : α)
    (records : List α) :
    upsertAll key rows (record :: records) =
      upsertAll key (upsertRows key rows record).1 records := rfl

theorem upsertAll_concat {α : Type} (key : α → String) (rows : List (Row α)) (records : List α)
    (record : α) :
    upsertAll key rows (records ++ [record]) =
      (upsertRows key (upsertAll key rows records) record).1 := by
  unfold upsertAll
  rw [List.foldl_append]
  rfl

/-- The DOIs of a table after the statement has run for a list of records. -/
theorem upsertAll_keys_mem {α : Type} (key : α → String) (records : List α) (doi : String) :
    ∀ rows : List (Row α),
      (doi ∈ (upsertAll key rows records).map fun row => key row.columns) ↔
        (doi ∈ rows.map fun row => key row.columns) ∨ ∃ record ∈ records, key record = doi := by
  induction records with
  | nil =>
    intro rows
    simp [upsertAll]
  | cons record records ih =>
    intro rows
    rw [upsertAll_cons, ih, upsertRows_keys_mem]
    constructor
    · rintro ((h | h) | ⟨r, hr, h⟩)
      · exact Or.inl h
      · exact Or.inr ⟨record, List.mem_cons_self _ _, h.symm⟩
      · exact Or.inr ⟨r, List.mem_cons_of_mem _ hr, h⟩
    · rintro (h | ⟨r, hr, h⟩)
      · exact Or.inl (Or.inl h)
      · rcases List.mem_cons.mp hr with h1 | h1
        · rw [h1] at h
          exact Or.inl (Or.inr h.symm)
        · exact Or.inr ⟨r, h1, h⟩

theorem lastWith_some {α : Type} (key : α → String) (doi : String) (records : List α) (x : α)
    (h : lastWith key doi records = some x) : x ∈ records ∧ key x = doi := by
  induction records with
  | nil => simp [lastWith] at h
  | cons record records ih =>
    rw [lastWith] at h
    cases hl : lastWith key doi records with
    | some later =>
      rw [hl] at h
      cases h
      obtain ⟨h1, h2⟩ := ih hl
      exact ⟨List.mem_cons_of_mem _ h1, h2⟩
    | none =>
      rw [hl] at h
      by_cases hk : key record = doi
      · rw [if_pos hk] at h
        cases h
        exact ⟨List.mem_cons_self _ _, hk⟩
      · rw [if_neg hk] at h
        cases h

theorem lastWith_of_mem {α : Type} (key : α → String) (records : List α) (x : α)
    (h : x ∈ records) : ∃ y, lastWith key (key x) records = some y := by
  induction records with
  | nil => exact absurd h (List.not_mem_nil _)
  | cons record records ih =>
    rw [lastWith]
    cases hl : lastWith key (key x) records with
    | some later => exact ⟨later, rfl⟩
    | none =>
      rcases List.mem_cons.mp h with h1 | h1
      · rw [h1]
        exact ⟨record, if_pos rfl⟩
      · obtain ⟨y, hy⟩ := ih h1
        rw [hl] at hy
        cases hy

theorem lastWith_concat {α : Type} (key : α → String) (doi : String) (records : List α)
    (record : α) :
    lastWith key doi (records ++ [record]) =
      if key record = doi then some record else lastWith key doi records := by
  induction records with
  | nil =>
    show (match lastWith key doi [] with
      | some later => some later
      | none => if key record = doi then some record else none) = _
    rfl
  | cons r records ih =>
    show (match lastWith key doi (records ++ [record]) with
      | some later => some later
      | none => if key r = doi then some r else none) = _
    rw [ih]
    by_cases hk : key record = doi
    · rw [if_pos hk, if_pos hk]
    · rw [if_neg hk, if_neg hk]
      rfl

/-- After the statement has run for a list of records, a row whose DOI is that of one
of them has the columns of the last of them with that DOI. -/
theorem upsertAll_last {α : Type} (key : α → String) (rows : List (Row α)) (records : List α) :
    ∀ row ∈ upsertAll key rows records, ∀ x,
      lastWith key (key row.columns) records = some x → row.columns = x := by
  induction records using List.reverseRecOn with
  | nil =>
    intro row _ x h
    simp [lastWith] at h
  | append_singleton records record ih =>
    intro row hrow x h
    rw [upsertAll_concat] at hrow
    rw [lastWith_concat] at h
    rcases mem_upsertRows key _ record row hrow with ⟨hk, hc⟩ | ⟨hk, hmem⟩
    · rw [if_pos hk.symm] at h
      cases h
      exact hc
    · rw [if_neg (fun e => hk e.symm)] at h
      exact ih row hmem x h

theorem settleRow_nil {α : Type} (key : α → String) (row : Row α) :
    settleRow key [] row = row := rfl

theorem settleRow_cons {α : Type} (key : α → String) (record : α) (records : List α)
    (row : Row α) :
    settleRow key records
        (if key row.columns = key record then { row with columns := record } else row) =
      settleRow key (record :: records) row := by
  by_cases hk : key row.columns = key record
  · rw [if_pos hk]
    unfold settleRow
    show (match lastWith key (key record) records with
      | some r => ({ id := row.id, columns := r } : Row α)
      | none => { id := row.id, columns := record }) =
      match (match lastWith key (key row.columns) records with
        | some later => some later
        | none => if key record = key row.columns then some record else none) with
      | some r => { row with columns := r }
      | none => row
    rw [hk]
    cases lastWith key (key record) records with
    | some later => rfl
    | none =>
      show _ = match (if key record = key record then some record else none) with
        | some r => { row with columns := r }
        | none => row
      rw [if_pos rfl]
  · rw [if_neg hk]
    unfold settleRow
    show _ = match (match lastWith key (key row.columns) records with
        | some later => some later
        | none => if key record = key row.columns then some record else none) with
      | some r => { row with columns := r }
      | none => row
    cases lastWith key (key row.columns) records with
    | some later => rfl
    | none =>
      show _ = match (if key record = key row.columns then some record else none) with
        | some r => { row with columns := r }
        | none => row
      rw [if_neg (fun e => hk e.symm)]

/-- When the table has the DOI of every record of a list, the statements only update:
each row ends with the columns of the last record with its DOI. -/
theorem upsertAll_covered {α : Type} (key : α → String) (records : List α) :
    ∀ rows : List (Row α), (∀ x ∈ records, key x ∈ rows.map fun row => key row.columns) →
      upsertAll key rows records = rows.map (settleRow key records) := by
  induction records with
  | nil =>
    intro rows _
    show rows = rows.map (settleRow key [])
    rw [List.map_congr_left (fun row _ => settleRow_nil key row), List.map_id']
  | cons record records ih =>
    intro rows h
    have hrec := h record (List.mem_cons_self _ _)
    rw [upsertAll_cons, upsertRows_covered key rows record hrec]
    show upsertAll key (updateRows key rows record) records = _
    rw [ih]
    · unfold updateRows
      rw [List.map_map]
      apply List.map_congr_left
      intro row _
      exact settleRow_cons key record records row
    · intro x hx
      rw [updateRows_keys]
      exact h x (List.mem_cons_of_mem _ hx)

/-- A table that has the DOI of every record of a list, each in a row with the columns
of the last record with that DOI, is left as it is by the statements. -/
theorem upsertAll_fixed {α : Type} (key : α → String) (records : List α) (rows : List (Row α))
    (hkeys : ∀ x ∈ records, key x ∈ rows.map fun row => key row.columns)
    (hlast : ∀ row ∈ rows, ∀ x, lastWith key (key row.columns) records = some x →
      row.columns = x) :
    upsertAll key rows records = rows := by
  rw [upsertAll_covered key records rows hkeys]
  have hid : ∀ row ∈ rows, settleRow key records row = row := by
    intro row hrow
    unfold settleRow
    cases hl : lastWith key (key row.columns) records with
    | some x =>
      show ({ row with columns := x } : Row α) = row
      rw [← hlast row hrow x hl]
    | none => rfl
  rw [List.map_congr_left hid, List.map_id']

/-- Running the statements of a list of records a second time changes nothing. -/
theorem upsertAll_twice {α : Type} (key : α → String) (rows : List (Row α)) (records : List α) :
    upsertAll key (upsertAll key rows records) records = upsertAll key rows records :=
  upsertAll_fixed key records _
    (fun x hx => (upsertAll_keys_mem key records (key x) rows).mpr (Or.inr ⟨x, hx, rfl⟩))
    (upsertAll_last key rows records)

/-- Running the statements of records that were all upserted before, in any order,
changes nothing when records with the same DOI are equal. -/
theorem upsertAll_reorder {α : Type} (key : α → String) (rows : List (Row α))
    (records again : List α) (hsub : ∀ y ∈ again, y ∈ records)
    (hsame : ∀ a ∈ records, ∀ b ∈ records, key a = key b → a = b) :
    upsertAll key (upsertAll key rows records) again = upsertAll key rows records := by
  apply upsertAll_fixed
  · intro y hy
    exact (upsertAll_keys_mem key records (key y) rows).mpr (Or.inr ⟨y, hsub y hy, rfl⟩)
  · intro row hrow y hl
    obtain ⟨hy, hk⟩ := lastWith_some key _ again y hl
    obtain ⟨z, hz⟩ := lastWith_of_mem key records y (hsub y hy)
    obtain ⟨hz1, hz2⟩ := lastWith_some key _ records z hz
    have hzy : z = y := hsame z hz1 y (hsub y hy) hz2
    rw [hk] at hz
    rw [upsertAll_last key rows records row hrow z hz, hzy]

/-- The statement keeps the DOIs of a table distinct, and leaves one row with the DOI
of the record. -/
theorem upsertRows_unique {α : Type} (key : α → String) (rows : List (Row α)) (record : α)
    (h : UniqueDoi key rows) :
    UniqueDoi key (upsertRows key rows record).1 ∧
      rowsWithDoi key (upsertRows key rows record).1 (key record) = 1 := by
  have hmem : key record ∈ (upsertRows key rows record).1.map fun row => key row.columns :=
    (upsertRows_keys_mem key rows record _).mpr (Or.inr rfl)
  have hu : UniqueDoi key (upsertRows key rows record).1 := by
    by_cases hk : key record ∈ rows.map fun row => key row.columns
    · rw [upsertRows_covered key rows record hk]
      show ((updateRows key rows record).map fun row => key row.columns).Nodup
      rw [updateRows_keys]
      exact h
    · rw [upsertRows_fresh key rows record hk]
      show ((rows ++ [({ id := freshId rows, columns := record } : Row α)]).map
        fun row => key row.columns).Nodup
      rw [List.map_append, List.map_singleton]
      refine List.Nodup.append h (List.nodup_singleton _) ?_
      intro doi h1 h2
      rw [List.mem_singleton.mp h2] at h1
      exact hk h1
  exact ⟨hu, List.count_eq_one_of_mem hu hmem⟩

/-! ## The DOI of a detail record -/

theorem dispatchLabel_doi (details : ProjectDetails) (label : String) (value : List Node) :
    (dispatchLabel details label value).doi = details.doi := by
  unfold dispatchLabel
  split <;> rfl

theorem foldl_processLabelRow_doi (rows : List Node) :
    ∀ details : ProjectDetails, (rows.foldl processLabelRow details).doi = details.doi := by
  induction rows with
  | nil => intro details; rfl
  | cons row rows ih =>
    intro details
    rw [List.foldl_cons, ih (processLabelRow details row)]
    unfold processLabelRow
    simp only
    split
    · exact dispatchLabel_doi _ _ _
    · rfl

theorem processTable_doi (st : TableState) (t : Node) :
    (processTable st t).details.doi = st.details.doi := by
  unfold processTable
  simp only
  split
  · rfl
  · exact foldl_processLabelRow_doi _ _

theorem foldl_processTable_doi (tables : List Node) :
    ∀ st : TableState, (tables.foldl processTable st).details.doi = st.details.doi := by
  induction tables with
  | nil => intro st; rfl
  | cons t tables ih =>
    intro st
    rw [List.foldl_cons]
    exact (ih (processTable st t)).trans (processTable_doi st t)

theorem processTables_doi (page : List Node) (details : ProjectDetails) :
    (processTables page details).doi = details.doi := by
  unfold processTables
  have h := foldl_processTable_doi (selectList isTable page)
    { details := details, dataTypes := [] }
  simp only
  split
  · exact h
  · exact h

/-- The record of a page has the DOI it was started with. -/
theorem parseDetails_doi (ops : NumberOps) (doi : String) (response : DetailResponse)
    (datacite : Option String) : (parseDetails ops doi response datacite).doi = doi := by
  unfold parseDetails
  have h1 : ∀ d : ProjectDetails, (withDatacite datacite d).doi = d.doi := by
    intro d
    unfold withDatacite
    split <;> rfl
  have h2 : ∀ (l : List Download) (d : ProjectDetails), (withDownloads l d).doi = d.doi := by
    intro l d
    unfold withDownloads
    split <;> rfl
  have h3 : ∀ d : ProjectDetails, (withViewer response.document d).doi = d.doi := by
    intro d
    unfold withViewer
    split <;> rfl
  rw [h1, processTables_doi, h2]
  show (withViewer response.document (initialDetails doi)).doi = doi
  rw [h3]
  rfl

/-- The record `fetchProjectDetails` gives for a stub has the DOI of the stub. -/
theorem fetchProjectDetails_doi (ops : NumberOps) (net : Network) (project : ProjectStub)
    (details : ProjectDetails) (h : fetchProjectDetails ops net project = some details) :
    details.doi = project.doi := by
  unfold fetchProjectDetails at h
  split at h
  · cases h
  · split at h
    · cases h
    · split at h
      · cases h
      · cases h
        exact parseDetails_doi _ _ _ _
/-! ## The orchestrator on a connection -/

theorem upsertProject_covered (db : Database) (project : ProjectStub)
    (h : project.doi ∈ db.heritage_projects.map fun row => row.columns.doi)
    (h0 : db.lastInsertRowid = 0) :
    upsertProject db project =
      ({ db with heritage_projects := updateRows ProjectStub.doi db.heritage_projects project,
                 lastInsertRowid := 0 },
        { changes := 1, lastID := 0 }) := by
  unfold upsertProject
  simp only [upsertRows_covered ProjectStub.doi db.heritage_projects project h,
    Option.getD_none, h0]

theorem upsertProjectDetails_covered (db : Database) (details : ProjectDetails)
    (h : details.doi ∈ db.project_details.map fun row => row.columns.doi)
    (h0 : db.lastInsertRowid = 0) :
    upsertProjectDetails db details =
      ({ db with project_details := updateRows ProjectDetails.doi db.project_details details,
                 lastInsertRowid := 0 },
        { changes := 1, lastID := 0 }) := by
  unfold upsertProjectDetails
  simp only [upsertRows_covered ProjectDetails.doi db.project_details details h,
    Option.getD_none, h0]

/-- The first loop runs the stub statement for each stub in the order of the listing,
and leaves the details table as it is. -/
theorem pass1_tables (projects : List ProjectStub) :
    ∀ st : Database × Counts,
      (projects.foldl (processProject sqliteStore) st).1.heritage_projects =
          upsertAll ProjectStub.doi st.1.heritage_projects projects ∧
      (projects.foldl (processProject sqliteStore) st).1.project_details =
          st.1.project_details := by
  induction projects with
  | nil => intro st; exact ⟨rfl, rfl⟩
  | cons p ps ih =>
    intro st
    rw [List.foldl_cons]
    obtain ⟨h1, h2⟩ := ih (processProject sqliteStore st p)
    rw [h1, h2]
    exact ⟨rfl, rfl⟩

/-- On a new connection to a file that has the DOI of every stub, the first loop
inserts nothing and counts every stub as updated. -/
theorem pass1_covered (projects : List ProjectStub) :
    ∀ st : Database × Counts,
      (∀ p ∈ projects, p.doi ∈ st.1.heritage_projects.map fun row => row.columns.doi) →
      st.1.lastInsertRowid = 0 →
      (projects.foldl (processProject sqliteStore) st).1.lastInsertRowid = 0 ∧
      (projects.foldl (processProject sqliteStore) st).2 =
        { st.2 with updatedProjects := st.2.updatedProjects + projects.length } := by
  induction projects with
  | nil => intro st _ h0; exact ⟨h0, rfl⟩
  | cons p ps ih =>
    intro st hk h0
    rw [List.foldl_cons]
    have hstep : processProject sqliteStore st p =
        (({ st.1 with heritage_projects := updateRows ProjectStub.doi st.1.heritage_projects p,
                      lastInsertRowid := 0 } : Database),
          { st.2 with updatedProjects := st.2.updatedProjects + 1 }) := by
      show ((upsertProject st.1 p).1, countProject st.2 (upsertProject st.1 p).2) = _
      rw [upsertProject_covered st.1 p (hk p (List.mem_cons_self _ _)) h0]
      rfl
    rw [hstep]
    have hk2 : ∀ q ∈ ps, q.doi ∈
        (updateRows ProjectStub.doi st.1.heritage_projects p).map fun row => row.columns.doi := by
      intro q hq
      rw [updateRows_keys ProjectStub.doi]
      exact hk q (List.mem_cons_of_mem _ hq)
    obtain ⟨h1, h2⟩ := ih
      (({ st.1 with heritage_projects := updateRows ProjectStub.doi st.1.heritage_projects p,
                    lastInsertRowid := 0 } : Database),
        { st.2 with updatedProjects := st.2.updatedProjects + 1 }) hk2 rfl
    refine ⟨h1, ?_⟩
    rw [h2]
    show ({ newProjects := st.2.newProjects
            updatedProjects := st.2.updatedProjects + 1 + ps.length
            newDetails := st.2.newDetails
            updatedDetails := st.2.updatedDetails } : Counts) =
      { newProjects := st.2.newProjects
        updatedProjects := st.2.updatedProjects + (ps.length + 1)
        newDetails := st.2.newDetails
        updatedDetails := st.2.updatedDetails }
    rw [Nat.add_assoc, Nat.add_comm 1]

theorem processDetails_none (ops : NumberOps) (net : Network) (st : Database × Counts)
    (p : ProjectStub) (h : fetchProjectDetails ops net p = none) :
    processDetails ops net sqliteStore st p = st := by
  unfold processDetails
  rw [h]

theorem processDetails_some (ops : NumberOps) (net : Network) (st : Database × Counts)
    (p : ProjectStub) (d : ProjectDetails) (h : fetchProjectDetails ops net p = some d) :
    processDetails ops net sqliteStore st p =
      ((upsertProjectDetails st.1 d).1, countDetails st.2 (upsertProjectDetails st.1 d).2) := by
  unfold processDetails
  rw [h]
  rfl

/-- The detail tasks run the details statement for each record fetched, in the order in
which they reach the database, and leave the stub table as it is. -/
theorem pass2_tables (ops : NumberOps) (net : Network) (order : List ProjectStub) :
    ∀ st : Database × Counts,
      (order.foldl (processDetails ops net sqliteStore) st).1.project_details =
          upsertAll ProjectDetails.doi st.1.project_details
            (order.filterMap (fetchProjectDetails ops net)) ∧
      (order.foldl (processDetails ops net sqliteStore) st).1.heritage_projects =
          st.1.heritage_projects := by
  induction order with
  | nil => intro st; exact ⟨rfl, rfl⟩
  | cons p ps ih =>
    intro st
    rw [List.foldl_cons]
    obtain ⟨h1, h2⟩ := ih (processDetails ops net sqliteStore st p)
    rw [h1, h2]
    cases h : fetchProjectDetails ops net p with
    | none =>
      rw [processDetails_none ops net st p h, List.filterMap_cons_none h]
      exact ⟨rfl, rfl⟩
    | some d =>
      rw [processDetails_some ops net st p d h, List.filterMap_cons_some h]
      exact ⟨rfl, rfl⟩

/-- On a connection that has inserted nothing, to a file that has the DOI of every
record fetched, the detail tasks insert nothing and count every record as updated. -/
theorem pass2_covered (ops : NumberOps) (net : Network) (order : List ProjectStub) :
    ∀ st : Database × Counts,
      (∀ d ∈ order.filterMap (fetchProjectDetails ops net),
        d.doi ∈ st.1.project_details.map fun row => row.columns.doi) →
      st.1.lastInsertRowid = 0 →
      (order.foldl (processDetails ops net sqliteStore) st).2 =
        { st.2 with updatedDetails := st.2.updatedDetails +
            (order.filterMap (fetchProjectDetails ops net)).length } := by
  induction order with
  | nil => intro st _ _; rfl
  | cons p ps ih =>
    intro st hk h0
    rw [List.foldl_cons]
    cases h : fetchProjectDetails ops net p with
    | none =>
      rw [List.filterMap_cons_none h] at hk ⊢
      rw [processDetails_none ops net st p h]
      exact ih st hk h0
    | some d =>
      rw [List.filterMap_cons_some h] at hk ⊢
      have hstep : processDetails ops net sqliteStore st p =
          (({ st.1 with project_details := updateRows ProjectDetails.doi st.1.project_details d,
                        lastInsertRowid := 0 } : Database),
            { st.2 with updatedDetails := st.2.updatedDetails + 1 }) := by
        rw [processDetails_some ops net st p d h,
          upsertProjectDetails_covered st.1 d (hk d (List.mem_cons_self _ _)) h0]
        rfl
      rw [hstep]
      have hk2 : ∀ e ∈ ps.filterMap (fetchProjectDetails ops net), e.doi ∈
          (updateRows ProjectDetails.doi st.1.project_details d).map
            fun row => row.columns.doi := by
        intro e he
        rw [updateRows_keys ProjectDetails.doi]
        exact hk e (List.mem_cons_of_mem _ he)
      rw [ih
        (({ st.1 with project_details := updateRows ProjectDetails.doi st.1.project_details d,
                      lastInsertRowid := 0 } : Database),
          { st.2 with updatedDetails := st.2.updatedDetails + 1 }) hk2 rfl]
      show ({ newProjects := st.2.newProjects
              updatedProjects := st.2.updatedProjects
              newDetails := st.2.newDetails
              updatedDetails := st.2.updatedDetails + 1 +
                (ps.filterMap (fetchProjectDetails ops net)).length } : Counts) =
        { newProjects := st.2.newProjects
          updatedProjects := st.2.updatedProjects
          newDetails := st.2.newDetails
          updatedDetails := st.2.updatedDetails +
            ((ps.filterMap (fetchProjectDetails ops net)).length + 1) }
      rw [Nat.add_assoc, Nat.add_comm 1]

theorem main_of_stubs (ops : NumberOps) (net : Network) (listing : Option (List Node))
    (projects order : List ProjectStub) (file : Database)
    (hlist : fetchData listing = .ok projects) (hne : projects ≠ []) :
    main ops net listing order file =
      ((processProjectsWithDetails ops net sqliteStore (initializeDatabase file) projects
          order).1,
        some (processProjectsWithDetails ops net sqliteStore (initializeDatabase file) projects
          order).2) := by
  unfold main
  rw [hlist]
  simp only
  rw [if_neg]
  intro h
  exact hne (List.length_eq_zero.mp h)

theorem main_of_no_stub (ops : NumberOps) (net : Network) (listing : Option (List Node))
    (order : List ProjectStub) (file : Database) (hlist : fetchData listing = .ok []) :
    main ops net listing order file = (initializeDatabase file, none) := by
  unfold main
  rw [hlist]
  rfl

/-- The two tables after `processProjectsWithDetails` on a connection. -/
theorem run_tables (ops : NumberOps) (net : Network) (db : Database)
    (projects order : List ProjectStub) :
    (processProjectsWithDetails ops net sqliteStore db projects order).1.heritage_projects =
        upsertAll ProjectStub.doi db.heritage_projects projects ∧
    (processProjectsWithDetails ops net sqliteStore db projects order).1.project_details =
        upsertAll ProjectDetails.doi db.project_details
          (order.filterMap (fetchProjectDetails ops net)) := by
  unfold processProjectsWithDetails
  obtain ⟨h1, h2⟩ := pass2_tables ops net order
    (projects.foldl (processProject sqliteStore) (db, zeroCounts))
  obtain ⟨h3, h4⟩ := pass1_tables projects (db, zeroCounts)
  rw [h1, h2, h3, h4]
  exact ⟨rfl, rfl⟩

/-- The counts of `processProjectsWithDetails` on a new connection to a file that has
the DOI of every stub and of every record fetched. -/
theorem run_covered (ops : NumberOps) (net : Network) (db : Database)
    (projects order : List ProjectStub)
    (hp : ∀ p ∈ projects, p.doi ∈ db.heritage_projects.map fun row => row.columns.doi)
    (hd : ∀ d ∈ order.filterMap (fetchProjectDetails ops net),
      d.doi ∈ db.project_details.map fun row => row.columns.doi)
    (h0 : db.lastInsertRowid = 0) :
    (processProjectsWithDetails ops net sqliteStore db projects order).2 =
      { newProjects := 0
        updatedProjects := projects.length
        newDetails := 0
        updatedDetails := (order.filterMap (fetchProjectDetails ops net)).length } := by
  unfold processProjectsWithDetails
  obtain ⟨h1, h2⟩ := pass1_covered projects (db, zeroCounts) hp h0
  obtain ⟨_, h4⟩ := pass1_tables projects (db, zeroCounts)
  rw [pass2_covered ops net order _ (by rw [h4]; exact hd) h1, h2]
  simp only [zeroCounts, Nat.zero_add]

/-! ## Running the pipeline twice -/

/-- C19, as amended.  Idempotence of a re-run: for every listing, network and database file,
when the pipeline (`main`: a new connection, the listing parsed into stubs, the stub
statement for every stub in the order of the listing, the details statement for every
record fetched, in any order of arrival) is run twice on the same listing and pages,
the second run leaves the stub table as the first run left it; it leaves the details
table as the first run left it when stubs that share a DOI have the same detail
record; and when the listing has a stub it reports no new stub and no new details,
every stub and every record fetched being counted as updated.  Moreover, running
the statement of a record twice gives the table that running it once gives, with
exactly one row for the DOI of the record when every DOI of the table was in one row
at most. -/
theorem rerun_idempotent (ops : NumberOps) (net : Network) (listing : Option (List Node))
    (projects first second : List ProjectStub) (file : Database)
    (hlist : fetchData listing = .ok projects)
    (hfirst : first.Perm projects) (hsecond : second.Perm projects) :
    (main ops net listing second (main ops net listing first file).1).1.heritage_projects =
        (main ops net listing first file).1.heritage_projects ∧
    ((∀ a ∈ projects, ∀ b ∈ projects, a.doi = b.doi → ∀ da db,
        fetchProjectDetails ops net a = some da → fetchProjectDetails ops net b = some db →
          da = db) →
      (main ops net listing second (main ops net listing first file).1).1.project_details =
        (main ops net listing first file).1.project_details) ∧
    (projects ≠ [] →
      (main ops net listing second (main ops net listing first file).1).2 =
        some { newProjects := 0
               updatedProjects := projects.length
               newDetails := 0
               updatedDetails := (projects.filterMap (fetchProjectDetails ops net)).length }) ∧
    (∀ (db : Database) (project : ProjectStub),
      (upsertProject (upsertProject db project).1 project).1.heritage_projects =
          (upsertProject db project).1.heritage_projects ∧
      (UniqueDoi ProjectStub.doi db.heritage_projects →
        rowsWithDoi ProjectStub.doi
          (upsertProject (upsertProject db project).1 project).1.heritage_projects
          project.doi = 1)) ∧
    (∀ (db : Database) (details : ProjectDetails),
      (upsertProjectDetails (upsertProjectDetails db details).1 details).1.project_details =
          (upsertProjectDetails db details).1.project_details ∧
      (UniqueDoi ProjectDetails.doi db.project_details →
        rowsWithDoi ProjectDetails.doi
          (upsertProjectDetails (upsertProjectDetails db details).1 details).1.project_details
          details.doi = 1)) := by
  have hproject : ∀ (db : Database) (project : ProjectStub),
      (upsertProject (upsertProject db project).1 project).1.heritage_projects =
          (upsertProject db project).1.heritage_projects ∧
      (UniqueDoi ProjectStub.doi db.heritage_projects →
        rowsWithDoi ProjectStub.doi
          (upsertProject (upsertProject db project).1 project).1.heritage_projects
          project.doi = 1) := by
    intro db project
    have h1 := upsertAll_twice ProjectStub.doi db.heritage_projects [project]
    have h2 : (upsertProject (upsertProject db project).1 project).1.heritage_projects =
        (upsertProject db project).1.heritage_projects := h1
    refine ⟨h2, fun hu => ?_⟩
    rw [h2]
    exact (upsertRows_unique ProjectStub.doi db.heritage_projects project hu).2
  have hdetails : ∀ (db : Database) (details : ProjectDetails),
      (upsertProjectDetails (upsertProjectDetails db details).1 details).1.project_details =
          (upsertProjectDetails db details).1.project_details ∧
      (UniqueDoi ProjectDetails.doi db.project_details →
        rowsWithDoi ProjectDetails.doi
          (upsertProjectDetails (upsertProjectDetails db details).1 details).1.project_details
          details.doi = 1) := by
    intro db details
    have h1 := upsertAll_twice ProjectDetails.doi db.project_details [details]
    have h2 : (upsertProjectDetails (upsertProjectDetails db details).1 details).1.project_details
        = (upsertProjectDetails db details).1.project_details := h1
    refine ⟨h2, fun hu => ?_⟩
    rw [h2]
    exact (upsertRows_unique ProjectDetails.doi db.project_details details hu).2
  by_cases hne : projects = []
  · rw [hne] at hlist
    rw [main_of_no_stub ops net listing first file hlist,
      main_of_no_stub ops net listing second _ hlist]
    exact ⟨rfl, fun _ => rfl, fun h => absurd hne h, hproject, hdetails⟩
  · rw [main_of_stubs ops net listing projects first file hlist hne,
      main_of_stubs ops net listing projects second _ hlist hne]
    obtain ⟨a1, a2⟩ := run_tables ops net (initializeDatabase file) projects first
    have hmem1 : ∀ d ∈ first.filterMap (fetchProjectDetails ops net),
        ∃ p ∈ projects, fetchProjectDetails ops net p = some d := by
      intro d hd
      obtain ⟨p, hp, hpd⟩ := List.mem_filterMap.mp hd
      exact ⟨p, hfirst.subset hp, hpd⟩
    have hsub : ∀ d ∈ second.filterMap (fetchProjectDetails ops net),
        d ∈ first.filterMap (fetchProjectDetails ops net) := by
      intro d hd
      exact ((hsecond.trans hfirst.symm).filterMap _).subset hd
    obtain ⟨b1, b2⟩ := run_tables ops net
      (initializeDatabase
        (processProjectsWithDetails ops net sqliteStore (initializeDatabase file) projects
          first).1) projects second
    have c1 : (processProjectsWithDetails ops net sqliteStore
        (initializeDatabase
          (processProjectsWithDetails ops net sqliteStore (initializeDatabase file) projects
            first).1) projects second).1.heritage_projects =
        (processProjectsWithDetails ops net sqliteStore (initializeDatabase file) projects
          first).1.heritage_projects := by
      rw [b1]
      show upsertAll ProjectStub.doi
        (processProjectsWithDetails ops net sqliteStore (initializeDatabase file) projects
          first).1.heritage_projects projects = _
      rw [a1]
      exact upsertAll_twice _ _ _
    have c2 : (∀ a ∈ projects, ∀ b ∈ projects, a.doi = b.doi → ∀ da db,
        fetchProjectDetails ops net a = some da → fetchProjectDetails ops net b = some db →
          da = db) →
        (processProjectsWithDetails ops net sqliteStore
        (initializeDatabase
          (processProjectsWithDetails ops net sqliteStore (initializeDatabase file) projects
            first).1) projects second).1.project_details =
        (processProjectsWithDetails ops net sqliteStore (initializeDatabase file) projects
          first).1.project_details := by
      intro hsame
      have hrec : ∀ a ∈ first.filterMap (fetchProjectDetails ops net),
          ∀ b ∈ first.filterMap (fetchProjectDetails ops net), a.doi = b.doi → a = b := by
        intro a ha b hb hab
        obtain ⟨pa, hpa, hfa⟩ := hmem1 a ha
        obtain ⟨pb, hpb, hfb⟩ := hmem1 b hb
        have hdoi : pa.doi = pb.doi := by
          rw [← fetchProjectDetails_doi ops net pa a hfa, ← fetchProjectDetails_doi ops net pb b hfb]
          exact hab
        exact hsame pa hpa pb hpb hdoi a b hfa hfb
      rw [b2]
      show upsertAll ProjectDetails.doi
        (processProjectsWithDetails ops net sqliteStore (initializeDatabase file) projects
          first).1.project_details _ = _
      rw [a2]
      exact upsertAll_reorder _ _ _ _ hsub hrec
    refine ⟨c1, c2, fun _ => ?_, hproject, hdetails⟩
    rw [run_covered ops net _ projects second ?_ ?_ rfl]
    · rw [(hsecond.filterMap (fetchProjectDetails ops net)).length_eq]
    · intro p hp
      show p.doi ∈ (processProjectsWithDetails ops net sqliteStore (initializeDatabase file)
        projects first).1.heritage_projects.map fun row => row.columns.doi
      rw [a1]
      exact (upsertAll_keys_mem ProjectStub.doi projects p.doi _).mpr (Or.inr ⟨p, hp, rfl⟩)
    · intro d hd
      show d.doi ∈ (processProjectsWithDetails ops net sqliteStore (initializeDatabase file)
        projects first).1.project_details.map fun row => row.columns.doi
      rw [a2]
      exact (upsertAll_keys_mem ProjectDetails.doi _ d.doi _).mpr
        (Or.inr ⟨d, hsub d hd, rfl⟩)

/-- C19 at a listing of two stubs with different DOIs, one of them with a
detail page, run twice on an empty file, the detail tasks in another order the second
time: the second run counts two stubs and one record as updated and none as new, and
leaves both tables as they were. -/
theorem rerun_idempotent_witness :
    fetchData plainListing = .ok plainStubs ∧
    (main exactOps twoPageNetwork plainListing plainStubs.reverse
        (main exactOps twoPageNetwork plainListing plainStubs emptyDatabase).1).2 =
      some { newProjects := 0, updatedProjects := 2, newDetails := 0, updatedDetails := 1 } ∧
    (main exactOps twoPageNetwork plainListing plainStubs.reverse
        (main exactOps twoPageNetwork plainListing plainStubs emptyDatabase).1).1.project_details =
      (main exactOps twoPageNetwork plainListing plainStubs emptyDatabase).1.project_details ∧
    (main exactOps twoPageNetwork plainListing plainStubs.reverse
        (main exactOps twoPageNetwork plainListing plainStubs emptyDatabase).1).1.heritage_projects =
      (main exactOps twoPageNetwork plainListing plainStubs emptyDatabase).1.heritage_projects :=
  have hlist : fetchData plainListing = .ok plainStubs := congrArg Except.ok (by decide)
  have h := rerun_idempotent exactOps twoPageNetwork plainListing plainStubs plainStubs
    plainStubs.reverse emptyDatabase hlist (List.Perm.refl _) (List.Perm.swap _ _ _)
  have hsame : ∀ a ∈ plainStubs, ∀ b ∈ plainStubs, a.doi = b.doi → ∀ da db,
      fetchProjectDetails exactOps twoPageNetwork a = some da →
      fetchProjectDetails exactOps twoPageNetwork b = some db → da = db := by
      intro a ha b hb hab da db h1 h2
      have ha2 : a = siteAStub ∨ a = linkedStub "Site B" "b" "10.1/xyz" := by
        simpa [plainStubs] using ha
      have hb2 : b = siteAStub ∨ b = linkedStub "Site B" "b" "10.1/xyz" := by
        simpa [plainStubs] using hb
      rcases ha2 with e1 | e1 <;> rcases hb2 with e2 | e2 <;> subst e1 <;> subst e2
      · exact Option.some.inj (h1.symm.trans h2)
      · exact absurd hab (by decide)
      · exact absurd hab (by decide)
      · exact Option.some.inj (h1.symm.trans h2)
  ⟨hlist, h.2.2.1 (by decide), h.2.1 hsame, h.1⟩

/-- C19 as stated fails: two stubs of the listing share the DOI `10.1/abc` and
link to the pages `a` and `b`.  In the first run the page `a` arrives first and the
details row ends with the viewer of `b`; in the second run, on the same listing and
pages, the page `b` arrives first and the row ends with the viewer of `a`. -/
theorem shared_doi_rerun_differs :
    fetchData sharedDoiListing = .ok sharedDoiStubs ∧
    sharedDoiFirstRun.1.project_details.map
        (fun row => (row.columns.doi, row.columns.point_cloud_iframe)) =
      [("10.1/abc", some "viewer-b")] ∧
    sharedDoiSecondRun.1.project_details.map
        (fun row => (row.columns.doi, row.columns.point_cloud_iframe)) =
      [("10.1/abc", some "viewer-a")] ∧
    sharedDoiSecondRun.2 =
      some { newProjects := 0, updatedProjects := 2, newDetails := 0, updatedDetails := 2 } :=
  ⟨congrArg Except.ok (by decide), by decide, by decide, by decide⟩

/-! ## Site authority -/

theorem mem_dropWhile_of_not (p : Char → Bool) (c : Char) (hp : p c = false) :
    ∀ l : List Char, c ∈ l → c ∈ l.dropWhile p := by
  intro l
  induction l with
  | nil => intro h; exact h
  | cons a t ih =>
    intro h
    rw [List.dropWhile_cons]
    by_cases ha : p a = true
    · rw [if_pos ha]
      rcases List.mem_cons.mp h with h1 | h1
      · rw [h1, ha] at hp
        cases hp
      · exact ih h1
    · rw [if_neg ha]
      exact h

/-- Trimming keeps every character that is no whitespace. -/
theorem mem_trimChars (l : List Char) (c : Char) (hc : c ∈ l)
    (hw : isJsWhitespace c = false) : c ∈ trimChars l := by
  unfold trimChars
  rw [List.mem_reverse]
  apply mem_dropWhile_of_not _ _ hw
  rw [List.mem_reverse]
  exact mem_dropWhile_of_not _ _ hw l hc

/-- Trimming adds no character. -/
theorem mem_of_mem_trimChars (l : List Char) (c : Char) (hc : c ∈ trimChars l) : c ∈ l := by
  unfold trimChars at hc
  rw [List.mem_reverse] at hc
  have h1 := List.dropWhile_subset isJsWhitespace hc
  rw [List.mem_reverse] at h1
  exact List.dropWhile_subset isJsWhitespace h1

/-- A character that is not the separator is in one of the pieces of the split. -/
theorem mem_splitChars (sep c : Char) (hsep : c ≠ sep) :
    ∀ l : List Char, c ∈ l → ∃ p ∈ splitChars sep l, c ∈ p := by
  intro l
  induction l with
  | nil => intro h; exact absurd h (List.not_mem_nil _)
  | cons a t ih =>
    intro h
    by_cases ha : a = sep
    · have hs : splitChars sep (a :: t) = [] :: splitChars sep t := by
        rw [splitChars, if_pos ha]
      rw [hs]
      rcases List.mem_cons.mp h with h1 | h1
      · exact absurd (h1.trans ha) hsep
      · obtain ⟨p, hp, hcp⟩ := ih h1
        exact ⟨p, List.mem_cons_of_mem _ hp, hcp⟩
    · cases hst : splitChars sep t with
      | nil =>
        have hs : splitChars sep (a :: t) = [[a]] := by
          rw [splitChars, if_neg ha, hst]
        rw [hs]
        rcases List.mem_cons.mp h with h1 | h1
        · exact ⟨[a], List.mem_cons_self _ _, by rw [h1]; exact List.mem_cons_self _ _⟩
        · obtain ⟨p, hp, _⟩ := ih h1
          rw [hst] at hp
          exact absurd hp (List.not_mem_nil _)
      | cons q qs =>
        have hs : splitChars sep (a :: t) = (a :: q) :: qs := by
          rw [splitChars, if_neg ha, hst]
        rw [hs]
        rcases List.mem_cons.mp h with h1 | h1
        · exact ⟨a :: q, List.mem_cons_self _ _, by rw [h1]; exact List.mem_cons_self _ _⟩
        · obtain ⟨p, hp, hcp⟩ := ih h1
          rw [hst] at hp
          rcases List.mem_cons.mp hp with h2 | h2
          · exact ⟨a :: q, List.mem_cons_self _ _, List.mem_cons_of_mem _ (h2 ▸ hcp)⟩
          · exact ⟨p, List.mem_cons_of_mem _ h2, hcp⟩

theorem not_commaOrBlank (c : Char) (h : isCommaOrBlank c = false) :
    c ≠ ',' ∧ isJsWhitespace c = false := by
  unfold isCommaOrBlank at h
  rw [Bool.or_eq_false_iff] at h
  exact ⟨fun e => by rw [e] at h; exact absurd h.1 (by decide), h.2⟩

/-- A fragment whose text has a character other than commas and whitespace has an
entity. -/
theorem extractEntities_ne_nil (cell : List Node) (c : Char)
    (hc : c ∈ (textContent cell).data) (hk : isCommaOrBlank c = false) :
    extractEntities cell ≠ [] := by
  obtain ⟨hcomma, hws⟩ := not_commaOrBlank c hk
  unfold extractEntities
  simp only
  by_cases hlen : ((selectList isAnchor cell).foldl pushAnchor []).length = 0
  · rw [if_pos hlen]
    have hct : c ∈ (jsTrim (textContent cell)).data := mem_trimChars _ c hc hws
    have hne : jsTrim (textContent cell) ≠ "" := by
      intro he
      rw [he] at hct
      exact absurd hct (List.not_mem_nil _)
    rw [if_pos hne, foldl_push_map]
    obtain ⟨p, hp, hcp⟩ := mem_splitChars ',' c hcomma _ hct
    have hname : jsTrim (String.mk p) ∈
        ((jsSplit ',' (jsTrim (textContent cell))).map jsTrim).filter (fun n => n ≠ "") := by
      rw [List.mem_filter]
      refine ⟨List.mem_map.mpr ⟨String.mk p, List.mem_map.mpr ⟨p, hp, rfl⟩, rfl⟩, ?_⟩
      have hin : c ∈ (jsTrim (String.mk p)).data := mem_trimChars p c hcp hws
      have hnp : jsTrim (String.mk p) ≠ "" := by
        intro he
        rw [he] at hin
        exact absurd hin (List.not_mem_nil _)
      exact decide_eq_true hnp
    intro hnil
    have hmap := (List.append_eq_nil.mp hnil).2
    rw [List.map_eq_nil_iff] at hmap
    rw [hmap] at hname
    exact absurd hname (List.not_mem_nil _)
  · rw [if_neg hlen]
    intro hnil
    rw [hnil] at hlen
    exact hlen rfl

theorem siteAuthority_of_entities (value : List Node) (h : extractEntities value ≠ []) :
    siteAuthority value = stringifyEntities (extractEntities value) := by
  unfold siteAuthority
  simp only
  rw [if_pos (List.length_pos.mpr h)]

theorem siteAuthority_of_none (value : List Node) (h : extractEntities value = []) :
    siteAuthority value = jsTrim (textContent value) := by
  unfold siteAuthority
  simp only
  rw [h]
  rfl

/-- C23.  On a site-authority row the field `site_authority` is what `siteAuthority`
makes of the value cell.  When the text of the cell has a character other than commas
and whitespace, the entity list is not empty and the field is its serialisation.  The
field is the trimmed text of the cell only when the entity list is empty, and then
every character of the cell's text, hence of the stored text, is a comma or
whitespace: the stored free text carries no name.  A cell with a name gives the
serialised entity, and a cell of commas and blanks gives the trimmed text. -/
theorem site_authority_representation :
    (∀ (details : ProjectDetails) (value : List Node),
      (dispatchLabel details "siteauthority" value).site_authority =
        some (siteAuthority value)) ∧
    (∀ value : List Node, (∃ c ∈ (textContent value).data, isCommaOrBlank c = false) →
      extractEntities value ≠ [] ∧
      siteAuthority value = stringifyEntities (extractEntities value)) ∧
    (∀ value : List Node, extractEntities value ≠ [] →
      siteAuthority value = stringifyEntities (extractEntities value)) ∧
    (∀ value : List Node, extractEntities value = [] →
      siteAuthority value = jsTrim (textContent value) ∧
      (∀ c ∈ (textContent value).data, isCommaOrBlank c = true) ∧
      (∀ c ∈ (siteAuthority value).data, isCommaOrBlank c = true)) ∧
    (processLabelRow (initialDetails "10.1/abc")
        (authorityRow [.text " Ministry of Culture, Heritage Board "])).site_authority =
      some ("[\x7b\"name\":\"Ministry of Culture\",\"link\":null\x7d," ++
        "\x7b\"name\":\"Heritage Board\",\"link\":null\x7d]") ∧
    (processLabelRow (initialDetails "10.1/abc") (authorityRow [.text " , ,  "])).site_authority =
      some ", ," := by
  have hblank : ∀ value : List Node, extractEntities value = [] →
      ∀ c ∈ (textContent value).data, isCommaOrBlank c = true := by
    intro value hnil c hc
    by_contra hk
    exact extractEntities_ne_nil value c hc (Bool.eq_false_iff.mpr hk) hnil
  refine ⟨fun _ _ => rfl, ?_, siteAuthority_of_entities, ?_, by decide, by decide⟩
  · rintro value ⟨c, hc, hk⟩
    have hne := extractEntities_ne_nil value c hc hk
    exact ⟨hne, siteAuthority_of_entities value hne⟩
  · intro value hnil
    refine ⟨siteAuthority_of_none value hnil, hblank value hnil, ?_⟩
    rw [siteAuthority_of_none value hnil]
    intro c hc
    exact hblank value hnil c (mem_of_mem_trimChars _ c hc)

/-! ## Counting and failure isolation -/

theorem processProject_of_ok {σ : Type} (store : Store σ) (st : σ × Counts)
    (project : ProjectStub) (db : σ) (result : RunResult)
    (h : store.upsertProject st.1 project = .ok (db, result)) :
    processProject store st project = (db, countProject st.2 result) := by
  unfold processProject
  rw [h]

theorem processProject_of_error {σ : Type} (store : Store σ) (st : σ × Counts)
    (project : ProjectStub) (e : String) (h : store.upsertProject st.1 project = .error e) :
    processProject store st project = st := by
  unfold processProject
  rw [h]

theorem countProject_new (counts : Counts) (result : RunResult) (hc : result.changes > 0)
    (hl : result.lastID > 0) :
    countProject counts result = { counts with newProjects := counts.newProjects + 1 } := by
  unfold countProject
  rw [if_pos hc, if_pos hl]

theorem countProject_updated (counts : Counts) (result : RunResult) (hc : result.changes > 0)
    (hl : ¬ result.lastID > 0) :
    countProject counts result =
      { counts with updatedProjects := counts.updatedProjects + 1 } := by
  unfold countProject
  rw [if_pos hc, if_neg hl]

theorem countProject_unchanged (counts : Counts) (result : RunResult)
    (hc : ¬ result.changes > 0) : countProject counts result = counts := by
  unfold countProject
  rw [if_neg hc]

/-- A step of the first loop adds at most one to the stub counters, and leaves the
details counters as they are. -/
theorem processProject_step {σ : Type} (store : Store σ) (st : σ × Counts)
    (project : ProjectStub) :
    (processProject store st project).2.newProjects +
        (processProject store st project).2.updatedProjects ≤
      st.2.newProjects + st.2.updatedProjects + 1 ∧
    (processProject store st project).2.newDetails = st.2.newDetails ∧
    (processProject store st project).2.updatedDetails = st.2.updatedDetails := by
  cases h : store.upsertProject st.1 project with
  | error e =>
    rw [processProject_of_error store st project e h]
    exact ⟨Nat.le_succ _, rfl, rfl⟩
  | ok r =>
    obtain ⟨db, result⟩ := r
    rw [processProject_of_ok store st project db result h]
    by_cases hc : result.changes > 0
    · by_cases hl : result.lastID > 0
      · rw [countProject_new _ _ hc hl]
        refine ⟨?_, rfl, rfl⟩
        show st.2.newProjects + 1 + st.2.updatedProjects ≤ _
        omega
      · rw [countProject_updated _ _ hc hl]
        exact ⟨Nat.le_refl _, rfl, rfl⟩
    · rw [countProject_unchanged _ _ hc]
      exact ⟨Nat.le_succ _, rfl, rfl⟩

/-- The stub counters after the first loop count at most the stubs. -/
theorem pass1_bound {σ : Type} (store : Store σ) (projects : List ProjectStub) :
    ∀ st : σ × Counts,
      (projects.foldl (processProject store) st).2.newProjects +
          (projects.foldl (processProject store) st).2.updatedProjects ≤
        st.2.newProjects + st.2.updatedProjects + projects.length := by
  induction projects with
  | nil => intro st; exact Nat.le_refl _
  | cons p ps ih =>
    intro st
    rw [List.foldl_cons, List.length_cons]
    have h1 := ih (processProject store st p)
    have h2 := (processProject_step store st p).1
    omega

/-- When every stub statement succeeds with a change, the stub counters after the first
loop count every stub. -/
theorem pass1_all_counted {σ : Type} (store : Store σ)
    (hok : ∀ (db : σ) (p : ProjectStub), ∃ db' result,
      store.upsertProject db p = .ok (db', result) ∧ result.changes > 0)
    (projects : List ProjectStub) :
    ∀ st : σ × Counts,
      (projects.foldl (processProject store) st).2.newProjects +
          (projects.foldl (processProject store) st).2.updatedProjects =
        st.2.newProjects + st.2.updatedProjects + projects.length := by
  induction projects with
  | nil => intro st; rfl
  | cons p ps ih =>
    intro st
    rw [List.foldl_cons, List.length_cons, ih (processProject store st p)]
    obtain ⟨db, result, h, hc⟩ := hok st.1 p
    rw [processProject_of_ok store st p db result h]
    by_cases hl : result.lastID > 0
    · rw [countProject_new _ _ hc hl]
      show st.2.newProjects + 1 + st.2.updatedProjects + ps.length = _
      omega
    · rw [countProject_updated _ _ hc hl]
      show st.2.newProjects + (st.2.updatedProjects + 1) + ps.length = _
      omega

theorem processDetails_of_none {σ : Type} (ops : NumberOps) (net : Network) (store : Store σ)
    (st : σ × Counts) (p : ProjectStub) (h : fetchProjectDetails ops net p = none) :
    processDetails ops net store st p = st := by
  unfold processDetails
  rw [h]

theorem processDetails_of_error {σ : Type} (ops : NumberOps) (net : Network) (store : Store σ)
    (st : σ × Counts) (p : ProjectStub) (d : ProjectDetails) (e : String)
    (h : fetchProjectDetails ops net p = some d)
    (hr : store.upsertProjectDetails st.1 d = .error e) :
    processDetails ops net store st p = st := by
  unfold processDetails
  rw [h]
  simp only
  rw [hr]

theorem processDetails_of_ok {σ : Type} (ops : NumberOps) (net : Network) (store : Store σ)
    (st : σ × Counts) (p : ProjectStub) (d : ProjectDetails) (db : σ) (result : RunResult)
    (h : fetchProjectDetails ops net p = some d)
    (hr : store.upsertProjectDetails st.1 d = .ok (db, result)) :
    processDetails ops net store st p = (db, countDetails st.2 result) := by
  unfold processDetails
  rw [h]
  simp only
  rw [hr]

/-- A detail task adds at most one to the details counters, nothing when its fetch
gave no record, and leaves the stub counters as they are. -/
theorem processDetails_step {σ : Type} (ops : NumberOps) (net : Network) (store : Store σ)
    (st : σ × Counts) (p : ProjectStub) :
    (processDetails ops net store st p).2.newDetails +
        (processDetails ops net store st p).2.updatedDetails ≤
      st.2.newDetails + st.2.updatedDetails +
        (if (fetchProjectDetails ops net p).isSome then 1 else 0) ∧
    (processDetails ops net store st p).2.newProjects = st.2.newProjects ∧
    (processDetails ops net store st p).2.updatedProjects = st.2.updatedProjects := by
  cases h : fetchProjectDetails ops net p with
  | none =>
    rw [processDetails_of_none ops net store st p h]
    exact ⟨Nat.le_refl _, rfl, rfl⟩
  | some d =>
    cases hr : store.upsertProjectDetails st.1 d with
    | error e =>
      rw [processDetails_of_error ops net store st p d e h hr]
      exact ⟨Nat.le_succ _, rfl, rfl⟩
    | ok r =>
      obtain ⟨db, result⟩ := r
      rw [processDetails_of_ok ops net store st p d db result h hr]
      unfold countDetails
      by_cases hc : result.changes > 0
      · by_cases hl : result.lastID > 0
        · rw [if_pos hc, if_pos hl]
          refine ⟨?_, rfl, rfl⟩
          show st.2.newDetails + 1 + st.2.updatedDetails ≤ st.2.newDetails + st.2.updatedDetails + 1
          omega
        · rw [if_pos hc, if_neg hl]
          exact ⟨Nat.le_refl _, rfl, rfl⟩
      · rw [if_neg hc]
        exact ⟨Nat.le_succ _, rfl, rfl⟩

/-- The detail tasks count at most the stubs whose fetch gave a record, and leave the
stub counters as they are. -/
theorem pass2_bound {σ : Type} (ops : NumberOps) (net : Network) (store : Store σ)
    (order : List ProjectStub) :
    ∀ st : σ × Counts,
      (order.foldl (processDetails ops net store) st).2.newDetails +
          (order.foldl (processDetails ops net store) st).2.updatedDetails ≤
        st.2.newDetails + st.2.updatedDetails +
          (order.filter fun p => (fetchProjectDetails ops net p).isSome).length ∧
      (order.foldl (processDetails ops net store) st).2.newProjects = st.2.newProjects ∧
      (order.foldl (processDetails ops net store) st).2.updatedProjects =
        st.2.updatedProjects := by
  induction order with
  | nil => intro st; exact ⟨Nat.le_refl _, rfl, rfl⟩
  | cons p ps ih =>
    intro st
    rw [List.foldl_cons]
    obtain ⟨h1, h2, h3⟩ := ih (processDetails ops net store st p)
    obtain ⟨g1, g2, g3⟩ := processDetails_step ops net store st p
    refine ⟨?_, h2.trans g2, h3.trans g3⟩
    rw [List.filter_cons]
    by_cases hs : (fetchProjectDetails ops net p).isSome = true
    · rw [if_pos hs] at g1 ⊢
      rw [List.length_cons]
      omega
    · rw [if_neg hs] at g1 ⊢
      omega

/-- A task that changes nothing can be left out of the detail pass. -/
theorem pass2_skip {σ : Type} (ops : NumberOps) (net : Network) (store : Store σ)
    (pre post : List ProjectStub) (p : ProjectStub) (st : σ × Counts)
    (h : processDetails ops net store (pre.foldl (processDetails ops net store) st) p =
      pre.foldl (processDetails ops net store) st) :
    (pre ++ p :: post).foldl (processDetails ops net store) st =
      (pre ++ post).foldl (processDetails ops net store) st := by
  rw [List.foldl_append, List.foldl_cons, h, List.foldl_append]

/-- The first loop leaves the details counters as they are. -/
theorem pass1_details_counts {σ : Type} (store : Store σ) (projects : List ProjectStub) :
    ∀ st : σ × Counts,
      (projects.foldl (processProject store) st).2.newDetails = st.2.newDetails ∧
      (projects.foldl (processProject store) st).2.updatedDetails = st.2.updatedDetails := by
  induction projects with
  | nil => intro st; exact ⟨rfl, rfl⟩
  | cons q qs ih =>
    intro st
    rw [List.foldl_cons]
    obtain ⟨a, b⟩ := ih (processProject store st q)
    obtain ⟨_, c, d⟩ := processProject_step store st q
    exact ⟨a.trans c, b.trans d⟩
/-- C21.  Per-item failure isolation.  `fetchProjectDetails` gives null for a stub
without a project link, whatever the network would answer, and for a stub whose page
cannot be fetched or parsed.  A detail task whose fetch gave null, or whose upsert is
rejected, leaves the database and the four counters as they were, and the run is the
run without that task: every other stub is processed as before.  For every store,
network and list of stubs the function returns its counts: the details counters count
at most the stubs whose fetch gave a record, the stub counters at most the stubs.  In
a run of four stubs of which one has no link, one has a page that fails and one has
its statements rejected, the three are counted nowhere and the fourth is counted. -/
theorem failure_isolation :
    (∀ (ops : NumberOps) (net : Network) (p : ProjectStub),
      p.project_link = none ∨ p.project_link = some "" →
        fetchProjectDetails ops net p = none) ∧
    (∀ (ops : NumberOps) (net : Network) (p : ProjectStub) (link : String),
      p.project_link = some link → net.page link = none →
        fetchProjectDetails ops net p = none) ∧
    (∀ (σ : Type) (ops : NumberOps) (net : Network) (store : Store σ) (st : σ × Counts)
      (p : ProjectStub), fetchProjectDetails ops net p = none →
        processDetails ops net store st p = st) ∧
    (∀ (σ : Type) (ops : NumberOps) (net : Network) (store : Store σ) (st : σ × Counts)
      (p : ProjectStub) (d : ProjectDetails) (e : String),
      fetchProjectDetails ops net p = some d → store.upsertProjectDetails st.1 d = .error e →
        processDetails ops net store st p = st) ∧
    (∀ (σ : Type) (ops : NumberOps) (net : Network) (store : Store σ) (db : σ)
      (projects pre post : List ProjectStub) (p : ProjectStub),
      processDetails ops net store
          (processProjectsWithDetails ops net store db projects pre) p =
        processProjectsWithDetails ops net store db projects pre →
      processProjectsWithDetails ops net store db projects (pre ++ p :: post) =
        processProjectsWithDetails ops net store db projects (pre ++ post)) ∧
    (∀ (σ : Type) (ops : NumberOps) (net : Network) (store : Store σ) (db : σ)
      (projects order : List ProjectStub),
      (processProjectsWithDetails ops net store db projects order).2.newDetails +
          (processProjectsWithDetails ops net store db projects order).2.updatedDetails ≤
        (order.filter fun p => (fetchProjectDetails ops net p).isSome).length ∧
      (processProjectsWithDetails ops net store db projects order).2.newProjects +
          (processProjectsWithDetails ops net store db projects order).2.updatedProjects ≤
        projects.length) ∧
    (processProjectsWithDetails exactOps twoPageNetwork (rejectingStore "10.1/xyz")
        emptyDatabase mixedStubs mixedStubs).2 =
      { newProjects := 3, updatedProjects := 0, newDetails := 1, updatedDetails := 0 } ∧
    (processProjectsWithDetails exactOps twoPageNetwork (rejectingStore "10.1/xyz")
        emptyDatabase mixedStubs mixedStubs).1.project_details.map
        (fun row => row.columns.doi) = ["10.1/d"] := by
  refine ⟨?_, ?_, fun σ ops net store st p h => processDetails_of_none ops net store st p h,
    fun σ ops net store st p d e h hr => processDetails_of_error ops net store st p d e h hr,
    ?_, ?_, by decide, by decide⟩
  · intro ops net p h
    unfold fetchProjectDetails
    rcases h with h | h
    · rw [h]
    · rw [h]
      rfl
  · intro ops net p link h hpage
    unfold fetchProjectDetails
    rw [h]
    simp only
    split
    · rfl
    · rw [hpage]
  · intro σ ops net store db projects pre post p h
    unfold processProjectsWithDetails at h ⊢
    exact pass2_skip ops net store pre post p _ h
  · intro σ ops net store db projects order
    unfold processProjectsWithDetails
    obtain ⟨h1, h2, h3⟩ := pass2_bound ops net store order
      (projects.foldl (processProject store) (db, zeroCounts))
    have h4 := pass1_bound store projects (db, zeroCounts)
    obtain ⟨h6, h7⟩ := pass1_details_counts store projects (db, zeroCounts)
    rw [h6, h7] at h1
    rw [h2, h3]
    have z1 : (db, zeroCounts).2.newDetails = 0 := rfl
    have z2 : (db, zeroCounts).2.updatedDetails = 0 := rfl
    have z3 : (db, zeroCounts).2.newProjects = 0 := rfl
    have z4 : (db, zeroCounts).2.updatedProjects = 0 := rfl
    rw [z1, z2] at h1
    rw [z3, z4] at h4
    constructor
    · omega
    · omega

/-- C22 fails on the code.  Whatever the upsert outcomes, a stub whose upsert resolves
with a change adds one to `newProjects` when `lastID` is positive and one to
`updatedProjects` otherwise, a stub whose upsert resolves without a change or is
rejected adds nothing, and the two counters count at most the stubs, all of them when
every upsert resolves with a change, as every statement that succeeds on a connection
does.  But `lastID` is the `id` of the row last
inserted through the connection: on a file that has the row of Site B, in a run on a
listing with a new Site A before Site B, the statement of Site B updates its row and
assigns no `id`, resolves with the `lastID` the insertion of Site A left, and is
counted as new; the run reports two new stubs and none updated, with one row inserted,
and counts the updated details of Site B as new as well. -/
theorem update_after_insert_counted_new :
    (∀ (σ : Type) (store : Store σ) (st : σ × Counts) (p : ProjectStub) (db : σ)
      (result : RunResult), store.upsertProject st.1 p = .ok (db, result) →
      (result.changes > 0 → result.lastID > 0 →
        processProject store st p =
          (db, { st.2 with newProjects := st.2.newProjects + 1 })) ∧
      (result.changes > 0 → ¬ result.lastID > 0 →
        processProject store st p =
          (db, { st.2 with updatedProjects := st.2.updatedProjects + 1 })) ∧
      (¬ result.changes > 0 → processProject store st p = (db, st.2))) ∧
    (∀ (σ : Type) (store : Store σ) (st : σ × Counts) (p : ProjectStub) (e : String),
      store.upsertProject st.1 p = .error e → processProject store st p = st) ∧
    (∀ (σ : Type) (store : Store σ) (db : σ) (projects : List ProjectStub),
      (projects.foldl (processProject store) (db, zeroCounts)).2.newProjects +
          (projects.foldl (processProject store) (db, zeroCounts)).2.updatedProjects ≤
        projects.length) ∧
    (∀ (σ : Type) (store : Store σ) (db : σ) (projects : List ProjectStub),
      (∀ (db : σ) (p : ProjectStub), ∃ db' result,
        store.upsertProject db p = .ok (db', result) ∧ result.changes > 0) →
      (projects.foldl (processProject store) (db, zeroCounts)).2.newProjects +
          (projects.foldl (processProject store) (db, zeroCounts)).2.updatedProjects =
        projects.length) ∧
    (∀ (db : Database) (p : ProjectStub), (upsertProject db p).2.changes = 1) ∧
    siteBFile.heritage_projects.map (fun row => row.columns.doi) = ["10.1/xyz"] ∧
    fetchData plainListing = .ok plainStubs ∧
    (upsertRows ProjectStub.doi
        (upsertProject (initializeDatabase siteBFile) siteAStub).1.heritage_projects
        (linkedStub "Site B" "b" "10.1/xyz")).2 = none ∧
    (upsertProject (upsertProject (initializeDatabase siteBFile) siteAStub).1
        (linkedStub "Site B" "b" "10.1/xyz")).2.lastID > 0 ∧
    (main exactOps twoPageNetwork plainListing plainStubs siteBFile).2 =
      some { newProjects := 2, updatedProjects := 0, newDetails := 1, updatedDetails := 0 } ∧
    (main exactOps twoPageNetwork plainListing plainStubs siteBFile).1.heritage_projects.map
        (fun row => row.columns.doi) = ["10.1/xyz", "10.1/abc"] ∧
    (main exactOps twoPageNetwork plainListing plainStubs siteBFile).1.project_details.map
        (fun row => row.columns.doi) = ["10.1/xyz"] := by
  refine ⟨?_, fun σ store st p e h => processProject_of_error store st p e h, ?_, ?_,
    fun _ _ => rfl, by decide, congrArg Except.ok (by decide), by decide, by decide, by decide, by decide,
    by decide⟩
  · intro σ store st p db result h
    rw [processProject_of_ok store st p db result h]
    refine ⟨fun hc hl => ?_, fun hc hl => ?_, fun hc => ?_⟩
    · rw [countProject_new _ _ hc hl]
    · rw [countProject_updated _ _ hc hl]
    · rw [countProject_unchanged _ _ hc]
  · intro σ store db projects
    have h := pass1_bound store projects (db, zeroCounts)
    have z3 : (db, zeroCounts).2.newProjects = 0 := rfl
    have z4 : (db, zeroCounts).2.updatedProjects = 0 := rfl
    rw [z3, z4] at h
    omega
  · intro σ store db projects hok
    have h := pass1_all_counted store hok projects (db, zeroCounts)
    have z3 : (db, zeroCounts).2.newProjects = 0 := rfl
    have z4 : (db, zeroCounts).2.updatedProjects = 0 := rfl
    rw [z3, z4] at h
    omega

/-! ## Pair literals -/

theorem pairMatchHere_of_isPairAt (l a b rest : List Char) (h : IsPairAt l a b rest) :
    pairMatchHere l = some (a, b, rest) := by
  obtain ⟨w1, w2, w3, w4, w5, h1, h2, h3, h4, h5, ha, hb, e⟩ := h
  have hm := pairMatchHere_complete
    { lat := a, lng := b, w1 := w1, w2 := w2, w3 := w3, w4 := w4, w5 := w5,
      comma := false, w6 := [] }
    ⟨h1, h2, h3, h4, h5, (fun c hc => absurd hc (List.not_mem_nil c) : IsBlank []), ha, hb⟩ rest
  have ht : PairItem.text
      { lat := a, lng := b, w1 := w1, w2 := w2, w3 := w3, w4 := w4, w5 := w5,
        comma := false, w6 := [] } rest = l := by
    rw [e]
    simp only [PairItem.text, PairItem.inner, PairItem.separator, List.append_assoc,
      Bool.false_eq_true, if_false, List.nil_append]
  rw [ht] at hm
  exact hm

theorem isPairAt_of_pairMatchHere (l a b rest : List Char)
    (h : pairMatchHere l = some (a, b, rest)) : IsPairAt l a b rest := by
  unfold pairMatchHere at h
  simp only [Option.bind_eq_some] at h
  obtain ⟨r1, e1, r2, e2, pa, e3, r4, e4, r5, e5, pb, e6, r7, e7, he⟩ := h
  simp only [Option.some.injEq, Prod.mk.injEq] at he
  have f1 := expect_eq_some "\x7b" l r1 e1
  obtain ⟨w1, hw1, f2⟩ := skip_expect_split "lat:" r1 r2 e2
  obtain ⟨w2, hw2, hca, f3⟩ := skip_takeCoord_split r2 pa e3
  have f4 := expect_eq_some "," pa.2 r4 e4
  obtain ⟨w3, hw3, f5⟩ := skip_expect_split "lng:" r4 r5 e5
  obtain ⟨w4, hw4, hcb, f6⟩ := skip_takeCoord_split r5 pb e6
  obtain ⟨w5, hw5, f7⟩ := skip_expect_split "\x7d" pb.2 r7 e7
  refine ⟨w1, w2, w3, w4, w5, hw1, hw2, hw3, hw4, hw5, he.1 ▸ hca, he.2.1 ▸ hcb, ?_⟩
  rw [f1, f2, f3, f4, f5, f6, f7, ← he.1, ← he.2.1, ← he.2.2]

/-- A pair literal at the start of a text is its first pair, and the search goes on
after it. -/
theorem allPairs_of_pair (l a b rest : List Char) (h : IsPairAt l a b rest) :
    allPairs 0 l = (a, b) :: allPairs 0 rest := by
  have hm := pairMatchHere_of_isPairAt l a b rest h
  obtain ⟨w1, w2, w3, w4, w5, _, _, _, _, _, _, _, e⟩ := h
  have ht : l = Char.ofNat 0x7B :: ((w1 ++ ("lat:".data ++ (w2 ++ (a ++ (",".data ++ (w3 ++
      ("lng:".data ++ (w4 ++ (b ++ (w5 ++ "\x7d".data)))))))))) ++ rest) := by
    rw [e]
    simp only [List.append_assoc]
    rfl
  rw [ht] at hm ⊢
  rw [allPairs, hm]
  simp only
  rw [List.length_append, Nat.add_sub_cancel, allPairs_skip]

theorem allPairs_of_none (c : Char) (cs : List Char) (h : pairMatchHere (c :: cs) = none) :
    allPairs 0 (c :: cs) = allPairs 0 cs := by
  rw [allPairs, h]

theorem isPairAt_length (l a b rest : List Char) (h : IsPairAt l a b rest) :
    rest.length < l.length := by
  obtain ⟨w1, w2, w3, w4, w5, _, _, _, _, _, _, _, e⟩ := h
  have ht : l = Char.ofNat 0x7B :: ((w1 ++ ("lat:".data ++ (w2 ++ (a ++ (",".data ++ (w3 ++
      ("lng:".data ++ (w4 ++ (b ++ (w5 ++ "\x7d".data)))))))))) ++ rest) := by
    rw [e]
    simp only [List.append_assoc]
    rfl
  rw [ht, List.length_cons, List.length_append]
  omega

/-- The pairs `matchAll` finds are the pair literals of the text, from left to
right. -/
theorem pairsOf_allPairs : ∀ (n : Nat) (g : List Char), g.length ≤ n →
    PairsOf g (allPairs 0 g) := by
  intro n
  induction n with
  | zero =>
    intro g hg
    have : g = [] := List.length_eq_zero.mp (Nat.le_zero.mp hg)
    rw [this]
    exact PairsOf.done
  | succ n ih =>
    intro g hg
    cases g with
    | nil => exact PairsOf.done
    | cons c cs =>
      cases hm : pairMatchHere (c :: cs) with
      | none =>
        rw [allPairs_of_none c cs hm]
        refine PairsOf.skip c cs _ ?_ (ih cs (by simpa using hg))
        intro a b rest hp
        rw [pairMatchHere_of_isPairAt _ a b rest hp] at hm
        cases hm
      | some m =>
        obtain ⟨a, b, rest⟩ := m
        have hp := isPairAt_of_pairMatchHere _ a b rest hm
        rw [allPairs_of_pair _ a b rest hp]
        have hl := isPairAt_length _ a b rest hp
        exact PairsOf.pair _ a b rest _ hp (ih rest (by simp only [List.length_cons] at hg hl; omega))

/-- The pair literals of a text, from left to right, are the pairs `matchAll` finds. -/
theorem pairsOf_unique (g : List Char) (ps : List (List Char × List Char))
    (h : PairsOf g ps) : ps = allPairs 0 g := by
  induction h with
  | done => rfl
  | pair l a b rest ps hp _ ih => rw [allPairs_of_pair l a b rest hp, ih]
  | skip c l ps hn _ ih =>
    have hm : pairMatchHere (c :: l) = none := by
      cases hm : pairMatchHere (c :: l) with
      | none => rfl
      | some m =>
        obtain ⟨a, b, rest⟩ := m
        exact absurd (isPairAt_of_pairMatchHere _ a b rest hm) (hn a b rest)
    rw [allPairs_of_none c l hm, ih]

/-! ## The pattern of the array -/

theorem runItems_after_brace (comma : Bool) (w : List Char) (hw : IsBlank w) :
    ∃ st, (st = .closed ∨ st = .between) ∧
      runItems .closed ((if comma then ",".data else []) ++ w) = some st := by
  cases comma with
  | true =>
    refine ⟨.between, Or.inr rfl, ?_⟩
    show runItems .closed (Char.ofNat 0x2C :: w) = some .between
    simp only [runItems]
    exact runItems_between w hw
  | false =>
    refine ⟨if w = [] then .closed else .between, ?_, ?_⟩
    · by_cases h : w = []
      · simp [h]
      · simp [h]
    · simp only [Bool.false_eq_true, if_false, List.nil_append]
      exact runItems_closed w hw

/-- Reading one object from a state that admits one leads to a state after an
object. -/
theorem runItems_arrayItem (it : ArrayItem) (h : it.WellFormed) (st : ItemState)
    (hst : st = .start ∨ st = .closed ∨ st = .between) :
    ∃ st', (st' = .closed ∨ st' = .between) ∧ runItems st it.text = some st' := by
  obtain ⟨hne, hb, hw⟩ := h
  obtain ⟨st', hst', hsep⟩ := runItems_after_brace it.comma it.blank hw
  refine ⟨st', hst', ?_⟩
  show runItems st (Char.ofNat 0x7B :: (it.body ++ (Char.ofNat 0x7D ::
    ((if it.comma then ",".data else []) ++ it.blank)))) = some st'
  simp only [runItems, itemStep_brace st hst]
  rw [runItems_append, runItems_opened it.body hne hb]
  simp only [Option.some_bind, runItems]
  exact hsep

/-- The pattern reads an array of well-formed objects up to its closing bracket. -/
theorem scanItems_arrayText (items : List ArrayItem) (rest : List Char) :
    ∀ st : ItemState, (st = .start ∨ st = .closed ∨ st = .between) → items ≠ [] →
      (∀ it ∈ items, it.WellFormed) →
      scanItems st (arrayText items ++ ("]".data ++ rest)) = some (arrayText items) := by
  induction items with
  | nil => intro st _ hne; exact absurd rfl hne
  | cons it its ih =>
    intro st hst _ hwf
    obtain ⟨st', hst', hrun⟩ := runItems_arrayItem it (hwf it (List.mem_cons_self _ _)) st hst
    have e : arrayText (it :: its) ++ ("]".data ++ rest) =
        it.text ++ (arrayText its ++ ("]".data ++ rest)) := by
      simp only [arrayText, List.append_assoc]
    rw [e, scanItems_run _ st st' _ hrun]
    cases its with
    | nil =>
      have hacc : scanItems st' ("]".data ++ rest) = some [] := by
        show scanItems st' (Char.ofNat 0x5D :: rest) = some []
        rcases hst' with h | h <;> subst h <;> rfl
      simp only [arrayText, List.nil_append, hacc, Option.map_some']
    | cons it2 its2 =>
      rw [ih st' (Or.inr hst') (by simp) (fun i hi => hwf i (List.mem_cons_of_mem _ hi))]
      simp only [Option.map_some', arrayText]

theorem char_of_toNat (c : Char) (n : Nat) (h : c.toNat = n) : c = Char.ofNat n := by
  rw [← h, Char.ofNat_toNat]

theorem scanItems_next (st st' : ItemState) (c : Char) (cs g : List Char)
    (hstep : itemStep st c = .next st') (h : scanItems st (c :: cs) = some g) :
    ∃ g', g = c :: g' ∧ scanItems st' cs = some g' := by
  rw [scanItems, hstep] at h
  simp only at h
  cases hs : scanItems st' cs with
  | none => rw [hs] at h; cases h
  | some g' =>
    rw [hs] at h
    simp only [Option.map_some', Option.some.injEq] at h
    exact ⟨g', h.symm, rfl⟩

/-- Inside an object the pattern reads up to the closing brace. -/
theorem scanItems_inside_split : ∀ (l g : List Char), scanItems .inside l = some g →
    ∃ body l' g', (∀ c ∈ body, c.toNat ≠ 0x7D) ∧ l = body ++ ("\x7d".data ++ l') ∧
      g = body ++ ("\x7d".data ++ g') ∧ scanItems .closed l' = some g' := by
  intro l
  induction l with
  | nil => intro g h; simp [scanItems] at h
  | cons c cs ih =>
    intro g h
    by_cases hc : c.toNat = 0x7D
    · have hstep : itemStep .inside c = .next .closed := by simp [itemStep, hc]
      obtain ⟨g', hg, hs⟩ := scanItems_next _ _ c cs g hstep h
      refine ⟨[], cs, g', fun _ hm => absurd hm (List.not_mem_nil _), ?_, ?_, hs⟩
      · rw [char_of_toNat c _ hc]
        rfl
      · rw [hg, char_of_toNat c _ hc]
        rfl
    · have hstep : itemStep .inside c = .next .inside := by simp [itemStep, hc]
      obtain ⟨g1, hg, hs⟩ := scanItems_next _ _ c cs g hstep h
      obtain ⟨body, l', g', hb, hl, hg', hcl⟩ := ih g1 hs
      refine ⟨c :: body, l', g', ?_, by rw [hl]; rfl, by rw [hg, hg']; rfl, hcl⟩
      intro d hd
      rcases List.mem_cons.mp hd with h1 | h1
      · rw [h1]; exact hc
      · exact hb d h1

theorem scanItems_opened_split (l g : List Char) (h : scanItems .opened l = some g) :
    ∃ body l' g', body ≠ [] ∧ (∀ c ∈ body, c.toNat ≠ 0x7D) ∧ l = body ++ ("\x7d".data ++ l') ∧
      g = body ++ ("\x7d".data ++ g') ∧ scanItems .closed l' = some g' := by
  cases l with
  | nil => simp [scanItems] at h
  | cons c cs =>
    by_cases hc : c.toNat = 0x7D
    · have hstep : itemStep .opened c = .reject := by simp [itemStep, hc]
      rw [scanItems, hstep] at h
      cases h
    · have hstep : itemStep .opened c = .next .inside := by simp [itemStep, hc]
      obtain ⟨g1, hg, hs⟩ := scanItems_next _ _ c cs g hstep h
      obtain ⟨body, l', g', hb, hl, hg', hcl⟩ := scanItems_inside_split cs g1 hs
      refine ⟨c :: body, l', g', List.cons_ne_nil _ _, ?_, by rw [hl]; rfl,
        by rw [hg, hg']; rfl, hcl⟩
      intro d hd
      rcases List.mem_cons.mp hd with h1 | h1
      · rw [h1]; exact hc
      · exact hb d h1

theorem scanItems_between_split : ∀ (l g : List Char), scanItems .between l = some g →
    ∃ w l' g', IsBlank w ∧ l = w ++ l' ∧ g = w ++ g' ∧ AfterItems l' g' := by
  intro l
  induction l with
  | nil => intro g h; simp [scanItems] at h
  | cons c cs ih =>
    intro g h
    by_cases hws : isJsWhitespace c = true
    · have hstep : itemStep .between c = .next .between := by simp [itemStep, hws]
      obtain ⟨g1, hg, hs⟩ := scanItems_next _ _ c cs g hstep h
      obtain ⟨w, l', g', hw, hl, hg', ha⟩ := ih g1 hs
      refine ⟨c :: w, l', g', ?_, by rw [hl]; rfl, by rw [hg, hg']; rfl, ha⟩
      intro d hd
      rcases List.mem_cons.mp hd with h1 | h1
      · rw [h1]; exact hws
      · exact hw d h1
    · by_cases hb : c.toNat = 0x7B
      · have hstep : itemStep .between c = .next .opened := by simp [itemStep, hws, hb]
        obtain ⟨g1, hg, hs⟩ := scanItems_next _ _ c cs g hstep h
        refine ⟨[], c :: cs, g, fun _ hm => absurd hm (List.not_mem_nil _), rfl, rfl, ?_⟩
        right
        refine ⟨cs, g1, ?_, ?_, hs⟩
        · rw [char_of_toNat c _ hb]; rfl
        · rw [hg, char_of_toNat c _ hb]; rfl
      · by_cases he : c.toNat = 0x5D
        · have hstep : itemStep .between c = .accept := by simp [itemStep, hws, hb, he]
          rw [scanItems, hstep] at h
          simp only [Option.some.injEq] at h
          refine ⟨[], c :: cs, g, fun _ hm => absurd hm (List.not_mem_nil _), rfl, rfl, ?_⟩
          left
          refine ⟨cs, ?_, h.symm⟩
          rw [char_of_toNat c _ he]; rfl
        · have hstep : itemStep .between c = .reject := by simp [itemStep, hws, hb, he]
          rw [scanItems, hstep] at h
          cases h

theorem scanItems_closed_split (l g : List Char) (h : scanItems .closed l = some g) :
    ∃ (comma : Bool) (w l' g' : List Char), IsBlank w ∧
      l = ((if comma then ",".data else []) ++ w) ++ l' ∧
      g = ((if comma then ",".data else []) ++ w) ++ g' ∧ AfterItems l' g' := by
  cases l with
  | nil => simp [scanItems] at h
  | cons c cs =>
    by_cases hcm : c.toNat = 0x2C
    · have hstep : itemStep .closed c = .next .between := by simp [itemStep, hcm]
      obtain ⟨g1, hg, hs⟩ := scanItems_next _ _ c cs g hstep h
      obtain ⟨w, l', g', hw, hl, hg', ha⟩ := scanItems_between_split cs g1 hs
      refine ⟨true, w, l', g', hw, ?_, ?_, ha⟩
      · rw [hl, char_of_toNat c _ hcm]; rfl
      · rw [hg, hg', char_of_toNat c _ hcm]; rfl
    · by_cases hws : isJsWhitespace c = true
      · have hstep : itemStep .closed c = .next .between := by simp [itemStep, hcm, hws]
        obtain ⟨g1, hg, hs⟩ := scanItems_next _ _ c cs g hstep h
        obtain ⟨w, l', g', hw, hl, hg', ha⟩ := scanItems_between_split cs g1 hs
        refine ⟨false, c :: w, l', g', ?_, by rw [hl]; rfl, by rw [hg, hg']; rfl, ha⟩
        intro d hd
        rcases List.mem_cons.mp hd with h1 | h1
        · rw [h1]; exact hws
        · exact hw d h1
      · by_cases hb : c.toNat = 0x7B
        · have hstep : itemStep .closed c = .next .opened := by
            simp [itemStep, hcm, hws, hb]
          obtain ⟨g1, hg, hs⟩ := scanItems_next _ _ c cs g hstep h
          refine ⟨false, [], c :: cs, g, fun _ hm => absurd hm (List.not_mem_nil _), rfl, rfl, ?_⟩
          right
          refine ⟨cs, g1, ?_, ?_, hs⟩
          · rw [char_of_toNat c _ hb]; rfl
          · rw [hg, char_of_toNat c _ hb]; rfl
        · by_cases he : c.toNat = 0x5D
          · have hstep : itemStep .closed c = .accept := by simp [itemStep, hcm, hws, hb, he]
            rw [scanItems, hstep] at h
            simp only [Option.some.injEq] at h
            refine ⟨false, [], c :: cs, g, fun _ hm => absurd hm (List.not_mem_nil _), rfl, rfl,
              ?_⟩
            left
            refine ⟨cs, ?_, h.symm⟩
            rw [char_of_toNat c _ he]; rfl
          · have hstep : itemStep .closed c = .reject := by
              simp [itemStep, hcm, hws, hb, he]
            rw [scanItems, hstep] at h
            cases h

/-- What the pattern reads after an opening brace is a sequence of well-formed objects
up to a closing bracket. -/
theorem scanItems_opened_sound : ∀ (n : Nat) (l g : List Char), l.length ≤ n →
    scanItems .opened l = some g →
    ∃ (items : List ArrayItem) (rest : List Char), items ≠ [] ∧ (∀ it ∈ items, it.WellFormed) ∧
      "\x7b".data ++ g = arrayText items ∧
      "\x7b".data ++ l = arrayText items ++ ("]".data ++ rest) := by
  intro n
  induction n with
  | zero =>
    intro l g hl h
    have : l = [] := List.length_eq_zero.mp (Nat.le_zero.mp hl)
    rw [this] at h
    simp [scanItems] at h
  | succ n ih =>
    intro l g hlen h
    obtain ⟨body, l1, g1, hne, hb, hl, hg, hcl⟩ := scanItems_opened_split l g h
    obtain ⟨comma, w, l2, g2, hw, hl2, hg2, ha⟩ := scanItems_closed_split l1 g1 hcl
    rcases ha with ⟨rest, hr, hge⟩ | ⟨l3, g3, hl3, hg3, hop⟩
    · refine ⟨[⟨body, comma, w⟩], rest, List.cons_ne_nil _ _, ?_, ?_, ?_⟩
      · intro it hit
        rw [List.mem_singleton.mp hit]
        exact ⟨hne, hb, hw⟩
      · rw [hg, hg2, hge]
        simp only [arrayText, ArrayItem.text, List.append_assoc, List.append_nil]
      · rw [hl, hl2, hr]
        simp only [arrayText, ArrayItem.text, List.append_assoc, List.append_nil]
    · have hlen3 : l3.length ≤ n := by
        have e : l.length = body.length + (1 + (((if comma then ",".data else []) ++ w).length +
            (1 + l3.length))) := by
          rw [hl, hl2, hl3]
          simp only [List.length_append]
          rfl
        omega
      obtain ⟨items, rest, _, hwf, hgi, hli⟩ := ih l3 g3 hlen3 hop
      refine ⟨⟨body, comma, w⟩ :: items, rest, List.cons_ne_nil _ _, ?_, ?_, ?_⟩
      · intro it hit
        rcases List.mem_cons.mp hit with h1 | h1
        · rw [h1]
          exact ⟨hne, hb, hw⟩
        · exact hwf it h1
      · rw [hg, hg2, hg3]
        simp only [arrayText, ArrayItem.text, List.append_assoc]
        rw [← hgi]
      · rw [hl, hl2, hl3]
        simp only [arrayText, ArrayItem.text, List.append_assoc]
        rw [← hli]

theorem scanItems_start_sound (l g : List Char) (h : scanItems .start l = some g) :
    ∃ (items : List ArrayItem) (rest : List Char), items ≠ [] ∧ (∀ it ∈ items, it.WellFormed) ∧
      g = arrayText items ∧ l = arrayText items ++ ("]".data ++ rest) := by
  cases l with
  | nil => simp [scanItems] at h
  | cons c cs =>
    by_cases hb : c.toNat = 0x7B
    · have hstep : itemStep .start c = .next .opened := by simp [itemStep, hb]
      obtain ⟨g1, hg, hs⟩ := scanItems_next _ _ c cs g hstep h
      obtain ⟨items, rest, hne, hwf, hgi, hli⟩ := scanItems_opened_sound cs.length cs g1
        (Nat.le_refl _) hs
      refine ⟨items, rest, hne, hwf, ?_, ?_⟩
      · rw [hg, char_of_toNat c _ hb]
        exact hgi
      · rw [char_of_toNat c _ hb]
        exact hli
    · have hstep : itemStep .start c = .reject := by simp [itemStep, hb]
      rw [scanItems, hstep] at h
      cases h

theorem arrayText_head (items : List ArrayItem) (hne : items ≠ []) (tail : List Char) :
    (arrayText items ++ tail).head? = some (Char.ofNat 0x7B) := by
  cases items with
  | nil => exact absurd rfl hne
  | cons it its => rfl

/-- An attempt of the pattern of the array succeeds exactly on an assignment of an
array at the start of the text, and gives the text of its objects. -/
theorem cordsMatchHere_of_isCordsAt (l g : List Char) (h : IsCordsAt l [] g) :
    cordsMatchHere l = some g := by
  obtain ⟨w1, w2, w3, items, rest, h1, h2, h3, hne, hwf, hg, e⟩ := h
  have hskip : skipWhitespace (w3 ++ (g ++ ("]".data ++ rest))) = g ++ ("]".data ++ rest) := by
    unfold skipWhitespace
    apply dropWhile_append_head _ _ _ h3
    intro c hc
    rw [hg, arrayText_head items hne] at hc
    simp only [Option.some.injEq] at hc
    rw [← hc]
    decide
  rw [e, List.nil_append]
  unfold cordsMatchHere
  rw [expect_append, Option.some_bind,
    skip_blank_literal w1 "=" _ h1 (by decide) (by decide), expect_append, Option.some_bind,
    skip_blank_literal w2 "[" _ h2 (by decide) (by decide), expect_append, Option.some_bind,
    hskip, hg]
  exact scanItems_arrayText items rest .start (Or.inl rfl) hne hwf

theorem isCordsAt_of_cordsMatchHere (l g : List Char) (h : cordsMatchHere l = some g) :
    IsCordsAt l [] g := by
  unfold cordsMatchHere at h
  simp only [Option.bind_eq_some] at h
  obtain ⟨r1, e1, r2, e2, r3, e3, h4⟩ := h
  have f1 := expect_eq_some "cords" l r1 e1
  obtain ⟨w1, hw1, f2⟩ := skip_expect_split "=" r1 r2 e2
  obtain ⟨w2, hw2, f3⟩ := skip_expect_split "[" r2 r3 e3
  obtain ⟨items, rest, hne, hwf, hg, hl⟩ := scanItems_start_sound _ g h4
  refine ⟨w1, w2, r3.takeWhile isJsWhitespace, items, rest, hw1, hw2,
    fun c hc => List.mem_takeWhile_imp hc, hne, hwf, hg, ?_⟩
  have f4 : r3 = r3.takeWhile isJsWhitespace ++ (g ++ ("]".data ++ rest)) := by
    unfold skipWhitespace at hl
    rw [hg, ← hl, List.takeWhile_append_dropWhile]
  rw [List.nil_append, f1, f2, f3]
  rw [← f4]

theorem isCordsAt_shift (p s g : List Char) (h : IsCordsAt s [] g) : IsCordsAt (p ++ s) p g := by
  obtain ⟨w1, w2, w3, items, rest, h1, h2, h3, hne, hwf, hg, e⟩ := h
  exact ⟨w1, w2, w3, items, rest, h1, h2, h3, hne, hwf, hg, by rw [e, List.nil_append]⟩

theorem isCordsAt_unshift (html pre g : List Char) (h : IsCordsAt html pre g) :
    ∃ s, html = pre ++ s ∧ IsCordsAt s [] g := by
  obtain ⟨w1, w2, w3, items, rest, h1, h2, h3, hne, hwf, hg, e⟩ := h
  exact ⟨_, e, w1, w2, w3, items, rest, h1, h2, h3, hne, hwf, hg, by rw [List.nil_append]⟩

/-- The pattern of the array matches at the leftmost assignment of an array. -/
theorem firstMatch_cords_of_leftmost (html pre g : List Char) (h : IsCordsAt html pre g)
    (hmin : ∀ p g', IsCordsAt html p g' → pre.length ≤ p.length) :
    firstMatch cordsMatchHere html = some g := by
  obtain ⟨s, e, hs⟩ := isCordsAt_unshift html pre g h
  rw [e]
  apply firstMatch_leftmost _ pre _ _ (cordsMatchHere_of_isCordsAt s g hs)
  intro p t hpt hlt
  cases hm : cordsMatchHere t with
  | none => rfl
  | some r =>
    have hr := isCordsAt_shift p t r (isCordsAt_of_cordsMatchHere t r hm)
    rw [← hpt, ← e] at hr
    have := hmin p r hr
    omega

theorem firstMatch_cords_none (html : List Char) (h : ∀ pre g, ¬ IsCordsAt html pre g) :
    firstMatch cordsMatchHere html = none := by
  apply firstMatch_none
  intro pre suf e
  cases hm : cordsMatchHere suf with
  | none => rfl
  | some r =>
    have hr := isCordsAt_shift pre suf r (isCordsAt_of_cordsMatchHere suf r hm)
    rw [← e] at hr
    exact absurd hr (h pre r)

/-- The bounding polygon of a page, from the leftmost assignment of an array and the
pair literals of its objects. -/
theorem boundingBox_of_cords (ops : NumberOps) (html : String) (pre g : List Char)
    (pairs : List (List Char × List Char)) (h : IsCordsAt html.data pre g)
    (hmin : ∀ p g', IsCordsAt html.data p g' → pre.length ≤ p.length)
    (hp : PairsOf g pairs) :
    (pairs = [] → boundingBox ops html = none) ∧
    (pairs ≠ [] → boundingBox ops html = some (pairs.map (pairPoint ops))) := by
  have hm := firstMatch_cords_of_leftmost html.data pre g h hmin
  have hps := pairsOf_unique g pairs hp
  unfold boundingBox
  rw [hm]
  simp only [← hps, List.length_map]
  constructor
  · intro he
    rw [he]
    rfl
  · intro hne
    rw [if_pos (List.length_pos.mpr hne)]
    rfl

theorem boundingBox_none_of_no_cords (ops : NumberOps) (html : String)
    (h : ∀ pre g, ¬ IsCordsAt html.data pre g) : boundingBox ops html = none := by
  unfold boundingBox
  rw [firstMatch_cords_none html.data h]

/-- Among the assignments of an array of a text there is a leftmost one. -/
theorem isCordsAt_leftmost (html : List Char) (h : ∃ pre g, IsCordsAt html pre g) :
    ∃ pre g, IsCordsAt html pre g ∧ ∀ p g', IsCordsAt html p g' → pre.length ≤ p.length := by
  classical
  have hex : ∃ n, ∃ pre g, pre.length = n ∧ IsCordsAt html pre g := by
    obtain ⟨pre, g, hc⟩ := h
    exact ⟨pre.length, pre, g, rfl, hc⟩
  obtain ⟨pre, g, hlen, hc⟩ := Nat.find_spec hex
  refine ⟨pre, g, hc, ?_⟩
  intro p g' hp
  rw [hlen]
  exact Nat.find_min' hex ⟨p, g', rfl, hp⟩

/-! ## Binary64 arithmetic -/

theorem belowPower_iff (n d : Nat) (e : Int) :
    belowPower n d e = true ↔ (n : Rat) < (d : Rat) * (2 : Rat) ^ (e + 53) := by
  unfold belowPower
  rw [decide_eq_true_iff]
  have h2 : (0 : Rat) < 2 := by norm_num
  rcases le_or_lt 0 (e + 53) with hx | hx
  · obtain ⟨k, hk⟩ := Int.eq_ofNat_of_zero_le hx
    rw [hk]
    have h0 : (-(k : Int)).toNat = 0 := Int.toNat_eq_zero.mpr (by omega)
    rw [h0, Int.toNat_ofNat, pow_zero, Nat.mul_one, zpow_natCast]
    rw [← Nat.cast_lt (α := Rat)]
    push_cast
    rfl
  · obtain ⟨k, hk⟩ := Int.eq_ofNat_of_zero_le (show 0 ≤ -(e + 53) by omega)
    have hx2 : e + 53 = -(k : Int) := by omega
    rw [hx2, neg_neg, Int.toNat_ofNat]
    have h0 : (-(k : Int)).toNat = 0 := Int.toNat_eq_zero.mpr (by omega)
    rw [h0, pow_zero, Nat.mul_one, zpow_neg, zpow_natCast]
    rw [← Nat.cast_lt (α := Rat)]
    push_cast
    have hp : (0 : Rat) < 2 ^ k := pow_pos h2 k
    rw [← div_eq_mul_inv, lt_div_iff₀ hp]

theorem belowPower_mono (n d : Nat) (e t : Int) (h : belowPower n d t = true) (hle : t ≤ e) :
    belowPower n d e = true := by
  rw [belowPower_iff] at h ⊢
  refine lt_of_lt_of_le h ?_
  apply mul_le_mul_of_nonneg_left _ (Nat.cast_nonneg d)
  exact zpow_le_zpow_right₀ (by norm_num) (by omega)

theorem findExponent_eq (n d : Nat) (e : Int) (hbelow : belowPower n d e = true) :
    ∀ (fuel : Nat) (s : Int), s ≤ e → e < s + fuel →
      (∀ t, s ≤ t → t < e → belowPower n d t = false) →
      findExponent n d fuel s = some e := by
  intro fuel
  induction fuel with
  | zero =>
    intro s h1 h2 _
    simp only [Nat.cast_zero, add_zero] at h2
    omega
  | succ fuel ih =>
    intro s h1 h2 hleast
    rw [findExponent]
    by_cases hs : s = e
    · rw [hs, hbelow]
      rfl
    · have hlt : s < e := lt_of_le_of_ne h1 hs
      rw [hleast s (le_refl _) hlt]
      simp only [Bool.false_eq_true, if_false]
      apply ih (s + 1) (by omega) (by push_cast at h2; omega)
      intro t ht1 ht2
      exact hleast t (by omega) ht2

/-- The exponent of a value: the least one with which the significand has no more than
53 bits. -/
theorem findExponent_of_least (n d : Nat) (e : Int) (he : -1074 ≤ e) (he2 : e ≤ 971)
    (hbelow : belowPower n d e = true)
    (hleast : e = -1074 ∨ belowPower n d (e - 1) = false) :
    findExponent n d 2046 (-1074) = some e := by
  apply findExponent_eq n d e hbelow 2046 (-1074) he (by omega)
  intro t _ ht
  rcases hleast with h | h
  · omega
  · cases hb : belowPower n d t with
    | false => rfl
    | true =>
      rw [belowPower_mono n d (e - 1) t hb (by omega)] at h
      cases h

theorem num_den_of_ratio (neg : Bool) (n d : Nat) (hd : 0 < d)
    (hcop : Nat.Coprime n d) :
    ((if neg then -1 else 1) * ((n : Rat) / d)).num = (if neg then -1 else 1) * (n : Int) ∧
    ((if neg then -1 else 1) * ((n : Rat) / d)).den = d := by
  have hb : (0 : Int) < (d : Int) := by exact_mod_cast hd
  cases neg with
  | false =>
    have e : (if false = true then (-1 : Rat) else 1) * ((n : Rat) / d) =
        (((n : Int) : Rat) / ((d : Int) : Rat)) := by
      simp
    rw [e]
    constructor
    · rw [Rat.num_div_eq_of_coprime hb (by simpa using hcop)]
      simp
    · have := Rat.den_div_eq_of_coprime hb (show Nat.Coprime (n : Int).natAbs (d : Int).natAbs by
        simpa using hcop)
      exact_mod_cast this
  | true =>
    have e : (if true = true then (-1 : Rat) else 1) * ((n : Rat) / d) =
        (((-(n : Int) : Int) : Rat) / ((d : Int) : Rat)) := by
      simp
      ring
    rw [e]
    constructor
    · rw [Rat.num_div_eq_of_coprime hb (by simpa using hcop)]
      simp
    · have := Rat.den_div_eq_of_coprime hb
        (show Nat.Coprime (-(n : Int)).natAbs (d : Int).natAbs by simpa using hcop)
      exact_mod_cast this

/-- The binary64 value of a quotient in lowest terms, from its exponent and its
significand. -/
theorem roundBinary64_eq (x q : Rat) (neg : Bool) (n d m : Nat) (e : Int)
    (hx : x = (if neg then -1 else 1) * ((n : Rat) / d))
    (hn : 0 < n) (hd : 0 < d) (hcop : Nat.Coprime n d)
    (he : -1074 ≤ e) (he2 : e < 971)
    (hbelow : belowPower n d e = true)
    (hleast : e = -1074 ∨ belowPower n d (e - 1) = false)
    (hm : roundQuotient (n * 2 ^ (-e).toNat) (d * 2 ^ e.toNat) = m)
    (hq : q = (if neg then -1 else 1) * ((m : Rat) * 2 ^ e)) :
    roundBinary64 x = .finite q := by
  obtain ⟨hnum, hden⟩ := num_den_of_ratio neg n d hd hcop
  rw [← hx] at hnum hden
  have habs : x.num.natAbs = n := by
    rw [hnum]
    cases neg <;> simp
  have hne : x.num ≠ 0 := by
    intro h0
    rw [h0] at habs
    simp at habs
    omega
  have hneg : (x.num < 0) ↔ neg = true := by
    rw [hnum]
    cases neg with
    | false => simp
    | true =>
      simp only [if_true, neg_mul, one_mul, Left.neg_neg_iff, Nat.cast_pos, iff_true]
      exact hn
  unfold roundBinary64
  rw [if_neg hne, habs, hden, findExponent_of_least n d e he (by omega) hbelow hleast]
  simp only
  rw [if_neg (fun h => by omega), hm, hq]
  cases neg with
  | false =>
    have : ¬ x.num < 0 := fun h => by simpa using hneg.mp h
    rw [if_neg this]
    rfl
  | true =>
    rw [if_pos (hneg.mpr rfl)]
    rfl

/-! ## Values of binary64 rounding -/

theorem binary64_10 : roundBinary64 10 = .finite 10 :=
  roundBinary64_eq (10) 10 false 10 1 5629499534213120 (-49) (by norm_num) (by decide) (by decide) (by norm_num)
      (by decide) (by decide) (by decide) (Or.inr (by decide)) (by decide) (by norm_num)

theorem binary64_20 : roundBinary64 20 = .finite 20 :=
  roundBinary64_eq (20) 20 false 20 1 5629499534213120 (-48) (by norm_num) (by decide) (by decide) (by norm_num)
      (by decide) (by decide) (by decide) (Or.inr (by decide)) (by decide) (by norm_num)

theorem binary64_30 : roundBinary64 30 = .finite 30 :=
  roundBinary64_eq (30) 30 false 30 1 8444249301319680 (-48) (by norm_num) (by decide) (by decide) (by norm_num)
      (by decide) (by decide) (by decide) (Or.inr (by decide)) (by decide) (by norm_num)

theorem binary64_40 : roundBinary64 40 = .finite 40 :=
  roundBinary64_eq (40) 40 false 40 1 5629499534213120 (-47) (by norm_num) (by decide) (by decide) (by norm_num)
      (by decide) (by decide) (by decide) (Or.inr (by decide)) (by decide) (by norm_num)

theorem binary64_15 : roundBinary64 15 = .finite 15 :=
  roundBinary64_eq (15) 15 false 15 1 8444249301319680 (-49) (by norm_num) (by decide) (by decide) (by norm_num)
      (by decide) (by decide) (by decide) (Or.inr (by decide)) (by decide) (by norm_num)

theorem binary64_35 : roundBinary64 35 = .finite 35 :=
  roundBinary64_eq (35) 35 false 35 1 4925812092436480 (-47) (by norm_num) (by decide) (by decide) (by norm_num)
      (by decide) (by decide) (by decide) (Or.inr (by decide)) (by decide) (by norm_num)

theorem binary64_70 : roundBinary64 70 = .finite 70 :=
  roundBinary64_eq (70) 70 false 70 1 4925812092436480 (-46) (by norm_num) (by decide) (by decide) (by norm_num)
      (by decide) (by decide) (by decide) (Or.inr (by decide)) (by decide) (by norm_num)

theorem binary64_tenth : roundBinary64 (1 / 10) = .finite (3602879701896397 / 36028797018963968) :=
  roundBinary64_eq ((1 / 10)) (3602879701896397 / 36028797018963968) false 1 10 7205759403792794 (-56) (by norm_num) (by decide) (by decide) (by norm_num)
      (by decide) (by decide) (by decide) (Or.inr (by decide)) (by decide) (by norm_num)

theorem binary64_fifth : roundBinary64 (1 / 5) = .finite (3602879701896397 / 18014398509481984) :=
  roundBinary64_eq ((1 / 5)) (3602879701896397 / 18014398509481984) false 1 5 7205759403792794 (-55) (by norm_num) (by decide) (by decide) (by norm_num)
      (by decide) (by decide) (by decide) (Or.inr (by decide)) (by decide) (by norm_num)

theorem binary64_three_twentieths : roundBinary64 (3 / 20) = .finite (5404319552844595 / 36028797018963968) :=
  roundBinary64_eq ((3 / 20)) (5404319552844595 / 36028797018963968) false 3 20 5404319552844595 (-55) (by norm_num) (by decide) (by decide) (by norm_num)
      (by decide) (by decide) (by decide) (Or.inr (by decide)) (by decide) (by norm_num)

theorem binary64_tenth_plus_fifth : roundBinary64 (10808639105689191 / 36028797018963968) = .finite (1351079888211149 / 4503599627370496) :=
  roundBinary64_eq ((10808639105689191 / 36028797018963968)) (1351079888211149 / 4503599627370496) false 10808639105689191 36028797018963968 5404319552844596 (-54) (by norm_num) (by decide) (by decide) (by norm_num)
      (by decide) (by decide) (by decide) (Or.inr (by decide)) (by decide) (by norm_num)

theorem binary64_half_of_sum : roundBinary64 (1351079888211149 / 9007199254740992) = .finite (1351079888211149 / 9007199254740992) :=
  roundBinary64_eq ((1351079888211149 / 9007199254740992)) (1351079888211149 / 9007199254740992) false 1351079888211149 9007199254740992 5404319552844596 (-55) (by norm_num) (by decide) (by decide) (by norm_num)
      (by decide) (by decide) (by decide) (Or.inr (by decide)) (by decide) (by norm_num)

theorem binary64_21_2 : roundBinary64 (21 / 2) = .finite (21 / 2) :=
  roundBinary64_eq ((21 / 2)) (21 / 2) false 21 2 5910974510923776 (-49) (by norm_num) (by decide) (by decide) (by norm_num)
      (by decide) (by decide) (by decide) (Or.inr (by decide)) (by decide) (by norm_num)

theorem binary64_13_4 : roundBinary64 (-13 / 4) = .finite (-13 / 4) :=
  roundBinary64_eq ((-13 / 4)) (-13 / 4) true 13 4 7318349394477056 (-51) (by norm_num) (by decide) (by decide) (by norm_num)
      (by decide) (by decide) (by decide) (Or.inr (by decide)) (by decide) (by norm_num)

theorem binary64_11 : roundBinary64 11 = .finite 11 :=
  roundBinary64_eq (11) 11 false 11 1 6192449487634432 (-49) (by norm_num) (by decide) (by decide) (by norm_num)
      (by decide) (by decide) (by decide) (Or.inr (by decide)) (by decide) (by norm_num)

theorem binary64_9_2 : roundBinary64 (-9 / 2) = .finite (-9 / 2) :=
  roundBinary64_eq ((-9 / 2)) (-9 / 2) true 9 2 5066549580791808 (-50) (by norm_num) (by decide) (by decide) (by norm_num)
      (by decide) (by decide) (by decide) (Or.inr (by decide)) (by decide) (by norm_num)

theorem binary64_1 : roundBinary64 1 = .finite 1 :=
  roundBinary64_eq (1) 1 false 1 1 4503599627370496 (-52) (by norm_num) (by decide) (by decide) (by norm_num)
      (by decide) (by decide) (by decide) (Or.inr (by decide)) (by decide) (by norm_num)

theorem binary64_2 : roundBinary64 2 = .finite 2 :=
  roundBinary64_eq (2) 2 false 2 1 4503599627370496 (-51) (by norm_num) (by decide) (by decide) (by norm_num)
      (by decide) (by decide) (by decide) (Or.inr (by decide)) (by decide) (by norm_num)

theorem binary64_3 : roundBinary64 3 = .finite 3 :=
  roundBinary64_eq (3) 3 false 3 1 6755399441055744 (-51) (by norm_num) (by decide) (by decide) (by norm_num)
      (by decide) (by decide) (by decide) (Or.inr (by decide)) (by decide) (by norm_num)

theorem binary64_4 : roundBinary64 4 = .finite 4 :=
  roundBinary64_eq (4) 4 false 4 1 4503599627370496 (-50) (by norm_num) (by decide) (by decide) (by norm_num)
      (by decide) (by decide) (by decide) (Or.inr (by decide)) (by decide) (by norm_num)

/-! ## Centroid in binary64 arithmetic -/

/-- The half of the sum of two literals when the arithmetic keeps their values and
their sum as they are: the Number value of their arithmetic mean. -/
theorem half_sum_of_exact (ops : NumberOps) (a b : List Char) (da db : DecimalLiteral)
    (ha : signedLiteral a = some (da, [])) (hb : signedLiteral b = some (db, []))
    (ra : ops.round da.value = .finite da.value) (rb : ops.round db.value = .finite db.value)
    (rs : ops.round (da.value + db.value) = .finite (da.value + db.value)) :
    jsHalf ops (jsAdd ops (parseFloat ops (String.mk a)) (parseFloat ops (String.mk b))) =
      ops.round ((da.value + db.value) / 2) := by
  rw [parseFloat_of_literal ops a da [] ha, parseFloat_of_literal ops b db [] hb, ra, rb]
  simp only [jsAdd, rs, jsHalf]

/-- The half of the sum of two literals in binary64 arithmetic: each literal is
rounded, their sum is rounded, and the half of it is rounded. -/
theorem half_sum_binary64 (digits : Rat → String) (a b ra rb : List Char)
    (da db : DecimalLiteral) (x y s : Rat)
    (ha : signedLiteral a = some (da, ra)) (hb : signedLiteral b = some (db, rb))
    (hx : roundBinary64 da.value = .finite x) (hy : roundBinary64 db.value = .finite y)
    (hs : roundBinary64 (x + y) = .finite s) :
    jsHalf (binary64Ops digits) (jsAdd (binary64Ops digits)
      (parseFloat (binary64Ops digits) (String.mk a))
      (parseFloat (binary64Ops digits) (String.mk b))) = roundBinary64 (s / 2) := by
  rw [parseFloat_of_literal _ a da ra ha, parseFloat_of_literal _ b db rb hb]
  show jsHalf _ (jsAdd _ (roundBinary64 da.value) (roundBinary64 db.value)) = _
  rw [hx, hy]
  show jsHalf _ (roundBinary64 (x + y)) = _
  rw [hs]
  rfl

/-- C12, as amended.  In binary64 arithmetic, when the page has a midpoint assignment
of `lat_mid`, `center_lat` is `(parseFloat(A) + parseFloat(B)) / 2` for the two
literals of the leftmost one; when it has none, `center_lat` is null; likewise for
`lng_mid` and `center_lng`, each on its own.  The value is got in three roundings:
each literal is rounded to a Number, the sum of the two Numbers is rounded, and the
half of that is rounded.  For two decimal literals whose values and whose sum are
Numbers, it is the Number nearest their arithmetic mean. -/
theorem centroid_extraction (digits : Rat → String) (html : String) :
    (∀ pre a b, IsMidAt "lat_mid" html.data pre a b →
      (∀ p a' b', IsMidAt "lat_mid" html.data p a' b' → pre.length ≤ p.length) →
      (extractCoordinates (binary64Ops digits) html).center_lat =
        some (jsHalf (binary64Ops digits) (jsAdd (binary64Ops digits)
          (parseFloat (binary64Ops digits) (String.mk a))
          (parseFloat (binary64Ops digits) (String.mk b))))) ∧
    (∀ pre a b, IsMidAt "lng_mid" html.data pre a b →
      (∀ p a' b', IsMidAt "lng_mid" html.data p a' b' → pre.length ≤ p.length) →
      (extractCoordinates (binary64Ops digits) html).center_lng =
        some (jsHalf (binary64Ops digits) (jsAdd (binary64Ops digits)
          (parseFloat (binary64Ops digits) (String.mk a))
          (parseFloat (binary64Ops digits) (String.mk b))))) ∧
    ((∀ pre a b, ¬ IsMidAt "lat_mid" html.data pre a b) →
      (extractCoordinates (binary64Ops digits) html).center_lat = none) ∧
    ((∀ pre a b, ¬ IsMidAt "lng_mid" html.data pre a b) →
      (extractCoordinates (binary64Ops digits) html).center_lng = none) ∧
    (∀ (a b ra rb : List Char) (da db : DecimalLiteral) (x y s : Rat),
      signedLiteral a = some (da, ra) → signedLiteral b = some (db, rb) →
      roundBinary64 da.value = .finite x → roundBinary64 db.value = .finite y →
      roundBinary64 (x + y) = .finite s →
      jsHalf (binary64Ops digits) (jsAdd (binary64Ops digits)
        (parseFloat (binary64Ops digits) (String.mk a))
        (parseFloat (binary64Ops digits) (String.mk b))) = roundBinary64 (s / 2)) ∧
    (∀ (a b : List Char) (da db : DecimalLiteral),
      signedLiteral a = some (da, []) → signedLiteral b = some (db, []) →
      roundBinary64 da.value = .finite da.value → roundBinary64 db.value = .finite db.value →
      roundBinary64 (da.value + db.value) = .finite (da.value + db.value) →
      jsHalf (binary64Ops digits) (jsAdd (binary64Ops digits)
        (parseFloat (binary64Ops digits) (String.mk a))
        (parseFloat (binary64Ops digits) (String.mk b))) =
          roundBinary64 ((da.value + db.value) / 2)) := by
  refine ⟨fun pre a b h hmin => midpoint_of_leftmost _ _ html pre a b h hmin,
    fun pre a b h hmin => midpoint_of_leftmost _ _ html pre a b h hmin,
    fun h => midpoint_none _ _ html h, fun h => midpoint_none _ _ html h, ?_, ?_⟩
  · intro a b ra rb da db x y s ha hb hx hy hs
    exact half_sum_binary64 digits a b ra rb da db x y s ha hb hx hy hs
  · intro a b da db ha hb ra rb rs
    exact half_sum_of_exact (binary64Ops digits) a b da db ha hb ra rb rs

/-- C12 at the page of the specification, in binary64 arithmetic: 15 and 35; and at
a page with the latitude assignment only, where `center_lng` is null. -/
theorem centroid_extraction_witness :
    (∀ digits, (extractCoordinates (binary64Ops digits) bothMidpoints).center_lat =
      some (.finite 15)) ∧
    (∀ digits, (extractCoordinates (binary64Ops digits) bothMidpoints).center_lng =
      some (.finite 35)) ∧
    (∀ digits, (extractCoordinates (binary64Ops digits) latitudeOnly).center_lat =
      some (.finite 15)) ∧
    (∀ digits, (extractCoordinates (binary64Ops digits) latitudeOnly).center_lng = none) := by
  have v10 : (⟨false, 10, 0, 1⟩ : DecimalLiteral).value = 10 := by
    norm_num [DecimalLiteral.value]
  have v20 : (⟨false, 20, 0, 1⟩ : DecimalLiteral).value = 20 := by
    norm_num [DecimalLiteral.value]
  have v30 : (⟨false, 30, 0, 1⟩ : DecimalLiteral).value = 30 := by
    norm_num [DecimalLiteral.value]
  have v40 : (⟨false, 40, 0, 1⟩ : DecimalLiteral).value = 40 := by
    norm_num [DecimalLiteral.value]
  have blank : IsBlank " ".data := by unfold IsBlank; decide
  have none_ : IsBlank [] := fun _ h => by cases h
  have lat : ∀ digits, jsHalf (binary64Ops digits) (jsAdd (binary64Ops digits)
      (parseFloat (binary64Ops digits) (String.mk "10.0".data))
      (parseFloat (binary64Ops digits) (String.mk "20.0".data))) = .finite 15 := by
    intro digits
    rw [(centroid_extraction digits "").2.2.2.2.2 "10.0".data "20.0".data
      ⟨false, 10, 0, 1⟩ ⟨false, 20, 0, 1⟩ (by decide) (by decide)
      (by rw [v10]; exact binary64_10) (by rw [v20]; exact binary64_20)
      (by rw [v10, v20, show (10 + 20 : Rat) = 30 from by norm_num]; exact binary64_30),
      v10, v20, show ((10 + 20) / 2 : Rat) = 15 from by norm_num]
    exact binary64_15
  have lng : ∀ digits, jsHalf (binary64Ops digits) (jsAdd (binary64Ops digits)
      (parseFloat (binary64Ops digits) (String.mk "30.0".data))
      (parseFloat (binary64Ops digits) (String.mk "40.0".data))) = .finite 35 := by
    intro digits
    rw [(centroid_extraction digits "").2.2.2.2.2 "30.0".data "40.0".data
      ⟨false, 30, 0, 1⟩ ⟨false, 40, 0, 1⟩ (by decide) (by decide)
      (by rw [v30]; exact binary64_30) (by rw [v40]; exact binary64_40)
      (by rw [v30, v40, show (30 + 40 : Rat) = 70 from by norm_num]; exact binary64_70),
      v30, v40, show ((30 + 40) / 2 : Rat) = 35 from by norm_num]
    exact binary64_35
  refine ⟨?_, ?_, ?_, ?_⟩
  · intro digits
    rw [(centroid_extraction digits bothMidpoints).1 "var ".data "10.0".data "20.0".data
      ⟨" ".data, " ".data, [], " ".data, " ".data, " ".data, " ".data,
        "; var lng_mid = (30.0 + 40.0) / 2;".data, blank, blank, none_, blank, blank, blank,
        blank, ⟨by decide, by decide⟩, ⟨by decide, by decide⟩, by decide⟩
      (isMidAt_position "lat_mid" bothMidpoints.data 4 (by decide))]
    exact congrArg some (lat digits)
  · intro digits
    rw [(centroid_extraction digits bothMidpoints).2.1
      "var lat_mid = (10.0 + 20.0) / 2; var ".data "30.0".data "40.0".data
      ⟨" ".data, " ".data, [], " ".data, " ".data, " ".data, " ".data, ";".data, blank, blank,
        none_, blank, blank, blank, blank, ⟨by decide, by decide⟩, ⟨by decide, by decide⟩, by decide⟩
      (isMidAt_position "lng_mid" bothMidpoints.data 37 (by decide))]
    exact congrArg some (lng digits)
  · intro digits
    rw [(centroid_extraction digits latitudeOnly).1 "var ".data "10.0".data "20.0".data
      ⟨" ".data, " ".data, [], " ".data, " ".data, " ".data, " ".data, ";".data, blank, blank,
        none_, blank, blank, blank, blank, ⟨by decide, by decide⟩, ⟨by decide, by decide⟩, by decide⟩
      (isMidAt_position "lat_mid" latitudeOnly.data 4 (by decide))]
    exact congrArg some (lat digits)
  · intro digits
    exact (centroid_extraction digits latitudeOnly).2.2.2.1
      (fun pre a b h => absurd (isMidAt_position "lng_mid" latitudeOnly.data
        (latitudeOnly.data.length + 1) (by decide) pre a b h) (by
          obtain ⟨w1, w2, w3, w4, w5, w6, w7, rest, _, _, _, _, _, _, _, _, _, e⟩ := h
          have hl := congrArg List.length e
          rw [List.length_append] at hl
          omega))

/-- C12 as stated fails: at a page with `lat_mid = (0.1 + 0.2) / 2` the field
`center_lat` is 0.15000000000000002, the half of the rounded sum of the Numbers of the
two literals.  The arithmetic mean of the literals is 0.15; the field is neither that
value nor the Number nearest it. -/
theorem mean_of_tenths_rounded :
    (∀ digits, (extractCoordinates (binary64Ops digits) tenthsPage).center_lat =
      some (.finite (1351079888211149 / 9007199254740992))) ∧
    signedLiteral "0.1".data = some (⟨false, 0, 1, 1⟩, []) ∧
    signedLiteral "0.2".data = some (⟨false, 0, 2, 1⟩, []) ∧
    ((⟨false, 0, 1, 1⟩ : DecimalLiteral).value + (⟨false, 0, 2, 1⟩ : DecimalLiteral).value) / 2 =
      3 / 20 ∧
    roundBinary64 (3 / 20) = .finite (5404319552844595 / 36028797018963968) ∧
    (1351079888211149 / 9007199254740992 : Rat) ≠ 3 / 20 ∧
    (1351079888211149 / 9007199254740992 : Rat) ≠ 5404319552844595 / 36028797018963968 := by
  have v1 : (⟨false, 0, 1, 1⟩ : DecimalLiteral).value = 1 / 10 := by
    norm_num [DecimalLiteral.value]
  have v2 : (⟨false, 0, 2, 1⟩ : DecimalLiteral).value = 1 / 5 := by
    norm_num [DecimalLiteral.value]
  have blank : IsBlank " ".data := by unfold IsBlank; decide
  have none_ : IsBlank [] := fun _ h => by cases h
  refine ⟨?_, by decide, by decide, by rw [v1, v2]; norm_num, binary64_three_twentieths,
    by norm_num, by norm_num⟩
  intro digits
  have hm := midpoint_of_leftmost (binary64Ops digits) "lat_mid" tenthsPage "var ".data
    "0.1".data "0.2".data
    ⟨" ".data, " ".data, [], " ".data, " ".data, " ".data, " ".data, ";".data, blank, blank,
      none_, blank, blank, blank, blank, ⟨by decide, by decide⟩, ⟨by decide, by decide⟩, by decide⟩
    (isMidAt_position "lat_mid" tenthsPage.data 4 (by decide))
  show midpoint (binary64Ops digits) "lat_mid" tenthsPage = _
  rw [hm, half_sum_binary64 digits "0.1".data "0.2".data [] [] ⟨false, 0, 1, 1⟩ ⟨false, 0, 2, 1⟩
    (3602879701896397 / 36028797018963968) (3602879701896397 / 18014398509481984)
    (1351079888211149 / 4503599627370496) (by decide) (by decide)
    (by rw [v1]; exact binary64_tenth) (by rw [v2]; exact binary64_fifth)
    (by
      rw [show (3602879701896397 / 36028797018963968 + 3602879701896397 / 18014398509481984 : Rat)
        = 10808639105689191 / 36028797018963968 from by norm_num]
      exact binary64_tenth_plus_fifth),
    show (1351079888211149 / 4503599627370496 / 2 : Rat) = 1351079888211149 / 9007199254740992
      from by norm_num, binary64_half_of_sum]

/-! ## Bounding polygon, the whole claim -/

/-- No assignment of an array starts before position `n` when no attempt of the
pattern before `n` succeeds. -/
theorem isCordsAt_position (html : List Char) (n : Nat)
    (hn : ∀ k, k < n → cordsMatchHere (html.drop k) = none) (p g : List Char)
    (h : IsCordsAt html p g) : n ≤ p.length := by
  by_contra hlt
  have hk := hn p.length (by omega)
  obtain ⟨s, e, hs⟩ := isCordsAt_unshift html p g h
  rw [e, List.drop_left, cordsMatchHere_of_isCordsAt s g hs] at hk
  cases hk

theorem isCordsAt_length (html p g : List Char) (h : IsCordsAt html p g) :
    p.length < html.length := by
  obtain ⟨w1, w2, w3, items, rest, _, _, _, _, _, _, e⟩ := h
  have h5 : "cords".data.length = 5 := rfl
  rw [e, List.length_append, List.length_append, h5]
  omega

/-- A text has no assignment of an array when no attempt of the pattern succeeds. -/
theorem isCordsAt_none (html : List Char)
    (hn : ∀ k, k < html.length → cordsMatchHere (html.drop k) = none) (p g : List Char) :
    ¬ IsCordsAt html p g := by
  intro h
  have h1 := isCordsAt_position html html.length hn p g h
  have h2 := isCordsAt_length html p g h
  omega

/-- An assignment of an array at a position of a text, from the attempt of the pattern
there. -/
theorem isCordsAt_of_attempt (html pre s g : List Char) (e : html = pre ++ s)
    (h : cordsMatchHere s = some g) : IsCordsAt html pre g := by
  rw [e]
  exact isCordsAt_shift pre s g (isCordsAt_of_cordsMatchHere s g h)

/-- The pair literals of a text are those the search finds, and no others. -/
theorem pairsOf_iff (g : List Char) (ps : List (List Char × List Char)) :
    PairsOf g ps ↔ ps = allPairs 0 g := by
  constructor
  · exact pairsOf_unique g ps
  · intro h
    rw [h]
    exact pairsOf_allPairs g.length g (Nat.le_refl _)

/-- The Number of a literal text in binary64 arithmetic. -/
theorem parseFloat_binary64 (digits : Rat → String) (a : String) (d : DecimalLiteral)
    (q : Rat) (rest : List Char) (ha : signedLiteral a.data = some (d, rest))
    (hq : roundBinary64 d.value = .finite q) :
    parseFloat (binary64Ops digits) (String.mk a.data) = .finite q := by
  rw [parseFloat_of_literal _ a.data d rest ha]
  exact hq

/-- C14.  In binary64 arithmetic, the bounding polygon is null or a non-empty list.
When the page has an assignment of an array to `cords`, which is a match of the
pattern of the array and not only the word, the polygon is got from the leftmost one:
it is the list of the points of the pair literals found in the text of its objects,
from left to right, when there is one or more, and null when there is none; objects
that are no pair literal are passed over.  It is null when the page has no such
assignment.  Every page is in one of the two cases, and the pair literals of a text
are determined.  The two Numbers of a point are those of the literals at the start of
its two texts, rounded.  The field `bbox_json` of the record is null exactly when the
polygon is. -/
theorem bounding_polygon (digits : Rat → String) (html : String) :
    ((extractCoordinates (binary64Ops digits) html).bbox = none ∨
      ∃ points, points ≠ [] ∧ (extractCoordinates (binary64Ops digits) html).bbox = some points) ∧
    (∀ (pre group : List Char) (pairs : List (List Char × List Char)),
      IsCordsAt html.data pre group →
      (∀ p g, IsCordsAt html.data p g → pre.length ≤ p.length) →
      PairsOf group pairs →
      (pairs ≠ [] → (extractCoordinates (binary64Ops digits) html).bbox =
        some (pairs.map (pairPoint (binary64Ops digits)))) ∧
      (pairs = [] → (extractCoordinates (binary64Ops digits) html).bbox = none)) ∧
    ((∀ pre group, ¬ IsCordsAt html.data pre group) →
      (extractCoordinates (binary64Ops digits) html).bbox = none) ∧
    ((∃ pre group, IsCordsAt html.data pre group) →
      ∃ pre group, IsCordsAt html.data pre group ∧
        ∀ p g, IsCordsAt html.data p g → pre.length ≤ p.length) ∧
    (∀ group : List Char, ∃ pairs, PairsOf group pairs ∧ ∀ ps, PairsOf group ps → ps = pairs) ∧
    (∀ (a b rest : List Char) (d : DecimalLiteral),
      (signedLiteral a = some (d, rest) →
        (pairPoint (binary64Ops digits) (a, b)).lat = roundBinary64 d.value) ∧
      (signedLiteral b = some (d, rest) →
        (pairPoint (binary64Ops digits) (a, b)).lng = roundBinary64 d.value)) ∧
    (∀ (doi : String) (document : List Node) (datacite : Option String),
      (parseDetails (binary64Ops digits) doi { data := html, document := document }
          datacite).bbox_json = none ↔
        (extractCoordinates (binary64Ops digits) html).bbox = none) := by
  refine ⟨boundingBox_shape _ html, ?_, boundingBox_none_of_no_cords _ html,
    isCordsAt_leftmost html.data, ?_, ?_, ?_⟩
  · intro pre group pairs h hmin hp
    have hb := boundingBox_of_cords (binary64Ops digits) html pre group pairs h hmin hp
    exact ⟨hb.2, hb.1⟩
  · intro group
    exact ⟨allPairs 0 group, (pairsOf_iff group _).mpr rfl,
      fun ps hps => (pairsOf_iff group ps).mp hps⟩
  · intro a b rest d
    exact ⟨fun h => parseFloat_of_literal _ a d rest h, fun h => parseFloat_of_literal _ b d rest h⟩
  · intro doi document datacite
    rw [parseDetails_bbox_json]
    show Option.map (stringifyBbox _) (boundingBox _ html) = none ↔ boundingBox _ html = none
    cases boundingBox (binary64Ops digits) html <;> simp

/-- C14 in binary64 arithmetic at a page with an array of two points; at a page where
the word `records` with no array after it comes before the array; at a page whose
array has an object that is no point between two points; at a page whose array has no
point, where the polygon and `bbox_json` are null; and at a page with the word
`records` and no array, where the polygon is null. -/
theorem bounding_polygon_witness :
    (∀ digits, (extractCoordinates (binary64Ops digits) twoPointPage).bbox =
      some [{ lat := .finite (21 / 2), lng := .finite (-13 / 4) },
            { lat := .finite 11, lng := .finite (-9 / 2) }]) ∧
    (∀ digits, (extractCoordinates (binary64Ops digits) recordsPage).bbox =
      some [{ lat := .finite (21 / 2), lng := .finite (-13 / 4) }]) ∧
    (∀ digits, (extractCoordinates (binary64Ops digits) mixedArrayPage).bbox =
      some [{ lat := .finite 1, lng := .finite 2 }, { lat := .finite 3, lng := .finite 4 }]) ∧
    (∀ digits, (extractCoordinates (binary64Ops digits) noPointPage).bbox = none) ∧
    (∀ digits, (parseDetails (binary64Ops digits) "10.1/abc"
      { data := noPointPage, document := [] } none).bbox_json = none) ∧
    (∀ digits, (extractCoordinates (binary64Ops digits) noArrayPage).bbox = none) := by
  have value : ∀ (digits : Rat → String) (a : String) (d : DecimalLiteral) (q : Rat),
      signedLiteral a.data = some (d, []) → d.value = q → roundBinary64 q = .finite q →
      parseFloat (binary64Ops digits) (String.mk a.data) = .finite q := by
    intro digits a d q ha hq hr
    exact parseFloat_binary64 digits a d q [] ha (by rw [hq]; exact hr)
  have p1 := fun digits => value digits "10.5" ⟨false, 10, 5, 1⟩ (21 / 2) (by decide)
    (by norm_num [DecimalLiteral.value]) binary64_21_2
  have p2 := fun digits => value digits "-3.25" ⟨true, 3, 25, 2⟩ (-13 / 4) (by decide)
    (by norm_num [DecimalLiteral.value]) binary64_13_4
  have p3 := fun digits => value digits "11" ⟨false, 11, 0, 0⟩ 11 (by decide)
    (by norm_num [DecimalLiteral.value]) binary64_11
  have p4 := fun digits => value digits "-4.5" ⟨true, 4, 5, 1⟩ (-9 / 2) (by decide)
    (by norm_num [DecimalLiteral.value]) binary64_9_2
  have q1 := fun digits => value digits "1" ⟨false, 1, 0, 0⟩ 1 (by decide)
    (by norm_num [DecimalLiteral.value]) binary64_1
  have q2 := fun digits => value digits "2" ⟨false, 2, 0, 0⟩ 2 (by decide)
    (by norm_num [DecimalLiteral.value]) binary64_2
  have q3 := fun digits => value digits "3" ⟨false, 3, 0, 0⟩ 3 (by decide)
    (by norm_num [DecimalLiteral.value]) binary64_3
  have q4 := fun digits => value digits "4" ⟨false, 4, 0, 0⟩ 4 (by decide)
    (by norm_num [DecimalLiteral.value]) binary64_4
  have noPoint : ∀ digits, (extractCoordinates (binary64Ops digits) noPointPage).bbox = none := by
    intro digits
    exact ((bounding_polygon digits noPointPage).2.1 "var ".data "\x7bx: 1\x7d".data []
      (isCordsAt_of_attempt _ _ "cords = [\x7bx: 1\x7d];".data _ (by decide) (by decide))
      (isCordsAt_position noPointPage.data 4 (by decide))
      ((pairsOf_iff _ _).mpr (by decide))).2 rfl
  refine ⟨?_, ?_, ?_, noPoint, ?_, ?_⟩
  · intro digits
    rw [((bounding_polygon digits twoPointPage).2.1 "var ".data
      "\x7blat: 10.5, lng: -3.25\x7d, \x7blat: 11, lng: -4.5\x7d ".data
      [("10.5".data, "-3.25".data), ("11".data, "-4.5".data)]
      (isCordsAt_of_attempt _ _
        "cords = [ \x7blat: 10.5, lng: -3.25\x7d, \x7blat: 11, lng: -4.5\x7d ];".data _
        (by decide) (by decide))
      (isCordsAt_position twoPointPage.data 4 (by decide))
      ((pairsOf_iff _ _).mpr (by decide))).1 (by simp)]
    simp only [List.map, pairPoint]
    rw [p1, p2, p3, p4]
  · intro digits
    rw [((bounding_polygon digits recordsPage).2.1 "var records = 2; ".data
      "\x7blat: 10.5, lng: -3.25\x7d".data [("10.5".data, "-3.25".data)]
      (isCordsAt_of_attempt _ _ "cords = [\x7blat: 10.5, lng: -3.25\x7d]; // records".data _
        (by decide) (by decide))
      (isCordsAt_position recordsPage.data 17 (by decide))
      ((pairsOf_iff _ _).mpr (by decide))).1 (by simp)]
    simp only [List.map, pairPoint]
    rw [p1, p2]
  · intro digits
    rw [((bounding_polygon digits mixedArrayPage).2.1 []
      "\x7blat:1,lng:2\x7d,\x7bx: 1\x7d,\x7b lat: 3, lng: 4 \x7d".data
      [("1".data, "2".data), ("3".data, "4".data)]
      (isCordsAt_of_attempt _ _ mixedArrayPage.data _ (by decide) (by decide))
      (isCordsAt_position mixedArrayPage.data 0 (by decide))
      ((pairsOf_iff _ _).mpr (by decide))).1 (by simp)]
    simp only [List.map, pairPoint]
    rw [q1, q2, q3, q4]
  · intro digits
    exact ((bounding_polygon digits noPointPage).2.2.2.2.2.2 "10.1/abc" [] none).mpr
      (noPoint digits)
  · intro digits
    exact (bounding_polygon digits noArrayPage).2.2.1
      (isCordsAt_none noArrayPage.data (by decide))

end Scrape
